import Mathlib

/-!
# xtimingwheel

A shallow embedding of `src/xtimingwheel.go` (package `xtool`): a timing wheel whose
control loop serialises three kinds of events (add, remove, tick). The checks of AddTask run
in the caller's goroutine, before the hand-off to the loop: `Step` and `runSteps` describe
the schedules of callers and loop, `Op` and `runOps` the runs in which every call is served
before the next one is made.

Modelling conventions.

* A `time.Duration` is its count of nanoseconds, an `Int`; `int(d.Seconds())` is computed
  as the code does, through float64 (`float64Seconds`), in exact integer arithmetic.
* A Go `int` is an `Int`; arithmetic that can leave the 64-bit range goes through `wrapInt`.
* A run-time panic (division by zero, index out of range, close of a closed channel) is the
  result `none`.
* A `*list.List` is the list of its elements from front to back. A `*list.Element` has an
  identity `id` (its address); `PushBack` allocates a fresh one from the counter `nextElem`.
* `sync.Map` is an association list from keys to element identities.
* `go taskEle.job(taskEle.key)` appends the pair (job, key) to the trace `spawned`.
-/

namespace XTool

/-- The constant time.Second, in nanoseconds. -/
def Second : Int := 1000000000

/-- Two's complement wrap-around of an exact integer result into the range of a 64-bit Go int. -/
def wrapInt (x : Int) : Int :=
  (x + 9223372036854775808) % 18446744073709551616 - 9223372036854775808

/-- The binary exponent of a positive number, with fuel: the `e` with `2^e ≤ n < 2^(e+1)`. -/
def exponentAux : Nat → Nat → Nat
  | 0, _ => 0
  | fuel + 1, n => if n < 2 then 0 else exponentAux fuel (n / 2) + 1

/-- The binary exponent of a positive number: the `e` with `2^e ≤ n < 2^(e+1)`. -/
def exponent (n : Nat) : Nat := exponentAux n n

/-- The quotient `a / b` rounded to the nearest integer, a tie to the even one: the rounding of
every float64 operation. -/
def roundHalfEven (a b : Nat) : Nat :=
  if 2 * (a % b) < b then a / b
  else if b < 2 * (a % b) then a / b + 1
  else if (a / b) % 2 = 0 then a / b
  else a / b + 1

/-- The value `int(float64(sec) + float64(nsec) / 1e9)` for `sec ≥ 0` and `0 ≤ nsec < 10^9`,
which is what `int(d.Seconds())` computes from `sec = d / Second` and `nsec = d % Second`.
Both conversions to float64 are exact (`sec < 2^34` for a 64-bit duration). For `nsec = 0` the
sum is `float64(sec)`. Otherwise the quotient `nsec / 1e9` lies in `[2^-k, 2^(1-k))` and is
rounded to 53 significant bits, `mq * 2^-(52+k)`; the exact sum is `x * 2^-(52+k)`; a sum below
one is the quotient itself, and a sum in `[2^e, 2^(e+1))` is rounded to 53 significant bits,
`ms * 2^(e-52)`; the conversion to `int` drops the fraction. -/
def float64Seconds (sec nsec : Nat) : Nat :=
  if nsec = 0 then sec
  else
    let j := exponent nsec
    let k := if 1000000000 ≤ nsec * 2 ^ (29 - j) then 29 - j else 30 - j
    let mq := roundHalfEven (nsec * 2 ^ (52 + k)) 1000000000
    let x := sec * 2 ^ (52 + k) + mq
    if sec = 0 then mq / 2 ^ (52 + k)
    else
      let e := exponent (x / 2 ^ (52 + k))
      let ms := roundHalfEven x (2 ^ (k + e))
      if 52 ≤ e then ms * 2 ^ (e - 52) else ms / 2 ^ (52 - e)

/-- The expression `int(d.Seconds())`. The method `Seconds` of time.Duration is
`sec := d / Second; nsec := d % Second; return float64(sec) + float64(nsec)/1e9`, with the
quotient and the remainder of Go (truncated toward zero, the remainder with the sign of `d`);
float64 arithmetic is symmetric in the sign, and so is the conversion to `int`. The result is
the quotient `d / Second` for every whole number of seconds and for every duration from 0 to
2^23 seconds (`intSeconds_mul`, `intSeconds_exact`); above, a fraction within rounding
distance of the next second gives the next second: 16777216.999999999 s gives 16777217. -/
def intSeconds (d : Int) : Int :=
  let sec := Int.tdiv d Second
  let nsec := Int.tmod d Second
  if d < 0 then -((float64Seconds sec.natAbs nsec.natAbs : Nat) : Int)
  else ((float64Seconds sec.natAbs nsec.natAbs : Nat) : Int)

/-- The struct Task. The callback `job` is represented by an identifier. -/
structure Task where
  key : String
  job : Nat
  executeAt : Int
  times : Int
  slot : Int
  circle : Int
  deriving DecidableEq, Repr

/-- A `*list.Element`: its identity and the task its `Value` points to. -/
structure Element where
  id : Nat
  Value : Task
  deriving DecidableEq, Repr

/-- The struct XTimeWheel. `ticker` is true while the ticker delivers ticks, `stopCh` is true
once the stop channel is closed. `nextElem` (the allocation counter for list elements) and
`spawned` (the jobs started by `go`, oldest first) are the two fields added by the model. -/
structure XTimeWheel where
  interval : Int
  ticker : Bool
  currentSlot : Nat
  slotNum : Int
  slots : List (List Element)
  stopCh : Bool
  taskRecords : List (String × Nat)
  isRun : Bool
  nextElem : Nat
  spawned : List (Nat × String)
  deriving DecidableEq, Repr

/-- The method sync.Map.Load. -/
def Load (key : String) (m : List (String × Nat)) : Option Nat :=
  (m.find? (fun p => p.1 = key)).map (fun p => p.2)

/-- The method sync.Map.Delete. -/
def Delete (key : String) (m : List (String × Nat)) : List (String × Nat) :=
  m.filter (fun p => p.1 ≠ key)

/-- The method sync.Map.Store. -/
def Store (key : String) (v : Nat) (m : List (String × Nat)) : List (String × Nat) :=
  Delete key m ++ [(key, v)]

/-- The method list.List.Remove for an element reached through its pointer: the element with
that identity is unlinked if it is in this list, otherwise the list is unchanged. -/
def Remove (id : Nat) (l : List Element) : List Element :=
  l.eraseP (fun e => e.id = id)

/-- Dereference of an element pointer held in the index: the element with that identity, if it
is linked in some slot list. -/
def findElement (slots : List (List Element)) (id : Nat) : Option Element :=
  slots.flatten.find? (fun e => e.id = id)

/-- The method calSlotAndCircle. `none` is the integer-divide-by-zero panic. -/
def calSlotAndCircle (t : XTimeWheel) (executeAt : Int) : Option (Int × Int) :=
  let delay := intSeconds executeAt
  let circleTime := wrapInt ((t.slots.length : Int) * intSeconds t.interval)
  if circleTime = 0 then none
  else
    let circle := wrapInt (Int.tdiv delay circleTime)
    if intSeconds t.interval = 0 then none
    else
      let steps := wrapInt (Int.tdiv delay (intSeconds t.interval))
      if t.slots.length = 0 then none
      else
        let slot := Int.tmod (wrapInt ((t.currentSlot : Int) + steps)) (t.slots.length : Int)
        some (slot, circle)

/-- The method addTask. `none` is a panic of calSlotAndCircle or of the indexing
`t.slots[slot]`. -/
def addTask (t : XTimeWheel) (task : Task) : Option XTimeWheel :=
  match calSlotAndCircle t task.executeAt with
  | none => none
  | some sc =>
    let slot := sc.1
    let circle := sc.2
    if 0 ≤ slot ∧ slot.toNat < t.slots.length then
      let ele : Element := { id := t.nextElem, Value := { task with slot := slot, circle := circle } }
      some { t with
        slots := t.slots.modify (fun l => l ++ [ele]) slot.toNat
        taskRecords := Store task.key ele.id t.taskRecords
        nextElem := t.nextElem + 1 }
    else none

/-- The method removeTask. An index entry always points to a linked element; for a pointer to
an unlinked element `Remove` would do nothing, and the model then only deletes the key. -/
def removeTask (t : XTimeWheel) (key : String) : Option XTimeWheel :=
  match Load key t.taskRecords with
  | none => some t
  | some id =>
    match findElement t.slots id with
    | none => some { t with taskRecords := Delete key t.taskRecords }
    | some ele =>
      if 0 ≤ ele.Value.slot ∧ ele.Value.slot.toNat < t.slots.length then
        some { t with
          slots := t.slots.modify (Remove id) ele.Value.slot.toNat
          taskRecords := Delete key t.taskRecords }
      else none

/-- The method incrCurrentSlot. -/
def incrCurrentSlot (t : XTimeWheel) : XTimeWheel :=
  { t with currentSlot := (t.currentSlot + 1) % t.slots.length }

/-- The loop of execute over the list of the current slot. The iterator `ele` stands at
position `i` of that list and the third argument is the part of the list from `ele` on (empty
when `ele` is nil).

* `circle > 0`: the task is decremented in place and `ele.Next()` is the following element.
* otherwise the job is started, the key is deleted from the index, the element is unlinked
  and the task is reinserted if it repeats (`PushBack` links a new element). Then the loop
  calls `ele.Next()` on the element it has just removed: `Remove` has cleared the `next` and
  `list` fields of that element, and `Next` returns nil for an element whose `list` is nil, so
  the loop ends there. -/
def executeLoop : XTimeWheel → Nat → List Element → Option XTimeWheel
  | t, _, [] => some t
  | t, i, ele :: rest =>
    let taskEle := ele.Value
    if taskEle.circle > 0 then
      let t1 := { t with
        slots := t.slots.modify
          (fun l => l.modify (fun e => { e with Value := { e.Value with circle := e.Value.circle - 1 } }) i)
          t.currentSlot }
      executeLoop t1 (i + 1) rest
    else
      let t1 := { t with spawned := t.spawned ++ [(taskEle.job, taskEle.key)] }
      let t2 := { t1 with taskRecords := Delete taskEle.key t1.taskRecords }
      let t3 := { t2 with slots := t2.slots.modify (fun l => l.eraseIdx i) t2.currentSlot }
      let again := decide (wrapInt (taskEle.times - 1) > 0)
      let taskEle1 := if again then { taskEle with times := wrapInt (taskEle.times - 1) } else taskEle
      match (if again then addTask t3 taskEle1 else some t3) with
      | none => none
      | some t4 => if taskEle1.times = -1 then addTask t4 taskEle1 else some t4

/-- The method execute: one tick. `none` is a panic (of the indexing of the current slot or of
a reinsertion). -/
def execute (t : XTimeWheel) : Option XTimeWheel :=
  match t.slots[t.currentSlot]? with
  | none => none
  | some taskList => (executeLoop t 0 taskList).map incrCurrentSlot

/-- The method start. -/
def start (t : XTimeWheel) : XTimeWheel :=
  if t.isRun then t
  else { t with slots := t.slots.map (fun _ => []), ticker := true, isRun := true }

/-- The function NewXTimingWheel. `make([]*list.List, slotNum)` is a list of `slotNum`
entries, each of which `start` replaces by an empty list. -/
def NewXTimingWheel (interval : Int) (slotNum : Int) : Except String XTimeWheel :=
  if interval ≤ 0 then .error "minimum interval need one second"
  else if slotNum ≤ 0 then .error "minimum slotNum need greater than zero"
  else .ok (start
    { interval := interval
      ticker := false
      currentSlot := 0
      slotNum := slotNum
      slots := List.replicate slotNum.toNat []
      stopCh := false
      taskRecords := []
      isRun := false
      nextElem := 0
      spawned := [] })

/-- The function DefaultTimingWheel: the wheel and the error it returns. The error of
NewXTimingWheel is discarded and nil is returned in its place. -/
def DefaultTimingWheel : Option XTimeWheel × Option String :=
  match NewXTimingWheel Second 12 with
  | .ok tw => (some tw, none)
  | .error _ => (none, none)

/-- The method Stop. `none` is the panic of closing a closed channel. -/
def Stop (t : XTimeWheel) : Option XTimeWheel :=
  if t.isRun then
    if t.stopCh then none
    else some { t with isRun := false, ticker := false, stopCh := true }
  else some t

/-- The method AddTask on the caller's side: the error it returns, or the task it sends on
`addTaskCh` (the send completes when the control loop receives the task). -/
def AddTask (t : XTimeWheel) (key : String) (job : Nat) (executeAt : Int) (times : Int) :
    Except String Task :=
  if key = "" then .error "key is empty"
  else if executeAt < t.interval then .error "key is empty"
  else if (Load key t.taskRecords).isSome then .error "key of job already exists"
  else .ok { key := key, job := job, times := times, executeAt := executeAt, slot := 0, circle := 0 }

/-- The method RemoveTask on the caller's side: the error it returns, or the key it sends on
`removeTaskCh`. -/
def RemoveTask (_t : XTimeWheel) (key : String) : Except String String :=
  if key = "" then .error "key is empty"
  else .ok key

/-- One event of the control loop together with the public call that produced it, for the
runs in which the loop serves a call before any other call or event happens (see `Step` for
the schedules in which other steps come between the checks of AddTask and the insertion). -/
inductive Op where
  | add (key : String) (job : Nat) (executeAt : Int) (times : Int)
  | remove (key : String)
  | tick
  deriving DecidableEq, Repr

/-- One public call directly followed by the iteration of `run` that serves it: a call that
returns an error hands nothing to the loop; otherwise the loop runs addTask, removeTask or
execute. For AddTask this is the schedule `call` then `insert` of `Step`, with nothing in
between (`call_insert_eq_apply`): the index that the checks of AddTask read is the index at
the insertion. -/
def Op.apply (t : XTimeWheel) : Op → Option XTimeWheel
  | .add key job executeAt times =>
    match AddTask t key job executeAt times with
    | .error _ => some t
    | .ok task => addTask t task
  | .remove key =>
    match RemoveTask t key with
    | .error _ => some t
    | .ok k => removeTask t k
  | .tick => execute t

/-- The control loop serving a sequence of calls one at a time, each served before the
next call is made. -/
def runOps : XTimeWheel → List Op → Option XTimeWheel
  | t, [] => some t
  | t, op :: ops =>
    match op.apply t with
    | none => none
    | some t1 => runOps t1 ops

/-- The control loop serving `n` ticks in a row. -/
def ticks : Nat → XTimeWheel → Option XTimeWheel
  | 0, t => some t
  | n + 1, t =>
    match execute t with
    | none => none
    | some t1 => ticks n t1

/-- The wheel built by `NewXTimingWheel(time.Second, 12)`, which DefaultTimingWheel returns. -/
def defaultWheel : XTimeWheel :=
  { interval := Second, ticker := true, currentSlot := 0, slotNum := 12,
    slots := List.replicate 12 [], stopCh := false, taskRecords := [], isRun := true,
    nextElem := 0, spawned := [] }

/-- A wheel of `n` slots that holds exactly one element, `e` in slot `s`, with the cursor at
`c`; the fields other than the cursor, the slots and the index are those of `b`. -/
def single (b : XTimeWheel) (n c s : Nat) (e : Element) : XTimeWheel :=
  { b with currentSlot := c, slots := (List.replicate n []).set s [e],
           taskRecords := [(e.Value.key, e.id)] }

/-- A wheel of `n` slots that holds no task, with the cursor at `c`; the other fields are those
of `b`. -/
def vacant (b : XTimeWheel) (n c : Nat) : XTimeWheel :=
  { b with currentSlot := c, slots := List.replicate n [], taskRecords := [] }

/-- The element with its circle replaced. -/
def Element.withCircle (e : Element) (k : Int) : Element :=
  { e with Value := { e.Value with circle := k } }

/-- The wheel in the middle of the due branch of the loop of execute: the job of `ele` has
been started, its key deleted from the index and the element at position `i` unlinked. -/
def unlinked (t : XTimeWheel) (i : Nat) (ele : Element) : XTimeWheel :=
  { t with
    spawned := t.spawned ++ [(ele.Value.job, ele.Value.key)]
    taskRecords := Delete ele.Value.key t.taskRecords
    slots := t.slots.modify (fun l => l.eraseIdx i) t.currentSlot }

/-- The wheel after the waiting branch of the loop of execute: the circle of the element at
position `i` of the current slot is decremented. -/
def decremented (t : XTimeWheel) (i : Nat) : XTimeWheel :=
  { t with
    slots := t.slots.modify
      (fun l => l.modify (fun e => { e with Value := { e.Value with circle := e.Value.circle - 1 } }) i)
      t.currentSlot }

/-- The number of ticks from one dispatch of a repeating task that is alone on the wheel to
the next one: `steps`, or `steps + n` when `steps` is a multiple of the number `n` of slots. -/
def cadence (n steps : Nat) : Nat := if steps % n = 0 then steps + n else steps

/-- The wheel `x` of `n` slots holds exactly one task, with the given key, job, delay and
remaining count, which is due (circle 0, in the slot under the cursor); `fired` jobs have been
started since the wheel `t0`. -/
def Due (t0 : XTimeWheel) (n : Nat) (key : String) (job : Nat) (executeAt times : Int)
    (fired : Nat) (x : XTimeWheel) : Prop :=
  ∃ b s e, x = single b n s s e ∧ s < n ∧ e.Value.circle = 0 ∧ e.Value.times = times ∧
    e.Value.key = key ∧ e.Value.job = job ∧ e.Value.executeAt = executeAt ∧
    b.interval = t0.interval ∧ b.spawned = t0.spawned ++ List.replicate fired (job, key)

/-- The key and the element identity of every task linked in the wheel, slot by slot. -/
def pairs (t : XTimeWheel) : List (String × Nat) :=
  t.slots.flatten.map (fun e => (e.Value.key, e.id))

/-- The invariant of the runs in which no check of AddTask is stale (`runOps`): the linked
elements are distinct, no key is held by two linked tasks, the allocation counter is above
every linked element, the index holds exactly the (key, element) pairs of the linked tasks,
every task records the slot that holds it, and the cursor is inside the wheel. Under the
schedules of `Step` only `Linked` is kept. -/
structure Inv (t : XTimeWheel) : Prop where
  ids : ((pairs t).map (fun p => p.2)).Nodup
  keys : ((pairs t).map (fun p => p.1)).Nodup
  fresh : ∀ p ∈ pairs t, p.2 < t.nextElem
  index : ∀ p, p ∈ t.taskRecords ↔ p ∈ pairs t
  slotOf : ∀ (i : Nat) (l : List Element), t.slots[i]? = some l →
    ∀ e ∈ l, e.Value.slot = (i : Int)
  cursor : t.currentSlot < t.slots.length

/-- The element after one decrement of its circle. -/
def Element.dec (e : Element) : Element :=
  { e with Value := { e.Value with circle := e.Value.circle - 1 } }

/-- The wheel in the middle of a tick whose scan has decremented the waiting tasks `w` at the
front of the current slot and has then met the due task `ele`, followed by `rest`: the job of
`ele` is started, its key deleted from the index and its element unlinked. -/
def dispatched (t : XTimeWheel) (w : List Element) (ele : Element) (rest : List Element) :
    XTimeWheel :=
  { t with
    spawned := t.spawned ++ [(ele.Value.job, ele.Value.key)]
    taskRecords := Delete ele.Value.key t.taskRecords
    slots := t.slots.set t.currentSlot (w.map Element.dec ++ rest) }

/-- The reinsertion that ends the due branch of the loop of execute (the two `if` statements
on `taskEle.times`), on the wheel `u` from which the task has been unlinked. -/
def reinsert (u : XTimeWheel) (taskEle : Task) : Option XTimeWheel :=
  if wrapInt (taskEle.times - 1) > 0 then
    addTask u { taskEle with times := wrapInt (taskEle.times - 1) }
  else if taskEle.times = -1 then addTask u taskEle
  else some u

/-- The points of a call of Stop at which another goroutine can run in between: before the
test `if t.isRun`, before the critical section (Lock, `isRun = false`, `ticker.Stop()`,
Unlock), before `close(t.stopCh)`, and after the call. -/
inductive StopPc where
  | test
  | critical
  | close
  | done
  deriving DecidableEq, Repr

/-- One step of a call of Stop from the given point. The test of `t.isRun` is made outside
the critical section; the critical section runs as one step, since the mutex excludes the
other caller; `none` is the panic of `close` on a closed channel. -/
def stopStep (t : XTimeWheel) : StopPc → Option (XTimeWheel × StopPc)
  | .test => some (t, if t.isRun then .critical else .done)
  | .critical => some ({ t with isRun := false, ticker := false }, .close)
  | .close => if t.stopCh then none else some ({ t with stopCh := true }, .done)
  | .done => some (t, .done)

/-- Two goroutines that each call Stop on the same wheel, interleaved by a schedule: `true`
lets the first caller take its next step, `false` the second. -/
def stopRace : List Bool → XTimeWheel × StopPc × StopPc → Option (XTimeWheel × StopPc × StopPc)
  | [], s => some s
  | true :: rest, (t, a, b) =>
    match stopStep t a with
    | none => none
    | some (t1, a1) => stopRace rest (t1, a1, b)
  | false :: rest, (t, a, b) =>
    match stopStep t b with
    | none => none
    | some (t1, b1) => stopRace rest (t1, a, b1)

/-- The result of a public call for its caller: it returns (with an error or nil), or it
blocks for ever on its send to the control loop. -/
inductive Outcome where
  | returned (err : Option String)
  | blocked
  deriving DecidableEq, Repr

/-- The wheel together with its goroutine `run`: `alive` is true while `run` is in its loop,
ready to receive on its channels. -/
structure Loop where
  wheel : XTimeWheel
  alive : Bool
  deriving DecidableEq, Repr

/-- The case `<-t.stopCh` of the select statement of run: once the stop channel is closed the
loop receives from it and `run` returns. -/
def Loop.receiveStop (s : Loop) : Loop :=
  if s.alive && s.wheel.stopCh then { s with alive := false } else s

/-- A call of Stop by the only caller (see `Stop`). -/
def Loop.stop (s : Loop) : Option Loop :=
  (Stop s.wheel).map (fun w => { s with wheel := w })

/-- A call of AddTask seen from its caller: after the validation the send on the unbuffered
channel `addTaskCh` completes only if `run` receives it, and `run` then calls addTask. -/
def Loop.addTaskCall (s : Loop) (key : String) (job : Nat) (executeAt times : Int) :
    Outcome × Option Loop :=
  match AddTask s.wheel key job executeAt times with
  | .error e => (.returned (some e), some s)
  | .ok task =>
    if s.alive then (.returned none, (addTask s.wheel task).map (fun w => { s with wheel := w }))
    else (.blocked, some s)

/-- A call of RemoveTask seen from its caller: after the validation the send on the
unbuffered channel `removeTaskCh` completes only if `run` receives it, and `run` then calls
removeTask. -/
def Loop.removeTaskCall (s : Loop) (key : String) : Outcome × Option Loop :=
  match RemoveTask s.wheel key with
  | .error e => (.returned (some e), some s)
  | .ok k =>
    if s.alive then (.returned none, (removeTask s.wheel k).map (fun w => { s with wheel := w }))
    else (.blocked, some s)

/-- The default wheel after three ticks with the task t (delay 3 s, repeat 2) due in slot 3,
under the cursor. -/
def dueWheel : XTimeWheel :=
  single { defaultWheel with nextElem := 1 } 12 3 3 ⟨0, ⟨"t", 7, 3 * Second, 2, 3, 0⟩⟩

/-- The wheel together with the tasks in flight: the tasks that calls of AddTask have built
after their checks and that the goroutine `run` has not yet stored (the caller is in its send
on `addTaskCh`, or `run` has received the task and is about to call addTask). The checks of
AddTask run in the caller's goroutine and nothing holds the index between them and the
insertion. -/
structure Handoff where
  wheel : XTimeWheel
  inFlight : List Task
  deriving DecidableEq, Repr

/-- A step of a caller or of the goroutine `run`: the part of AddTask before its send
completes (`call`), the iteration of `run` that passes the `i`-th task in flight to addTask
(`insert`), a call of RemoveTask with the iteration that serves it (`remove`; its check does
not read the wheel), and the iteration for a tick. -/
inductive Step where
  | call (key : String) (job : Nat) (executeAt : Int) (times : Int)
  | insert (i : Nat)
  | remove (key : String)
  | tick
  deriving DecidableEq, Repr

/-- The effect of one step. A call that returns an error changes nothing; an `insert` without
such a task in flight changes nothing; `none` is a panic of the goroutine `run`. -/
def Step.apply (s : Handoff) : Step → Option Handoff
  | .call key job executeAt times =>
    match AddTask s.wheel key job executeAt times with
    | .error _ => some s
    | .ok task => some { s with inFlight := s.inFlight ++ [task] }
  | .insert i =>
    match s.inFlight[i]? with
    | none => some s
    | some task =>
      (addTask s.wheel task).map (fun w => { wheel := w, inFlight := s.inFlight.eraseIdx i })
  | .remove key =>
    match RemoveTask s.wheel key with
    | .error _ => some s
    | .ok k => (removeTask s.wheel k).map (fun w => { s with wheel := w })
  | .tick => (execute s.wheel).map (fun w => { s with wheel := w })

/-- The steps of a schedule, one after the other. -/
def runSteps : Handoff → List Step → Option Handoff
  | s, [] => some s
  | s, st :: rest =>
    match st.apply s with
    | none => none
    | some s1 => runSteps s1 rest

/-- What holds of the wheel under every schedule: the linked elements are distinct, the
allocation counter is above every linked element, no key has two index entries, every index
entry is the (key, element) pair of a linked task, every task records the slot that holds
it, and the cursor is inside the wheel. -/
structure Linked (t : XTimeWheel) : Prop where
  ids : ((pairs t).map (fun p => p.2)).Nodup
  fresh : ∀ p ∈ pairs t, p.2 < t.nextElem
  entries : (t.taskRecords.map (fun p => p.1)).Nodup
  points : ∀ p ∈ t.taskRecords, p ∈ pairs t
  slotOf : ∀ (i : Nat) (l : List Element), t.slots[i]? = some l →
    ∀ e ∈ l, e.Value.slot = (i : Int)
  cursor : t.currentSlot < t.slots.length

/-! ## Arithmetic of calSlotAndCircle -/

theorem wrapInt_eq (x : Int) (h0 : 0 ≤ x) (h1 : x < 9223372036854775808) : wrapInt x = x := by
  unfold wrapInt
  omega

theorem exponentAux_spec (fuel : Nat) : ∀ n, 1 ≤ n → n ≤ fuel →
    2 ^ exponentAux fuel n ≤ n ∧ n < 2 ^ (exponentAux fuel n + 1) := by
  induction fuel with
  | zero => intro n h1 h2; omega
  | succ f ih =>
    intro n h1 h2
    unfold exponentAux
    by_cases h : n < 2
    · rw [if_pos h]; simp; omega
    · rw [if_neg h]
      have := ih (n / 2) (by omega) (by omega)
      rw [pow_succ, pow_succ]
      omega

theorem exponent_spec (n : Nat) (h : 1 ≤ n) :
    2 ^ exponent n ≤ n ∧ n < 2 ^ (exponent n + 1) :=
  exponentAux_spec n n h (le_refl n)

theorem exponent_lt (n b : Nat) (h : 1 ≤ n) (hb : n < 2 ^ b) : exponent n < b := by
  have := (exponent_spec n h).1
  by_contra hc
  have : 2 ^ b ≤ 2 ^ exponent n := Nat.pow_le_pow_right (by decide) (by omega)
  omega

theorem roundHalfEven_le (a b c : Nat) (hb : 0 < b) (h : a ≤ c * b) : roundHalfEven a b ≤ c := by
  have h1 : a / b ≤ c := Nat.div_le_of_le_mul (by rw [Nat.mul_comm]; exact h)
  have h2 := Nat.div_add_mod a b
  unfold roundHalfEven
  rcases Nat.lt_or_ge (a / b) c with hlt | hge
  · split_ifs <;> omega
  · have hc : a / b = c := by omega
    have h0 : a % b = 0 := by
      rw [hc, Nat.mul_comm] at h2
      omega
    rw [h0]
    simp [hb]
    omega

theorem le_roundHalfEven (a b c : Nat) (hb : 0 < b) (h : c * b ≤ a) : c ≤ roundHalfEven a b := by
  have h1 : c ≤ a / b := (Nat.le_div_iff_mul_le hb).2 h
  unfold roundHalfEven
  split_ifs <;> omega


theorem float64Seconds_zero (s : Nat) : float64Seconds s 0 = s := by
  simp [float64Seconds]

theorem pow_split (k e : Nat) (he : e ≤ 52) : 2 ^ (52 - e) * 2 ^ (k + e) = 2 ^ (52 + k) := by
  rw [← pow_add]
  congr 1
  omega

theorem quotient_le (n P : Nat) (hn : n < 1000000000) (hP : 1000000000 ≤ P) :
    roundHalfEven (n * P) 1000000000 ≤ P - 1 := by
  apply roundHalfEven_le _ _ _ (by decide)
  have h1 : n * P ≤ 999999999 * P := Nat.mul_le_mul_right P (by omega)
  have h2 : (P - 1) * 1000000000 = 1000000000 * P - 1000000000 := by
    rw [Nat.sub_mul, Nat.mul_comm]
  omega

theorem float64Seconds_le (s n : Nat) (hn : n < 1000000000) (hs : s < 2 ^ 52) :
    float64Seconds s n ≤ s + 1 := by
  by_cases hn0 : n = 0
  · rw [hn0, float64Seconds_zero]; omega
  unfold float64Seconds
  rw [if_neg hn0]
  simp only []
  generalize (if 1000000000 ≤ n * 2 ^ (29 - exponent n) then 29 - exponent n
    else 30 - exponent n) = k
  have hP52 : 2 ^ 52 ≤ 2 ^ (52 + k) := Nat.pow_le_pow_right (by decide) (by omega)
  have hP : 1000000000 ≤ 2 ^ (52 + k) := le_trans (by decide) hP52
  have hmq := quotient_le n (2 ^ (52 + k)) hn hP
  generalize roundHalfEven (n * 2 ^ (52 + k)) 1000000000 = mq at hmq
  generalize hPd : 2 ^ (52 + k) = P at *
  have hPpos : 0 < P := by omega
  by_cases hs0 : s = 0
  · rw [if_pos hs0]
    have : mq / P = 0 := Nat.div_eq_of_lt (by omega)
    omega
  rw [if_neg hs0]
  have hx : (s * P + mq) / P = s := by
    rw [Nat.add_comm, Nat.add_mul_div_right _ _ hPpos, Nat.div_eq_of_lt (by omega)]
    omega
  rw [hx]
  have he : exponent s < 52 := exponent_lt s _ (by omega) hs
  rw [if_neg (by omega)]
  have hsplit := pow_split k (exponent s) (by omega)
  rw [hPd] at hsplit
  generalize 2 ^ (52 - exponent s) = A at *
  generalize 2 ^ (k + exponent s) = B at *
  have hB : 0 < B := by
    rcases Nat.eq_zero_or_pos B with h | h
    · rw [h, Nat.mul_zero] at hsplit; omega
    · exact h
  have hA : 0 < A := by
    rcases Nat.eq_zero_or_pos A with h | h
    · rw [h, Nat.zero_mul] at hsplit; omega
    · exact h
  have hms : roundHalfEven (s * P + mq) B ≤ (s + 1) * A := by
    apply roundHalfEven_le _ _ _ hB
    rw [Nat.mul_assoc, hsplit, Nat.add_mul]
    omega
  apply Nat.div_le_of_le_mul
  rw [Nat.mul_comm A]
  exact hms

theorem float64Seconds_ge (s n : Nat) (hn : n < 1000000000) (hs : s < 2 ^ 52) :
    s ≤ float64Seconds s n := by
  by_cases hn0 : n = 0
  · rw [hn0, float64Seconds_zero]
  unfold float64Seconds
  rw [if_neg hn0]
  simp only []
  generalize (if 1000000000 ≤ n * 2 ^ (29 - exponent n) then 29 - exponent n
    else 30 - exponent n) = k
  have hP52 : 2 ^ 52 ≤ 2 ^ (52 + k) := Nat.pow_le_pow_right (by decide) (by omega)
  have hP : 1000000000 ≤ 2 ^ (52 + k) := le_trans (by decide) hP52
  have hmq := quotient_le n (2 ^ (52 + k)) hn hP
  generalize roundHalfEven (n * 2 ^ (52 + k)) 1000000000 = mq at hmq
  generalize hPd : 2 ^ (52 + k) = P at *
  have hPpos : 0 < P := by omega
  by_cases hs0 : s = 0
  · rw [if_pos hs0, hs0]; exact Nat.zero_le _
  rw [if_neg hs0]
  have hx : (s * P + mq) / P = s := by
    rw [Nat.add_comm, Nat.add_mul_div_right _ _ hPpos, Nat.div_eq_of_lt (by omega)]
    omega
  rw [hx]
  have he : exponent s < 52 := exponent_lt s _ (by omega) hs
  rw [if_neg (by omega)]
  have hsplit := pow_split k (exponent s) (by omega)
  rw [hPd] at hsplit
  generalize 2 ^ (52 - exponent s) = A at *
  generalize 2 ^ (k + exponent s) = B at *
  have hB : 0 < B := by
    rcases Nat.eq_zero_or_pos B with h | h
    · rw [h, Nat.mul_zero] at hsplit; omega
    · exact h
  have hA : 0 < A := by
    rcases Nat.eq_zero_or_pos A with h | h
    · rw [h, Nat.zero_mul] at hsplit; omega
    · exact h
  have hms : s * A ≤ roundHalfEven (s * P + mq) B := by
    apply le_roundHalfEven _ _ _ hB
    rw [Nat.mul_assoc, hsplit]
    omega
  exact (Nat.le_div_iff_mul_le hA).2 hms

theorem float64Seconds_exact (s n : Nat) (hn : n < 1000000000) (hs : s < 2 ^ 23) :
    float64Seconds s n = s := by
  by_cases hn0 : n = 0
  · rw [hn0, float64Seconds_zero]
  unfold float64Seconds
  rw [if_neg hn0]
  simp only []
  generalize (if 1000000000 ≤ n * 2 ^ (29 - exponent n) then 29 - exponent n
    else 30 - exponent n) = k
  have hP52 : 2 ^ 52 ≤ 2 ^ (52 + k) := Nat.pow_le_pow_right (by decide) (by omega)
  have hP : 1000000000 ≤ 2 ^ (52 + k) := le_trans (by decide) hP52
  have hmq := quotient_le n (2 ^ (52 + k)) hn hP
  by_cases hs0 : s = 0
  · rw [if_pos hs0, hs0]
    exact Nat.div_eq_of_lt (by omega)
  rw [if_neg hs0]
  have he : exponent s < 23 := exponent_lt s _ (by omega) hs
  have hsplit := pow_split k (exponent s) (by omega)
  have hA30 : 2 ^ 30 ≤ 2 ^ (52 - exponent s) := Nat.pow_le_pow_right (by decide) (by omega)
  have hA9 : 1000000000 ≤ 2 ^ (52 - exponent s) := le_trans (by decide) hA30
  have hBpos : 0 < 2 ^ (k + exponent s) := Nat.pos_pow_of_pos _ (by decide)
  have hmq2 : roundHalfEven (n * 2 ^ (52 + k)) 1000000000
      ≤ 2 ^ (52 + k) - 2 ^ (k + exponent s) := by
    apply roundHalfEven_le _ _ _ (by decide)
    rw [← hsplit]
    generalize 2 ^ (52 - exponent s) = A at *
    generalize 2 ^ (k + exponent s) = B at *
    have h1 : n * (A * B) ≤ 999999999 * (A * B) := Nat.mul_le_mul_right _ (by omega)
    have h2 : 1000000000 * B ≤ A * B := Nat.mul_le_mul_right _ hA9
    rw [Nat.sub_mul]
    have h3 : A * B * 1000000000 = 1000000000 * (A * B) := Nat.mul_comm _ _
    have h4 : B * 1000000000 = 1000000000 * B := Nat.mul_comm _ _
    omega
  generalize roundHalfEven (n * 2 ^ (52 + k)) 1000000000 = mq at hmq hmq2
  generalize hPd : 2 ^ (52 + k) = P at *
  have hPpos : 0 < P := by omega
  have hx : (s * P + mq) / P = s := by
    rw [Nat.add_comm, Nat.add_mul_div_right _ _ hPpos, Nat.div_eq_of_lt (by omega)]
    omega
  rw [hx, if_neg (by omega)]
  generalize 2 ^ (52 - exponent s) = A at *
  generalize 2 ^ (k + exponent s) = B at *
  have hA : 0 < A := by omega
  have hlo : s * A ≤ roundHalfEven (s * P + mq) B := by
    apply le_roundHalfEven _ _ _ hBpos
    rw [Nat.mul_assoc, hsplit]
    omega
  have hhi : roundHalfEven (s * P + mq) B ≤ (s + 1) * A - 1 := by
    apply roundHalfEven_le _ _ _ hBpos
    rw [Nat.sub_mul, Nat.mul_assoc, hsplit, Nat.add_mul]
    have hBP : B ≤ P := by
      rw [← hsplit]
      exact Nat.le_mul_of_pos_left B hA
    omega
  apply Nat.div_eq_of_lt_le hlo
  have : 0 < (s + 1) * A := Nat.mul_pos (by omega) hA
  omega

theorem float64Seconds_pos (s n : Nat) (hs : 1 ≤ s) : 1 ≤ float64Seconds s n := by
  by_cases hn0 : n = 0
  · rw [hn0, float64Seconds_zero]; exact hs
  unfold float64Seconds
  rw [if_neg hn0]
  simp only []
  generalize (if 1000000000 ≤ n * 2 ^ (29 - exponent n) then 29 - exponent n
    else 30 - exponent n) = k
  generalize roundHalfEven (n * 2 ^ (52 + k)) 1000000000 = mq
  rw [if_neg (by omega)]
  have hPpos : 0 < 2 ^ (52 + k) := Nat.pos_pow_of_pos _ (by decide)
  have hq : 1 ≤ (s * 2 ^ (52 + k) + mq) / 2 ^ (52 + k) := by
    rw [Nat.add_comm, Nat.add_mul_div_right _ _ hPpos]
    exact le_trans hs (Nat.le_add_left _ _)
  have hspec := (exponent_spec _ hq).1
  generalize exponent ((s * 2 ^ (52 + k) + mq) / 2 ^ (52 + k)) = e at *
  have hx : 2 ^ e * 2 ^ (52 + k) ≤ s * 2 ^ (52 + k) + mq :=
    (Nat.le_div_iff_mul_le hPpos).1 hspec
  have hBpos : 0 < 2 ^ (k + e) := Nat.pos_pow_of_pos _ (by decide)
  by_cases he : 52 ≤ e
  · rw [if_pos he]
    have h1 : 1 ≤ roundHalfEven (s * 2 ^ (52 + k) + mq) (2 ^ (k + e)) := by
      apply le_roundHalfEven _ _ _ hBpos
      have : 2 ^ (k + e) ≤ 2 ^ e * 2 ^ (52 + k) := by
        rw [← pow_add]
        exact Nat.pow_le_pow_right (by decide) (by omega)
      omega
    exact Nat.mul_pos h1 (Nat.pos_pow_of_pos _ (by decide))
  · rw [if_neg he]
    have hApos : 0 < 2 ^ (52 - e) := Nat.pos_pow_of_pos _ (by decide)
    apply (Nat.le_div_iff_mul_le hApos).2
    apply le_roundHalfEven _ _ _ hBpos
    rw [Nat.one_mul, pow_split k e (by omega)]
    have : 2 ^ (52 + k) ≤ 2 ^ e * 2 ^ (52 + k) :=
      Nat.le_mul_of_pos_left _ (Nat.pos_pow_of_pos _ (by decide))
    omega


theorem intSeconds_of_nonneg (d : Int) (h : 0 ≤ d) :
    intSeconds d = ((float64Seconds (d / Second).toNat (d % Second).toNat : Nat) : Int) := by
  unfold intSeconds
  simp only []
  rw [if_neg (by omega), Int.tdiv_eq_ediv h (by decide), Int.tmod_eq_emod h (by decide)]
  have h1 : 0 ≤ d / Second := Int.ediv_nonneg h (by decide)
  have h2 : 0 ≤ d % Second := Int.emod_nonneg _ (by decide)
  rw [← Int.toNat_of_nonneg h1, ← Int.toNat_of_nonneg h2]
  simp only [Int.natAbs_ofNat, Int.toNat_ofNat]

theorem intSeconds_nonneg (d : Int) (h : 0 ≤ d) : 0 ≤ intSeconds d := by
  rw [intSeconds_of_nonneg d h]
  exact Int.ofNat_nonneg _

theorem intSeconds_mul (n : Int) : intSeconds (n * Second) = n := by
  unfold intSeconds
  simp only []
  rw [Int.mul_tdiv_cancel n (by decide), Int.mul_tmod_left]
  simp only [Int.natAbs_zero, float64Seconds_zero]
  unfold Second
  split_ifs <;> omega

theorem intSeconds_pos (d : Int) (h : Second ≤ d) : 1 ≤ intSeconds d := by
  have h0 : 0 ≤ d := by unfold Second at h; omega
  rw [intSeconds_of_nonneg d h0]
  have h1 : 1 ≤ (d / Second).toNat := by unfold Second at *; omega
  exact_mod_cast float64Seconds_pos _ _ h1

theorem intSeconds_le (d : Int) (h0 : 0 ≤ d) (h1 : d < 9223372036854775808) :
    intSeconds d ≤ d / Second + 1 := by
  rw [intSeconds_of_nonneg d h0]
  have hn : (d % Second).toNat < 1000000000 := by unfold Second; omega
  have hs : (d / Second).toNat < 2 ^ 52 := by
    have : (2 : Nat) ^ 52 = 4503599627370496 := by norm_num
    unfold Second; omega
  have := float64Seconds_le _ _ hn hs
  have h2 : 0 ≤ d / Second := Int.ediv_nonneg h0 (by decide)
  omega

theorem intSeconds_ge (d : Int) (h0 : 0 ≤ d) (h1 : d < 9223372036854775808) :
    d / Second ≤ intSeconds d := by
  rw [intSeconds_of_nonneg d h0]
  have hn : (d % Second).toNat < 1000000000 := by unfold Second; omega
  have hs : (d / Second).toNat < 2 ^ 52 := by
    have : (2 : Nat) ^ 52 = 4503599627370496 := by norm_num
    unfold Second; omega
  have := float64Seconds_ge _ _ hn hs
  have h2 : 0 ≤ d / Second := Int.ediv_nonneg h0 (by decide)
  omega

theorem intSeconds_exact (d : Int) (h0 : 0 ≤ d) (h1 : d < 8388608 * Second) :
    intSeconds d = d / Second := by
  rw [intSeconds_of_nonneg d h0]
  have hn : (d % Second).toNat < 1000000000 := by unfold Second; omega
  have hs : (d / Second).toNat < 2 ^ 23 := by
    have : (2 : Nat) ^ 23 = 8388608 := by norm_num
    unfold Second at *; omega
  rw [float64Seconds_exact _ _ hn hs]
  have h2 : 0 ≤ d / Second := Int.ediv_nonneg h0 (by decide)
  omega

/-- The value of calSlotAndCircle whenever the whole-second interval is at least one and the
rotation plus the delay (both in whole seconds) fits a 64-bit int. -/
theorem calSlotAndCircle_eq (t : XTimeWheel) (executeAt : Int)
    (hc : t.currentSlot < t.slots.length)
    (hI : 1 ≤ intSeconds t.interval) (hD : 0 ≤ intSeconds executeAt)
    (hfit : (t.slots.length : Int) * intSeconds t.interval + intSeconds executeAt
      < 9223372036854775808) :
    calSlotAndCircle t executeAt =
      some (((t.currentSlot : Int) + intSeconds executeAt / intSeconds t.interval)
              % (t.slots.length : Int),
            intSeconds executeAt / ((t.slots.length : Int) * intSeconds t.interval)) := by
  have hN : (0 : Int) < (t.slots.length : Int) := by omega
  have hNI : (t.slots.length : Int) ≤ (t.slots.length : Int) * intSeconds t.interval := by
    nlinarith
  have hrot : wrapInt ((t.slots.length : Int) * intSeconds t.interval)
      = (t.slots.length : Int) * intSeconds t.interval := wrapInt_eq _ (by omega) (by omega)
  have hq1 : 0 ≤ intSeconds executeAt / ((t.slots.length : Int) * intSeconds t.interval) :=
    Int.ediv_nonneg hD (by omega)
  have hq1le : intSeconds executeAt / ((t.slots.length : Int) * intSeconds t.interval)
      ≤ intSeconds executeAt := Int.ediv_le_self _ hD
  have hq2 : 0 ≤ intSeconds executeAt / intSeconds t.interval := Int.ediv_nonneg hD (by omega)
  have hq2le : intSeconds executeAt / intSeconds t.interval ≤ intSeconds executeAt :=
    Int.ediv_le_self _ hD
  have hlen : t.slots.length ≠ 0 := by omega
  unfold calSlotAndCircle
  simp only [hrot]
  rw [if_neg (by omega), if_neg (by omega), if_neg hlen]
  rw [Int.tdiv_eq_ediv hD (by omega), Int.tdiv_eq_ediv hD (by omega)]
  rw [wrapInt_eq _ hq1 (by omega), wrapInt_eq _ hq2 (by omega)]
  rw [wrapInt_eq _ (by omega) (by omega), Int.tmod_eq_emod (by omega) (by omega)]

theorem Load_isSome_iff (key : String) (m : List (String × Nat)) :
    (Load key m).isSome ↔ ∃ id, (key, id) ∈ m := by
  unfold Load
  induction m with
  | nil => simp
  | cons p m ih =>
    obtain ⟨k, v⟩ := p
    by_cases h : k = key
    · subst h
      simp [List.find?]
    · have h2 : ¬ key = k := fun e => h e.symm
      simp only [List.find?, h, decide_False, List.mem_cons, Prod.mk.injEq, h2, false_and,
        false_or]
      exact ih

/-! ## Wheels that hold a single task -/

theorem modify_eq_set_of_getElem? {α : Type} (f : α → α) (l : List α) (i : Nat) (a : α)
    (h : l[i]? = some a) : l.modify f i = l.set i (f a) := by
  induction l generalizing i with
  | nil => simp at h
  | cons x xs ih =>
    cases i with
    | zero =>
      simp at h
      subst h
      rfl
    | succ i =>
      simp at h
      simp [List.modify_succ_cons, ih i h]

theorem single_getElem?_self (n s : Nat) (e : Element) (hs : s < n) :
    ((List.replicate n ([] : List Element)).set s [e])[s]? = some [e] := by
  simp [List.getElem?_set, hs]

theorem single_getElem?_ne (n c s : Nat) (e : Element) (hc : c < n) (h : c ≠ s) :
    ((List.replicate n ([] : List Element)).set s [e])[c]? = some [] := by
  rw [List.getElem?_set]
  simp [Ne.symm h, hc]

theorem execute_vacant (b : XTimeWheel) (n c : Nat) (hc : c < n) :
    execute (vacant b n c) = some (vacant b n ((c + 1) % n)) := by
  simp [execute, vacant, hc, executeLoop, incrCurrentSlot]

theorem execute_single_other (b : XTimeWheel) (n c s : Nat) (e : Element) (hc : c < n)
    (h : c ≠ s) : execute (single b n c s e) = some (single b n ((c + 1) % n) s e) := by
  unfold execute
  simp only [single]
  rw [single_getElem?_ne n c s e hc h]
  simp [executeLoop, incrCurrentSlot]


theorem execute_single_wait (b : XTimeWheel) (n s : Nat) (e : Element) (hs : s < n)
    (h : 0 < e.Value.circle) :
    execute (single b n s s e)
      = some (single b n ((s + 1) % n) s (e.withCircle (e.Value.circle - 1))) := by
  unfold execute
  simp only [single]
  rw [single_getElem?_self n s e hs]
  simp only [executeLoop, gt_iff_lt, h, if_true]
  rw [modify_eq_set_of_getElem? _ _ _ _ (single_getElem?_self n s e hs)]
  simp [executeLoop, incrCurrentSlot, Element.withCircle, List.modify]

/-- addTask on a wheel without tasks -/
theorem addTask_vacant (b : XTimeWheel) (n c : Nat) (task : Task) (hc : c < n)
    (hI : 1 ≤ intSeconds b.interval) (hD : 0 ≤ intSeconds task.executeAt)
    (hfit : (n : Int) * intSeconds b.interval + intSeconds task.executeAt
      < 9223372036854775808) :
    addTask (vacant b n c) task
      = some (single { b with nextElem := b.nextElem + 1 } n c
          ((c + (intSeconds task.executeAt / intSeconds b.interval).toNat) % n)
          ⟨b.nextElem, { task with
            slot := (((c + (intSeconds task.executeAt / intSeconds b.interval).toNat) % n : Nat) : Int)
            circle := intSeconds task.executeAt / ((n : Int) * intSeconds b.interval) }⟩) := by
  have hlen : (vacant b n c).slots.length = n := by simp [vacant]
  have hcal := calSlotAndCircle_eq (vacant b n c) task.executeAt (by rw [hlen]; exact hc)
    hI hD (by rw [hlen]; exact hfit)
  have hq : 0 ≤ intSeconds task.executeAt / intSeconds b.interval :=
    Int.ediv_nonneg hD (by omega)
  have hN : 0 < n := by omega
  have hslot : ((c : Int) + intSeconds task.executeAt / intSeconds b.interval) % (n : Int)
      = (((c + (intSeconds task.executeAt / intSeconds b.interval).toNat) % n : Nat) : Int) := by
    push_cast
    rw [Int.toNat_of_nonneg hq]
  have hlt := Nat.mod_lt (c + (intSeconds task.executeAt / intSeconds b.interval).toNat) hN
  unfold addTask
  rw [hcal]
  simp only [hlen]
  have e1 : (vacant b n c).currentSlot = c := rfl
  have e2 : (vacant b n c).interval = b.interval := rfl
  simp only [e1, e2, hslot, Int.toNat_ofNat]
  rw [if_pos ⟨by omega, hlt⟩]
  simp only [vacant, single, Store, Delete]
  rw [modify_eq_set_of_getElem? _ _ _ [] (by simp [hlt])]
  simp


theorem incrCurrentSlot_single (b : XTimeWheel) (n c s : Nat) (e : Element) :
    incrCurrentSlot (single b n c s e) = single b n ((c + 1) % n) s e := by
  simp [incrCurrentSlot, single]

theorem incrCurrentSlot_vacant (b : XTimeWheel) (n c : Nat) :
    incrCurrentSlot (vacant b n c) = vacant b n ((c + 1) % n) := by
  simp [incrCurrentSlot, vacant]

/-- The state of the loop of execute right after it has started the job of the only task and
unlinked it. -/
theorem executeLoop_single_due (b : XTimeWheel) (n s : Nat) (e : Element) (hs : s < n)
    (h : ¬ 0 < e.Value.circle) :
    executeLoop (single b n s s e) 0 [e] =
      match (if decide (wrapInt (e.Value.times - 1) > 0) then
          addTask (vacant { b with spawned := b.spawned ++ [(e.Value.job, e.Value.key)] } n s)
            { e.Value with times := wrapInt (e.Value.times - 1) }
        else some (vacant { b with spawned := b.spawned ++ [(e.Value.job, e.Value.key)] } n s))
      with
      | none => none
      | some t4 =>
        if (if decide (wrapInt (e.Value.times - 1) > 0) then
              { e.Value with times := wrapInt (e.Value.times - 1) } else e.Value).times = -1
        then addTask t4 (if decide (wrapInt (e.Value.times - 1) > 0) then
              { e.Value with times := wrapInt (e.Value.times - 1) } else e.Value)
        else some t4 := by
  have hv : ({ single b n s s e with
        spawned := (single b n s s e).spawned ++ [(e.Value.job, e.Value.key)],
        taskRecords := Delete e.Value.key (single b n s s e).taskRecords,
        slots := (single b n s s e).slots.modify (fun l => l.eraseIdx 0) (single b n s s e).currentSlot } : XTimeWheel)
      = vacant { b with spawned := b.spawned ++ [(e.Value.job, e.Value.key)] } n s := by
    simp only [single, vacant, Delete]
    rw [modify_eq_set_of_getElem? _ _ _ _ (single_getElem?_self n s e hs)]
    simp [List.set_set]
  simp only [executeLoop, gt_iff_lt, h, if_false]
  rw [hv]
  by_cases ha : decide (wrapInt (e.Value.times - 1) > 0) = true
  · simp only [ha, if_true]
  · simp only [ha, if_false]
    rfl


theorem execute_single_drop (b : XTimeWheel) (n s : Nat) (e : Element) (hs : s < n)
    (h : ¬ 0 < e.Value.circle) (ha : ¬ wrapInt (e.Value.times - 1) > 0)
    (hm : e.Value.times ≠ -1) :
    execute (single b n s s e)
      = some (vacant { b with spawned := b.spawned ++ [(e.Value.job, e.Value.key)] } n
          ((s + 1) % n)) := by
  have hl := executeLoop_single_due b n s e hs h
  simp only [ha, decide_False, Bool.false_eq_true, if_false, hm] at hl
  unfold execute
  have hg : (single b n s s e).slots[(single b n s s e).currentSlot]? = some [e] :=
    single_getElem?_self n s e hs
  rw [hg]
  simp only [hl, Option.map_some', incrCurrentSlot_vacant]

theorem execute_single_again (b : XTimeWheel) (n s : Nat) (e : Element) (hs : s < n)
    (h : ¬ 0 < e.Value.circle) (ha : wrapInt (e.Value.times - 1) > 0)
    (hI : 1 ≤ intSeconds b.interval) (hD : 0 ≤ intSeconds e.Value.executeAt)
    (hfit : (n : Int) * intSeconds b.interval + intSeconds e.Value.executeAt
      < 9223372036854775808) :
    execute (single b n s s e)
      = some (single { b with spawned := b.spawned ++ [(e.Value.job, e.Value.key)],
                              nextElem := b.nextElem + 1 } n ((s + 1) % n)
          ((s + (intSeconds e.Value.executeAt / intSeconds b.interval).toNat) % n)
          ⟨b.nextElem, { e.Value with
            times := wrapInt (e.Value.times - 1)
            slot := (((s + (intSeconds e.Value.executeAt / intSeconds b.interval).toNat) % n
              : Nat) : Int)
            circle := intSeconds e.Value.executeAt / ((n : Int) * intSeconds b.interval) }⟩) := by
  have hl := executeLoop_single_due b n s e hs h
  have hne : ¬ wrapInt (e.Value.times - 1) = -1 := by omega
  have hadd := addTask_vacant { b with spawned := b.spawned ++ [(e.Value.job, e.Value.key)] }
    n s { e.Value with times := wrapInt (e.Value.times - 1) } hs hI hD hfit
  simp only [ha, decide_True, if_true, hne, if_false] at hl
  rw [hadd] at hl
  simp only at hl
  unfold execute
  have hg : (single b n s s e).slots[(single b n s s e).currentSlot]? = some [e] :=
    single_getElem?_self n s e hs
  rw [hg]
  simp only [hl, Option.map_some', incrCurrentSlot_single]

theorem execute_single_forever (b : XTimeWheel) (n s : Nat) (e : Element) (hs : s < n)
    (h : ¬ 0 < e.Value.circle) (hm : e.Value.times = -1)
    (hI : 1 ≤ intSeconds b.interval) (hD : 0 ≤ intSeconds e.Value.executeAt)
    (hfit : (n : Int) * intSeconds b.interval + intSeconds e.Value.executeAt
      < 9223372036854775808) :
    execute (single b n s s e)
      = some (single { b with spawned := b.spawned ++ [(e.Value.job, e.Value.key)],
                              nextElem := b.nextElem + 1 } n ((s + 1) % n)
          ((s + (intSeconds e.Value.executeAt / intSeconds b.interval).toNat) % n)
          ⟨b.nextElem, { e.Value with
            slot := (((s + (intSeconds e.Value.executeAt / intSeconds b.interval).toNat) % n
              : Nat) : Int)
            circle := intSeconds e.Value.executeAt / ((n : Int) * intSeconds b.interval) }⟩) := by
  have hl := executeLoop_single_due b n s e hs h
  have ha : ¬ wrapInt (e.Value.times - 1) > 0 := by
    rw [hm]; decide
  have hadd := addTask_vacant { b with spawned := b.spawned ++ [(e.Value.job, e.Value.key)] }
    n s e.Value hs hI hD hfit
  simp only [ha, decide_False, Bool.false_eq_true, if_false] at hl
  simp only [hm, if_true] at hl
  rw [hadd] at hl
  simp only at hl
  unfold execute
  have hg : (single b n s s e).slots[(single b n s s e).currentSlot]? = some [e] :=
    single_getElem?_self n s e hs
  rw [hg]
  simp only [hl, Option.map_some', incrCurrentSlot_single]


theorem ticks_add (a c : Nat) (t : XTimeWheel) :
    ticks (a + c) t = (ticks a t).bind (ticks c) := by
  induction a generalizing t with
  | zero => simp [ticks]
  | succ a ih =>
    rw [Nat.add_right_comm]
    cases h : execute t with
    | none => simp [ticks, h]
    | some t1 => simp [ticks, h, ih]

theorem ticks_one (t : XTimeWheel) : ticks 1 t = execute t := by
  cases h : execute t <;> simp [ticks, h]

theorem ticks_succ_of_some (a : Nat) (t t1 : XTimeWheel) (h : ticks a t = some t1) :
    ticks (a + 1) t = execute t1 := by
  rw [ticks_add, h, Option.some_bind, ticks_one]

theorem add_succ_mod_ne (n c r : Nat) (hc : c < n) (hr : r + 1 < n) :
    c ≠ (c + (r + 1)) % n := by
  intro h
  have h1 : (c + (r + 1)) % n = (c + 0) % n := by
    rw [← h, Nat.add_zero, Nat.mod_eq_of_lt hc]
  have h2 : (r + 1) ≡ 0 [MOD n] := Nat.ModEq.add_left_cancel' c h1
  have h3 := (Nat.modEq_zero_iff_dvd).1 h2
  have h4 := Nat.le_of_dvd (Nat.succ_pos r) h3
  omega

/-- Ticks that only move the cursor toward the slot of the task. -/
theorem ticks_single_travel (b : XTimeWheel) (n : Nat) (e : Element) (r c : Nat) (hc : c < n)
    (hr : r < n) :
    ticks r (single b n c ((c + r) % n) e)
      = some (single b n ((c + r) % n) ((c + r) % n) e) := by
  induction r generalizing c with
  | zero => simp [ticks, Nat.mod_eq_of_lt hc]
  | succ r ih =>
    have hne := add_succ_mod_ne n c r hc hr
    have hn : 0 < n := by omega
    have hc1 : (c + 1) % n < n := Nat.mod_lt _ hn
    have hs : (c + (r + 1)) % n = ((c + 1) % n + r) % n := by
      rw [Nat.add_mod ((c + 1) % n) r n, Nat.mod_mod, ← Nat.add_mod]
      congr 1
      omega
    simp only [ticks]
    rw [execute_single_other b n c _ e hc hne]
    simp only
    rw [hs]
    exact ih ((c + 1) % n) hc1 (by omega)

theorem withCircle_withCircle (e : Element) (a c : Int) :
    (e.withCircle a).withCircle c = e.withCircle c := rfl

/-- Full rotations, each of which decrements the circle of the task by one. -/
theorem ticks_single_rounds (b : XTimeWheel) (n s : Nat) (e : Element) (hs : s < n) (k : Nat) :
    ticks (k * n) (single b n s s (e.withCircle (k : Int)))
      = some (single b n s s (e.withCircle 0)) := by
  induction k with
  | zero => simp [ticks]
  | succ k ih =>
    have hn : 0 < n := by omega
    have hc1 : (s + 1) % n < n := Nat.mod_lt _ hn
    have hback : ((s + 1) % n + (n - 1)) % n = s := by
      rw [Nat.add_mod ((s + 1) % n) (n - 1) n, Nat.mod_mod, ← Nat.add_mod]
      have : s + 1 + (n - 1) = s + n := by omega
      rw [this, Nat.add_mod_right, Nat.mod_eq_of_lt hs]
    have hsplit : (k + 1) * n = 1 + ((n - 1) + k * n) := by
      rw [Nat.succ_mul]; omega
    have hpos : 0 < (e.withCircle ((k + 1 : Nat) : Int)).Value.circle := by
      simp only [Element.withCircle]; omega
    rw [hsplit, ticks_add, ticks_one, execute_single_wait b n s _ hs hpos, Option.some_bind,
      ticks_add, withCircle_withCircle]
    have hk : (e.withCircle ((k + 1 : Nat) : Int)).Value.circle - 1 = (k : Int) := by
      simp only [Element.withCircle]; omega
    rw [hk]
    have htr := ticks_single_travel b n (e.withCircle (k : Int)) (n - 1) ((s + 1) % n) hc1
      (by omega)
    rw [hback] at htr
    rw [htr, Option.some_bind, ih]


theorem executeLoop_wait (t : XTimeWheel) (i : Nat) (ele : Element) (rest : List Element)
    (h : ele.Value.circle > 0) :
    executeLoop t i (ele :: rest) = executeLoop (decremented t i) (i + 1) rest := by
  simp only [executeLoop, h, if_true, decremented]

/-- The due branch of the loop of execute has three outcomes: reinsertion with one repeat
less, reinsertion with the infinite marker, or no reinsertion. The two reinsertions exclude
each other, since a count that is positive after the decrement is not -1. -/
theorem executeLoop_due (t : XTimeWheel) (i : Nat) (ele : Element) (rest : List Element)
    (h : ¬ ele.Value.circle > 0) :
    executeLoop t i (ele :: rest) =
      if wrapInt (ele.Value.times - 1) > 0 then
        addTask (unlinked t i ele) { ele.Value with times := wrapInt (ele.Value.times - 1) }
      else if ele.Value.times = -1 then addTask (unlinked t i ele) ele.Value
      else some (unlinked t i ele) := by
  simp only [executeLoop, h, if_false, unlinked]
  by_cases ha : wrapInt (ele.Value.times - 1) > 0
  · have hne : ¬ wrapInt (ele.Value.times - 1) = -1 := by omega
    simp only [ha, decide_True, if_true, hne, if_false]
    split
    · rename_i heq
      exact heq.symm
    · rename_i heq
      exact heq.symm
  · simp only [ha, decide_False, Bool.false_eq_true, if_false]

/-- What addTask leaves alone. -/
theorem addTask_frame (t t1 : XTimeWheel) (task : Task) (h : addTask t task = some t1) :
    t1.spawned = t.spawned ∧ t1.currentSlot = t.currentSlot ∧
    t1.slots.length = t.slots.length ∧ t1.interval = t.interval := by
  unfold addTask at h
  split at h
  · simp at h
  · simp only at h
    split at h
    · simp only [Option.some.injEq] at h
      subst h
      simp
    · simp at h

/-- What the loop of execute leaves alone, and the jobs it starts: at most one, taken from
the scanned part of the list. -/
theorem executeLoop_frame (rest : List Element) (t t1 : XTimeWheel) (i : Nat)
    (h : executeLoop t i rest = some t1) :
    (∃ extra, t1.spawned = t.spawned ++ extra ∧ extra.length ≤ 1 ∧
      ∀ p ∈ extra, ∃ e ∈ rest, p = (e.Value.job, e.Value.key)) ∧
    t1.currentSlot = t.currentSlot ∧ t1.slots.length = t.slots.length ∧
    t1.interval = t.interval := by
  induction rest generalizing t i with
  | nil =>
    simp only [executeLoop, Option.some.injEq] at h
    subst h
    exact ⟨⟨[], by simp⟩, rfl, rfl, rfl⟩
  | cons ele rest ih =>
    by_cases hc : ele.Value.circle > 0
    · rw [executeLoop_wait t i ele rest hc] at h
      obtain ⟨⟨extra, h1, h2, h3⟩, h4, h5, h6⟩ := ih _ _ h
      refine ⟨⟨extra, h1, h2, ?_⟩, h4, ?_, h6⟩
      · intro p hp
        obtain ⟨e, he, hpe⟩ := h3 p hp
        exact ⟨e, List.mem_cons_of_mem _ he, hpe⟩
      · simpa [decremented] using h5
    · rw [executeLoop_due t i ele rest hc] at h
      have hu : (unlinked t i ele).spawned = t.spawned ++ [(ele.Value.job, ele.Value.key)] ∧
          (unlinked t i ele).currentSlot = t.currentSlot ∧
          (unlinked t i ele).slots.length = t.slots.length ∧
          (unlinked t i ele).interval = t.interval := by
        simp [unlinked]
      have hfin : t1.spawned = (unlinked t i ele).spawned ∧
          t1.currentSlot = (unlinked t i ele).currentSlot ∧
          t1.slots.length = (unlinked t i ele).slots.length ∧
          t1.interval = (unlinked t i ele).interval := by
        split at h
        · exact addTask_frame _ _ _ h
        · split at h
          · exact addTask_frame _ _ _ h
          · simp only [Option.some.injEq] at h
            subst h
            exact ⟨rfl, rfl, rfl, rfl⟩
      refine ⟨⟨[(ele.Value.job, ele.Value.key)], ?_, by simp, ?_⟩, ?_, ?_, ?_⟩
      · rw [hfin.1, hu.1]
      · intro p hp
        simp only [List.mem_singleton] at hp
        exact ⟨ele, List.mem_cons_self _ _, hp⟩
      · rw [hfin.2.1, hu.2.1]
      · rw [hfin.2.2.1, hu.2.2.1]
      · rw [hfin.2.2.2, hu.2.2.2]

/-- One tick: the cursor moves on by one slot, the number of slots and the interval stay, and
at most one job is started, that of a task of the slot under the cursor. -/
theorem execute_frame (t t1 : XTimeWheel) (h : execute t = some t1) :
    (∃ extra, t1.spawned = t.spawned ++ extra ∧ extra.length ≤ 1 ∧
      ∀ p ∈ extra, ∃ l e, t.slots[t.currentSlot]? = some l ∧ e ∈ l ∧
        p = (e.Value.job, e.Value.key)) ∧
    t1.currentSlot = (t.currentSlot + 1) % t.slots.length ∧
    t1.slots.length = t.slots.length ∧ t1.interval = t.interval := by
  unfold execute at h
  split at h
  · simp at h
  · rename_i taskList hl
    simp only [Option.map_eq_some'] at h
    obtain ⟨t2, h2, rfl⟩ := h
    obtain ⟨⟨extra, h1, h3, h4⟩, h5, h6, h7⟩ := executeLoop_frame _ _ _ _ h2
    refine ⟨⟨extra, by simpa [incrCurrentSlot] using h1, h3, ?_⟩, ?_, ?_, ?_⟩
    · intro p hp
      obtain ⟨e, he, hpe⟩ := h4 p hp
      exact ⟨taskList, e, hl, he, hpe⟩
    · simp [incrCurrentSlot, h5, h6]
    · simpa [incrCurrentSlot] using h6
    · simpa [incrCurrentSlot] using h7

theorem ticks_split (a c : Nat) (t t1 : XTimeWheel) (h : ticks (a + c) t = some t1) :
    ∃ ta, ticks a t = some ta ∧ ticks c ta = some t1 := by
  rw [ticks_add] at h
  cases ha : ticks a t with
  | none => simp [ha] at h
  | some ta => exact ⟨ta, rfl, by simpa [ha] using h⟩

theorem ticks_frame (a : Nat) (t t1 : XTimeWheel) (h : ticks a t = some t1) :
    (∃ extra, t1.spawned = t.spawned ++ extra) ∧
    t1.slots.length = t.slots.length ∧ t1.interval = t.interval ∧
    (t.currentSlot < t.slots.length → t1.currentSlot = (t.currentSlot + a) % t.slots.length) := by
  induction a generalizing t with
  | zero =>
    simp only [ticks, Option.some.injEq] at h
    subst h
    exact ⟨⟨[], by simp⟩, rfl, rfl, fun hc => by simp [Nat.mod_eq_of_lt hc]⟩
  | succ a ih =>
    simp only [ticks] at h
    split at h
    · simp at h
    · rename_i t2 h2
      obtain ⟨⟨x1, hx1, _, _⟩, hc1, hl1, hi1⟩ := execute_frame _ _ h2
      obtain ⟨⟨x2, hx2⟩, hl2, hi2, hc2⟩ := ih _ h
      refine ⟨⟨x1 ++ x2, by rw [hx2, hx1, List.append_assoc]⟩, by rw [hl2, hl1],
        by rw [hi2, hi1], ?_⟩
      intro hc
      have hn : 0 < t.slots.length := by omega
      have hlt : t2.currentSlot < t2.slots.length := by
        rw [hc1, hl1]; exact Nat.mod_lt _ hn
      rw [hc2 hlt, hc1, hl1, Nat.add_mod ((t.currentSlot + 1) % t.slots.length) a,
        Nat.mod_mod, ← Nat.add_mod]
      congr 1
      omega

/-- Ticks that start no job in total start none on the way. -/
theorem ticks_quiet_prefix (a c : Nat) (t t1 : XTimeWheel) (h : ticks (a + c) t = some t1)
    (hq : t1.spawned = t.spawned) :
    ∃ ta, ticks a t = some ta ∧ ta.spawned = t.spawned := by
  obtain ⟨ta, h1, h2⟩ := ticks_split a c t t1 h
  obtain ⟨⟨x1, hx1⟩, _⟩ := ticks_frame _ _ _ h1
  obtain ⟨⟨x2, hx2⟩, _⟩ := ticks_frame _ _ _ h2
  refine ⟨ta, h1, ?_⟩
  rw [hx1] at hx2
  rw [hx2, List.append_assoc] at hq
  have := List.append_right_eq_self.1 hq
  have hx : x1 = [] := (List.append_eq_nil.1 this).1
  rw [hx1, hx, List.append_nil]

/-! ## Construction and validation -/

/-- C10: NewXTimingWheel returns a wheel (and no error) exactly when interval > 0 and
slotNum > 0, and an error (and no wheel) otherwise; the wheel it returns has slotNum slot
lists, all empty, cursor 0, an empty index and the given interval; DefaultTimingWheel is the
result for one second and 12 slots, and its error is always nil. -/
theorem NewXTimingWheel_spec (interval slotNum : Int) :
    ((∃ t, NewXTimingWheel interval slotNum = .ok t) ↔ (0 < interval ∧ 0 < slotNum)) ∧
    ((∃ e, NewXTimingWheel interval slotNum = .error e) ↔ ¬ (0 < interval ∧ 0 < slotNum)) ∧
    (∀ t, NewXTimingWheel interval slotNum = .ok t →
      (t.slots.length : Int) = slotNum ∧ (∀ l ∈ t.slots, l = []) ∧ t.currentSlot = 0 ∧
      t.taskRecords = [] ∧ t.interval = interval ∧ t.isRun = true) ∧
    DefaultTimingWheel = ((NewXTimingWheel Second 12).toOption, none) ∧
    DefaultTimingWheel = (some defaultWheel, none) := by
  refine ⟨?_, ?_, ?_, by decide, by decide⟩
  · unfold NewXTimingWheel
    by_cases h1 : interval ≤ 0
    · simp [h1]
    · by_cases h2 : slotNum ≤ 0
      · simp [h1, h2]
      · simp [h1, h2]; omega
  · unfold NewXTimingWheel
    by_cases h1 : interval ≤ 0
    · simp [h1]
    · by_cases h2 : slotNum ≤ 0
      · simp [h1, h2]
      · simp [h1, h2]
  · intro t ht
    unfold NewXTimingWheel at ht
    by_cases h1 : interval ≤ 0
    · simp [h1] at ht
    · by_cases h2 : slotNum ≤ 0
      · simp [h1, h2] at ht
      · simp only [h1, h2, if_false, Except.ok.injEq] at ht
        subst ht
        simp only [start, Bool.false_eq_true, if_false, List.length_map, List.length_replicate,
          List.mem_map, List.mem_replicate, and_true, true_and]
        refine ⟨by omega, ?_⟩
        rintro l ⟨a, _, rfl⟩
        rfl

/-- C10, at the arguments of DefaultTimingWheel and at a rejected pair. -/
theorem NewXTimingWheel_spec_witness :
    (∃ t, NewXTimingWheel Second 12 = .ok t) ∧ (∃ e, NewXTimingWheel 0 (-3) = .error e) :=
  ⟨(NewXTimingWheel_spec Second 12).1.2 (by decide),
   (NewXTimingWheel_spec 0 (-3)).2.1.2 (by decide)⟩

/-- C9: AddTask returns an error exactly when the key is empty, or executeAt is below the
interval, or the key is in the index; a call that returns an error hands nothing to the
control loop, so the wheel is left as it was; a call that returns no error hands over the task
built from its arguments, which the loop inserts with addTask. -/
theorem AddTask_error_iff (t : XTimeWheel) (key : String) (job : Nat) (executeAt times : Int) :
    ((∃ e, AddTask t key job executeAt times = .error e) ↔
      (key = "" ∨ executeAt < t.interval ∨ ∃ id, (key, id) ∈ t.taskRecords)) ∧
    ((∃ e, AddTask t key job executeAt times = .error e) →
      (Op.add key job executeAt times).apply t = some t) ∧
    (¬ (key = "" ∨ executeAt < t.interval ∨ ∃ id, (key, id) ∈ t.taskRecords) →
      AddTask t key job executeAt times =
        .ok { key := key, job := job, times := times, executeAt := executeAt, slot := 0,
              circle := 0 } ∧
      (Op.add key job executeAt times).apply t =
        addTask t { key := key, job := job, times := times, executeAt := executeAt, slot := 0,
                    circle := 0 }) := by
  have hL := Load_isSome_iff key t.taskRecords
  unfold Op.apply AddTask
  by_cases h1 : key = ""
  · simp [h1]
  · by_cases h2 : executeAt < t.interval
    · simp [h1, h2]
    · by_cases h3 : (Load key t.taskRecords).isSome = true
      · have h4 := hL.1 h3
        simp only [h1, h2, h3, if_true, if_false]
        simp [h4]
      · have h4 : ¬ ∃ id, (key, id) ∈ t.taskRecords := fun h => h3 (hL.2 h)
        simp only [h1, h2, h3, if_false]
        simp [h4]

/-- C9, at the call of the test: on the default wheel `AddTask("task_test", job, 15 s, 2)`
returns no error. -/
theorem AddTask_error_iff_witness :
    AddTask defaultWheel "task_test" 0 (15 * Second) 2 =
      .ok { key := "task_test", job := 0, times := 2, executeAt := 15 * Second, slot := 0,
            circle := 0 } :=
  ((AddTask_error_iff defaultWheel "task_test" 0 (15 * Second) 2).2.2
    (fun h => h.elim (by decide) (fun h => h.elim (by decide)
      (fun h => h.elim (fun _ hm => by simp [defaultWheel] at hm))))).1

/-! ## Placement -/

/-- C3, as stated, fails: on the wheel with interval 1.5 s and 12 slots a task with delay 3 s
is placed in slot 3, while the formula on the exact durations gives
(0 + floor(3 s / 1.5 s)) mod 12 = 2. -/
theorem placement_exact_durations_counterexample :
    (∃ t, NewXTimingWheel 1500000000 12 = .ok t ∧ t.interval ≤ 3000000000 ∧
      calSlotAndCircle t 3000000000 = some (3, 0) ∧
      ((Op.add "k" 0 3000000000 1).apply t).bind (fun t1 => t1.slots[3]?) =
        some [⟨0, ⟨"k", 0, 3000000000, 1, 3, 0⟩⟩] ∧
      ((t.currentSlot : Int) + 3000000000 / t.interval) % (t.slots.length : Int) = 2) :=
  ⟨_, rfl, by decide, by decide, by decide, by decide⟩

/-- The conversion of a whole number of seconds is exact. -/
theorem intSeconds_whole (d : Int) (h : d % Second = 0) : intSeconds d = d / Second := by
  have hd : d = d / Second * Second := by
    have := Int.ediv_add_emod d Second
    rw [h, Int.add_zero, Int.mul_comm] at this
    exact this.symm
  have := intSeconds_mul (d / Second)
  rw [← hd] at this
  exact this

/-- C3, amended: on a wheel whose interval is at least one second, with the cursor inside the
wheel, and whose rotation plus the delay (in seconds) fits a 64-bit int, a task with
delay >= interval is placed at slot = (cursor + floor(D / I)) mod slotCount with
circle = floor(D / (slotCount * I)), where D = int(delay.Seconds()) and
I = int(interval.Seconds()) are the seconds to which the code converts the delay and the
interval; addTask appends the task to that slot list and records it in the index. For each
of the two durations d the converted value is the whole seconds floor(d / 1 s) when d is a
whole number of seconds or is below 2^23 s, and is floor(d / 1 s) or floor(d / 1 s) + 1 for
every 64-bit duration (the conversion goes through float64). -/
theorem addTask_placement_whole_seconds (t : XTimeWheel) (task : Task)
    (hc : t.currentSlot < t.slots.length) (hI : Second ≤ t.interval)
    (hd : t.interval ≤ task.executeAt)
    (hfit : (t.slots.length : Int) * intSeconds t.interval + intSeconds task.executeAt
      < 9223372036854775808) :
    calSlotAndCircle t task.executeAt =
      some (((t.currentSlot : Int) + intSeconds task.executeAt / intSeconds t.interval)
              % (t.slots.length : Int),
            intSeconds task.executeAt / ((t.slots.length : Int) * intSeconds t.interval)) ∧
    addTask t task = some { t with
      slots := t.slots.modify
        (fun l => l ++ [⟨t.nextElem, { task with
          slot := ((t.currentSlot : Int) + intSeconds task.executeAt / intSeconds t.interval)
              % (t.slots.length : Int)
          circle := intSeconds task.executeAt
              / ((t.slots.length : Int) * intSeconds t.interval) }⟩])
        ((t.currentSlot + (intSeconds task.executeAt / intSeconds t.interval).toNat)
          % t.slots.length)
      taskRecords := Store task.key t.nextElem t.taskRecords
      nextElem := t.nextElem + 1 } ∧
    (t.currentSlot + (intSeconds task.executeAt / intSeconds t.interval).toNat)
      % t.slots.length < t.slots.length ∧
    ∀ d, d = t.interval ∨ d = task.executeAt →
      (d % Second = 0 ∨ d < 8388608 * Second → intSeconds d = d / Second) ∧
      (d < 9223372036854775808 →
        d / Second ≤ intSeconds d ∧ intSeconds d ≤ d / Second + 1) := by
  have hI1 : 1 ≤ intSeconds t.interval := intSeconds_pos _ hI
  have hD : 0 ≤ intSeconds task.executeAt :=
    intSeconds_nonneg _ (by unfold Second at hI; omega)
  have hcal := calSlotAndCircle_eq t task.executeAt hc hI1 hD hfit
  have hq : 0 ≤ intSeconds task.executeAt / intSeconds t.interval :=
    Int.ediv_nonneg hD (by omega)
  have hN : 0 < t.slots.length := by omega
  have hslot : ((t.currentSlot : Int) + intSeconds task.executeAt / intSeconds t.interval)
      % (t.slots.length : Int)
      = (((t.currentSlot + (intSeconds task.executeAt / intSeconds t.interval).toNat)
          % t.slots.length : Nat) : Int) := by
    push_cast
    rw [Int.toNat_of_nonneg hq]
  have hlt := Nat.mod_lt (t.currentSlot + (intSeconds task.executeAt
      / intSeconds t.interval).toNat) hN
  refine ⟨hcal, ?_, hlt, ?_⟩
  · unfold addTask
    rw [hcal]
    simp only [hslot, Int.toNat_ofNat]
    rw [if_pos ⟨by omega, hlt⟩]
  · intro d hdd
    have h0 : 0 ≤ d := by
      unfold Second at hI
      rcases hdd with h | h <;> omega
    refine ⟨fun h => ?_, fun h => ⟨intSeconds_ge d h0 h, intSeconds_le d h0 h⟩⟩
    rcases h with h | h
    · exact intSeconds_whole d h
    · exact intSeconds_exact d h0 h

/-- C3 amended, on the default wheel: the delay of 15 s gives slot 3 and circle 1; the delay
of 16777216.999999999 s, which the conversion through float64 rounds to 16777217 s, gives
slot 5 and circle 1398101. -/
theorem addTask_placement_whole_seconds_witness :
    calSlotAndCircle defaultWheel (15 * Second) = some (3, 1) ∧
    calSlotAndCircle defaultWheel 16777216999999999 = some (5, 1398101) :=
  ⟨(addTask_placement_whole_seconds defaultWheel ⟨"t1", 0, 15 * Second, 1, 0, 0⟩
    (by decide) (by decide) (by decide) (by decide)).1,
   (addTask_placement_whole_seconds defaultWheel ⟨"t1", 0, 16777216999999999, 1, 0, 0⟩
    (by decide) (by decide) (by decide) (by decide)).1⟩

/-- C4: the wheel with interval 500 ms and 12 slots is accepted by NewXTimingWheel and the
delay of 1 s is accepted by AddTask, yet calSlotAndCircle divides by the whole seconds of the
interval, which are 0: the control loop panics in addTask. -/
theorem calSlotAndCircle_subsecond_interval_panics :
    ∃ t task, NewXTimingWheel 500000000 12 = .ok t ∧
      AddTask t "k" 0 Second 1 = .ok task ∧
      calSlotAndCircle t task.executeAt = none ∧ addTask t task = none ∧
      (Op.add "k" 0 Second 1).apply t = none :=
  ⟨_, _, rfl, rfl, by decide, by decide, by decide⟩

/-! ## One tick on concrete wheels -/

/-- C1: on the default wheel the tasks a and b (delay 1 s) and c (delay 13 s) all sit in
slot 1, a and b due and c with circle 1. The tick that processes slot 1 starts the job of a
only: b stays in the slot and in the index without being dispatched, and the circle of c is
not decremented, because the scan ends at the element it has just removed. -/
theorem execute_stops_at_first_due_task :
    (runOps defaultWheel [.add "a" 1 Second 1, .add "b" 2 Second 1,
        .add "c" 3 (13 * Second) 1, .tick]).map (fun t => (t.currentSlot, t.slots[1]?)) =
      some (1, some [⟨0, ⟨"a", 1, Second, 1, 1, 0⟩⟩, ⟨1, ⟨"b", 2, Second, 1, 1, 0⟩⟩,
        ⟨2, ⟨"c", 3, 13 * Second, 1, 1, 1⟩⟩]) ∧
    (runOps defaultWheel [.add "a" 1 Second 1, .add "b" 2 Second 1,
        .add "c" 3 (13 * Second) 1, .tick, .tick]).map (fun t => (t.slots[1]?, t.spawned)) =
      some (some [⟨1, ⟨"b", 2, Second, 1, 1, 0⟩⟩, ⟨2, ⟨"c", 3, 13 * Second, 1, 1, 1⟩⟩],
        [(1, "a")]) ∧
    (runOps defaultWheel [.add "a" 1 Second 1, .add "b" 2 Second 1,
        .add "c" 3 (13 * Second) 1, .tick, .tick]).map (fun t => t.taskRecords) =
      some [("b", 1), ("c", 2)] := by
  refine ⟨?_, ?_, ?_⟩ <;> decide

/-- C7: on the default wheel a task with delay 12 s (one full rotation) and repeat 2, or with
the infinite marker, is dispatched during tick 13 and then during tick 37: the two dispatches
are 24 ticks apart, not floor(12 s / 1 s) = 12. The list gives the number of jobs started
after 0, 1, ..., 37 ticks. -/
theorem reinsertion_after_full_rotation_gap :
    (List.range 38).map (fun n =>
        ((runOps defaultWheel [.add "t" 1 (12 * Second) 2]).bind (ticks n)).map
          (fun t => t.spawned.length)) =
      List.replicate 13 (some 0) ++ List.replicate 24 (some 1) ++ [some 2] ∧
    (List.range 38).map (fun n =>
        ((runOps defaultWheel [.add "t" 1 (12 * Second) (-1)]).bind (ticks n)).map
          (fun t => t.spawned.length)) =
      List.replicate 13 (some 0) ++ List.replicate 24 (some 1) ++ [some 2] := by
  constructor <;> decide

theorem vacant_of_empty (t : XTimeWheel) (hempty : ∀ l ∈ t.slots, l = [])
    (hidx : t.taskRecords = []) : t = vacant t t.slots.length t.currentSlot := by
  have hs : t.slots = List.replicate t.slots.length [] :=
    List.eq_replicate_iff.2 ⟨rfl, hempty⟩
  cases t
  simp only [vacant] at *
  simp only [XTimeWheel.mk.injEq, true_and, and_true]
  exact ⟨hs, hidx⟩

/-- AddTask followed by addTask on a wheel without tasks, for a whole-second interval of `I`
seconds and a delay that `int(d.Seconds())` converts to `D` seconds. -/
theorem add_on_empty (t : XTimeWheel) (key : String) (job : Nat) (executeAt : Int) (I D : Nat)
    (times : Int)
    (hempty : ∀ l ∈ t.slots, l = []) (hidx : t.taskRecords = [])
    (hc : t.currentSlot < t.slots.length)
    (hint : t.interval = (I : Int) * Second) (hI : 1 ≤ I) (hkey : key ≠ "")
    (hd : t.interval ≤ executeAt) (hsecD : intSeconds executeAt = (D : Int))
    (hfit : t.slots.length * I + D < 9223372036854775808) :
    (Op.add key job executeAt times).apply t
      = some (single { t with nextElem := t.nextElem + 1 } t.slots.length t.currentSlot
          ((t.currentSlot + D / I) % t.slots.length)
          ⟨t.nextElem, ⟨key, job, executeAt, times,
            (((t.currentSlot + D / I) % t.slots.length : Nat) : Int),
            ((D / I / t.slots.length : Nat) : Int)⟩⟩) := by
  have hv := vacant_of_empty t hempty hidx
  have hsec : intSeconds t.interval = (I : Int) := by rw [hint, intSeconds_mul]
  have hle : ¬ (executeAt < t.interval) := by omega
  have hload : (Load key t.taskRecords).isSome = false := by rw [hidx]; rfl
  simp only [Op.apply, AddTask, hkey, if_false, hle, hload, Bool.false_eq_true]
  have hadd := addTask_vacant t t.slots.length t.currentSlot
    ⟨key, job, executeAt, times, 0, 0⟩ hc (by rw [hsec]; omega)
    (by simp only [hsecD]; omega)
    (by simp only [hsecD, hsec]; omega)
  rw [← hv] at hadd
  rw [hadd]
  simp only [hsecD, hsec]
  have h1 : ((D : Int) / (I : Int)).toNat = D / I := by
    rw [← Int.ofNat_ediv]; exact Int.toNat_ofNat _
  have h2 : (D : Int) / ((t.slots.length : Int) * (I : Int)) = ((D / I / t.slots.length : Nat) : Int) := by
    rw [Nat.div_div_eq_div_mul, Nat.mul_comm I]
    push_cast
    rfl
  rw [h1, h2]

/-- From the insertion to the moment the task is due: `r + k * n` ticks that start no job. -/
theorem ticks_single_reach (b : XTimeWheel) (n : Nat) (e : Element) (r k c : Nat) (hc : c < n)
    (hr : r < n) (hk : e.Value.circle = (k : Int)) :
    ticks (r + k * n) (single b n c ((c + r) % n) e)
      = some (single b n ((c + r) % n) ((c + r) % n) (e.withCircle 0)) := by
  have hn : 0 < n := by omega
  have he : e = e.withCircle (k : Int) := by
    cases e with
    | mk id v =>
      cases v
      simp only [Element.withCircle] at *
      simp [hk]
  rw [ticks_add, ticks_single_travel b n e r c hc hr, Option.some_bind]
  rw [he, ticks_single_rounds b n _ e (Nat.mod_lt _ hn) k]
  rfl

/-- The number of the first `steps + 1` cursor positions, starting at `c`, that are the slot
`(c + steps) mod n`. -/
theorem visits_count (n c steps : Nat) (hn : 0 < n) :
    Nat.count (fun j => (c + j) % n = (c + steps) % n) (steps + 1) = steps / n + 1 := by
  have hcount := @Nat.count_modEq_card (steps + 1) n hn steps
  have hrew : Nat.count (fun j => (c + j) % n = (c + steps) % n) (steps + 1)
      = Nat.count (fun j => j ≡ steps [MOD n]) (steps + 1) := by
    induction (steps + 1) with
    | zero => simp
    | succ m ih =>
      rw [Nat.count_succ, Nat.count_succ, ih]
      congr 1
      have : ((c + m) % n = (c + steps) % n) ↔ (m ≡ steps [MOD n]) :=
        ⟨fun h => Nat.ModEq.add_left_cancel' c h, fun h => Nat.ModEq.add_left c h⟩
      simp only [this]
  rw [hrew, hcount]
  have hdm := Nat.div_add_mod steps n
  have hml := Nat.mod_lt steps hn
  by_cases hd : steps % n + 1 = n
  · have h1 : steps + 1 = n * (steps / n + 1) := by
      rw [Nat.mul_add, Nat.mul_one]; omega
    rw [h1, Nat.mul_div_cancel_left _ hn, Nat.mul_mod_right]
    simp
  · have h1 : steps + 1 = (steps % n + 1) + n * (steps / n) := by omega
    have hlt : steps % n + 1 < n := by omega
    rw [h1, Nat.add_mul_div_left _ _ hn, Nat.add_mul_mod_self_left, Nat.mod_eq_of_lt hlt,
      Nat.div_eq_of_lt hlt]
    simp

theorem flatten_single (n s : Nat) (e : Element) (hs : s < n) :
    ((List.replicate n ([] : List Element)).set s [e]).flatten = [e] := by
  induction n generalizing s with
  | zero => omega
  | succ n ih =>
    cases s with
    | zero =>
      simp only [List.replicate_succ, List.set_cons_zero, List.flatten_cons, List.singleton_append]
      simp
    | succ s =>
      simp only [List.replicate_succ, List.set_cons_succ, List.flatten_cons, List.nil_append]
      exact ih s (by omega)

/-- C2: on a wheel that holds no task, with whole-second interval I >= 1 s, a task added with
repeat 1 and whole-second delay D >= I is placed in slot (cursor + steps) mod slotCount with
circle floor(D / (slotCount * I)), where steps = floor(D / I). None of the first `steps` ticks
starts its job; the cursor before tick j + 1 is (cursor + j) mod slotCount, and among the
first steps + 1 ticks exactly circle + 1 process the slot of the task; tick steps + 1 starts
the job once, and after it the index and every slot are empty. -/
theorem single_shot_fires_at_tick_steps_plus_one (t : XTimeWheel) (key : String) (job : Nat)
    (I D : Nat) (hempty : ∀ l ∈ t.slots, l = []) (hidx : t.taskRecords = [])
    (hc : t.currentSlot < t.slots.length)
    (hint : t.interval = (I : Int) * Second) (hI : 1 ≤ I) (hkey : key ≠ "") (hD : I ≤ D)
    (hfit : t.slots.length * I + D < 9223372036854775808) :
    ∃ t1, (Op.add key job ((D : Int) * Second) 1).apply t = some t1 ∧
      t1.slots.flatten = [⟨t.nextElem, ⟨key, job, (D : Int) * Second, 1,
        (((t.currentSlot + D / I) % t.slots.length : Nat) : Int),
        ((D / (t.slots.length * I) : Nat) : Int)⟩⟩] ∧
      t1.slots[(t.currentSlot + D / I) % t.slots.length]? = some [⟨t.nextElem, ⟨key, job,
        (D : Int) * Second, 1, (((t.currentSlot + D / I) % t.slots.length : Nat) : Int),
        ((D / (t.slots.length * I) : Nat) : Int)⟩⟩] ∧
      (∀ j, j ≤ D / I → ∃ tj, ticks j t1 = some tj ∧ tj.spawned = t.spawned ∧
        tj.currentSlot = (t.currentSlot + j) % t.slots.length) ∧
      Nat.count (fun j => (t.currentSlot + j) % t.slots.length
          = (t.currentSlot + D / I) % t.slots.length) (D / I + 1)
        = D / (t.slots.length * I) + 1 ∧
      (∃ t2, ticks (D / I + 1) t1 = some t2 ∧ t2.spawned = t.spawned ++ [(job, key)] ∧
        t2.taskRecords = [] ∧ ∀ l ∈ t2.slots, l = []) := by
  have hn : 0 < t.slots.length := by omega
  have hdiv : D / (t.slots.length * I) = D / I / t.slots.length := by
    rw [Nat.div_div_eq_div_mul, Nat.mul_comm]
  have hslot_lt : (t.currentSlot + D / I) % t.slots.length < t.slots.length := Nat.mod_lt _ hn
  have hmodeq : (t.currentSlot + D / I) % t.slots.length
      = (t.currentSlot + (D / I) % t.slots.length) % t.slots.length := by
    rw [Nat.add_mod, Nat.add_mod t.currentSlot ((D / I) % t.slots.length), Nat.mod_mod]
  have hsum : (D / I) % t.slots.length + (D / I / t.slots.length) * t.slots.length = D / I := by
    rw [Nat.mul_comm]; exact Nat.mod_add_div _ _
  refine ⟨_, add_on_empty t key job ((D : Int) * Second) I D 1 hempty hidx hc hint hI hkey
    (by rw [hint]; unfold Second; omega) (intSeconds_mul _) hfit, ?_, ?_, ?_, ?_, ?_⟩
  · rw [hdiv]
    exact flatten_single _ _ _ hslot_lt
  · rw [hdiv]
    exact single_getElem?_self _ _ _ hslot_lt
  · -- the waiting ticks
    have hreach := ticks_single_reach { t with nextElem := t.nextElem + 1 } t.slots.length
      ⟨t.nextElem, ⟨key, job, (D : Int) * Second, 1,
        (((t.currentSlot + D / I) % t.slots.length : Nat) : Int),
        ((D / I / t.slots.length : Nat) : Int)⟩⟩
      ((D / I) % t.slots.length) (D / I / t.slots.length) t.currentSlot hc
      (Nat.mod_lt _ hn) rfl
    rw [hsum, ← hmodeq] at hreach
    intro j hj
    have hsplit : D / I = j + (D / I - j) := by omega
    have hreach2 := hreach
    rw [show ticks (D / I) = ticks (j + (D / I - j)) from by rw [← hsplit]] at hreach2
    obtain ⟨tj, h1, h2⟩ := ticks_quiet_prefix j (D / I - j) _ _ hreach2 rfl
    refine ⟨tj, h1, h2, ?_⟩
    have hf := (ticks_frame j _ tj h1).2.2.2
    simp only [single, List.length_set, List.length_replicate] at hf
    exact hf hc
  · rw [hdiv]
    exact visits_count _ _ _ hn
  · have hreach := ticks_single_reach { t with nextElem := t.nextElem + 1 } t.slots.length
      ⟨t.nextElem, ⟨key, job, (D : Int) * Second, 1,
        (((t.currentSlot + D / I) % t.slots.length : Nat) : Int),
        ((D / I / t.slots.length : Nat) : Int)⟩⟩
      ((D / I) % t.slots.length) (D / I / t.slots.length) t.currentSlot hc
      (Nat.mod_lt _ hn) rfl
    rw [hsum, ← hmodeq] at hreach
    rw [ticks_succ_of_some _ _ _ hreach]
    rw [execute_single_drop _ _ _ _ hslot_lt (by simp [Element.withCircle])
      (by simp only [Element.withCircle]; decide) (by simp only [Element.withCircle]; decide)]
    refine ⟨_, rfl, ?_, ?_, ?_⟩
    · simp [vacant, Element.withCircle]
    · simp [vacant]
    · intro l hl
      simp only [vacant, List.mem_replicate] at hl
      exact hl.2

theorem cadence_pos (n steps : Nat) (h : 1 ≤ steps) : 1 ≤ cadence n steps := by
  unfold cadence
  split <;> omega

/-- After a reinsertion at cursor `s` (the cursor then moves on to `s + 1`), the task is due
`cadence n steps - 1` ticks later. -/
theorem ticks_single_after_reinsert (b : XTimeWheel) (n s steps : Nat) (e : Element)
    (hs : s < n) (h1 : 1 ≤ steps) (hk : e.Value.circle = ((steps / n : Nat) : Int)) :
    ticks (cadence n steps - 1) (single b n ((s + 1) % n) ((s + steps) % n) e)
      = some (single b n ((s + steps) % n) ((s + steps) % n) (e.withCircle 0)) := by
  have hn : 0 < n := by omega
  have hc1 : (s + 1) % n < n := Nat.mod_lt _ hn
  have hdm := Nat.mod_add_div steps n
  have hml := Nat.mod_lt steps hn
  by_cases h0 : steps % n = 0
  · have hr := ticks_single_reach b n e (n - 1) (steps / n) ((s + 1) % n) hc1 (by omega) hk
    have hslot : ((s + 1) % n + (n - 1)) % n = (s + steps) % n := by
      rw [Nat.add_mod ((s + 1) % n) (n - 1) n, Nat.mod_mod, ← Nat.add_mod]
      have e1 : s + 1 + (n - 1) = s + n := by omega
      rw [e1, Nat.add_mod_right, Nat.add_mod s steps, h0, Nat.add_zero, Nat.mod_mod]
    have hcount : n - 1 + steps / n * n = cadence n steps - 1 := by
      unfold cadence
      rw [if_pos h0, Nat.mul_comm]
      omega
    rw [hslot, hcount] at hr
    exact hr
  · have hr := ticks_single_reach b n e (steps % n - 1) (steps / n) ((s + 1) % n) hc1
      (by omega) hk
    have hslot : ((s + 1) % n + (steps % n - 1)) % n = (s + steps) % n := by
      rw [Nat.add_mod ((s + 1) % n) (steps % n - 1) n, Nat.mod_mod, ← Nat.add_mod]
      have e1 : s + 1 + (steps % n - 1) = s + steps % n := by omega
      rw [e1, Nat.add_mod s steps, Nat.add_mod s (steps % n), Nat.mod_mod]
    have hcount : steps % n - 1 + steps / n * n = cadence n steps - 1 := by
      unfold cadence
      rw [if_neg h0, Nat.mul_comm]
      omega
    rw [hslot, hcount] at hr
    exact hr

/-- A due task with at least two repeats left: the tick starts its job and reinserts it with
one repeat less, and `cadence - 1` further ticks later it is due again. -/
theorem due_again (t0 : XTimeWheel) (n : Nat) (key : String) (job : Nat) (executeAt : Int)
    (I D : Nat) (times : Int) (fired : Nat) (x : XTimeWheel)
    (hint : t0.interval = (I : Int) * Second) (hI : 1 ≤ I)
    (hsecE : intSeconds executeAt = (D : Int)) (hD : I ≤ D)
    (hfit : n * I + D < 9223372036854775808)
    (h2 : 2 ≤ times) (h63 : times < 9223372036854775808)
    (hx : Due t0 n key job executeAt times fired x) :
    ∃ y e, execute x = some y ∧
      y.spawned = t0.spawned ++ List.replicate (fired + 1) (job, key) ∧
      y.slots.flatten = [e] ∧ y.taskRecords = [(key, e.id)] ∧ e.Value.key = key ∧
      e.Value.job = job ∧ e.Value.executeAt = executeAt ∧ e.Value.times = times - 1 ∧
      ∃ z, ticks (cadence n (D / I) - 1) y = some z ∧
        Due t0 n key job executeAt (times - 1) (fired + 1) z := by
  obtain ⟨b, s, e, rfl, hs, hcirc, htimes, hkey, hjob, hex, hbi, hbs⟩ := hx
  have hn : 0 < n := by omega
  have hsteps : 1 ≤ D / I := (Nat.one_le_div_iff (by omega)).2 hD
  have hsec : intSeconds b.interval = (I : Int) := by rw [hbi, hint, intSeconds_mul]
  have hsecD : intSeconds e.Value.executeAt = (D : Int) := by rw [hex, hsecE]
  have hw : wrapInt (e.Value.times - 1) = times - 1 := by
    rw [htimes]; exact wrapInt_eq _ (by omega) (by omega)
  have hexec := execute_single_again b n s e hs (by omega) (by rw [hw]; omega)
    (by rw [hsec]; omega) (by rw [hsecD]; omega) (by rw [hsec, hsecD]; omega)
  have h1 : ((D : Int) / (I : Int)).toNat = D / I := by
    rw [← Int.ofNat_ediv]; exact Int.toNat_ofNat _
  have h2 : (D : Int) / ((n : Int) * (I : Int)) = ((D / I / n : Nat) : Int) := by
    rw [Nat.div_div_eq_div_mul, Nat.mul_comm I]
    push_cast
    rfl
  rw [hsec, hsecD, h1, h2, hw] at hexec
  have hslot_lt : (s + D / I) % n < n := Nat.mod_lt _ hn
  refine ⟨_, _, hexec, ?_, flatten_single _ _ _ hslot_lt, ?_, hkey, hjob, hex, rfl, ?_⟩
  · simp only [single]
    rw [hbs, List.append_assoc, hjob, hkey]
    congr 1
    exact (List.replicate_succ' ..).symm
  · simp only [single, hkey]
  · refine ⟨_, ticks_single_after_reinsert _ n s (D / I) _ hs hsteps rfl, ?_⟩
    refine ⟨_, _, _, rfl, hslot_lt, rfl, rfl, hkey, hjob, hex, hbi, ?_⟩
    simp only
    rw [hbs, List.append_assoc, hjob, hkey]
    congr 1
    exact (List.replicate_succ' ..).symm

/-- A due task with one repeat left: the tick starts its job and leaves the wheel without
tasks. -/
theorem due_last (t0 : XTimeWheel) (n : Nat) (key : String) (job : Nat) (executeAt : Int)
    (fired : Nat) (x : XTimeWheel) (hx : Due t0 n key job executeAt 1 fired x) :
    ∃ b c, execute x = some (vacant b n c) ∧ c < n ∧
      b.spawned = t0.spawned ++ List.replicate (fired + 1) (job, key) := by
  obtain ⟨b, s, e, rfl, hs, hcirc, htimes, hkey, hjob, _, _, hbs⟩ := hx
  have hn : 0 < n := by omega
  refine ⟨_, _, execute_single_drop b n s e hs (by omega) (by rw [htimes]; decide)
    (by rw [htimes]; decide), Nat.mod_lt _ hn, ?_⟩
  simp only
  rw [hbs, List.append_assoc, hjob, hkey]
  congr 1
  exact (List.replicate_succ' ..).symm

theorem ticks_vacant (b : XTimeWheel) (n c : Nat) (hc : c < n) (j : Nat) :
    ∃ c1, c1 < n ∧ ticks j (vacant b n c) = some (vacant b n c1) := by
  induction j generalizing c with
  | zero => exact ⟨c, hc, rfl⟩
  | succ j ih =>
    have hn : 0 < n := by omega
    obtain ⟨c1, h1, h2⟩ := ih ((c + 1) % n) (Nat.mod_lt _ hn)
    refine ⟨c1, h1, ?_⟩
    simp only [ticks, execute_vacant b n c hc, h2]

/-- The task is due for the (i + 1)-th time after `steps + i * cadence` ticks. -/
theorem due_chain (t : XTimeWheel) (key : String) (job : Nat) (executeAt : Int) (I D m : Nat)
    (hempty : ∀ l ∈ t.slots, l = []) (hidx : t.taskRecords = [])
    (hc : t.currentSlot < t.slots.length)
    (hint : t.interval = (I : Int) * Second) (hI : 1 ≤ I) (hkey : key ≠ "")
    (hd : t.interval ≤ executeAt) (hsecD : intSeconds executeAt = (D : Int)) (hD : I ≤ D)
    (hfit : t.slots.length * I + D < 9223372036854775808)
    (hm63 : m < 9223372036854775808) (i : Nat) (hi : i < m) :
    ∃ t1 x, (Op.add key job executeAt (m : Int)).apply t = some t1 ∧
      ticks (D / I + i * cadence t.slots.length (D / I)) t1 = some x ∧
      Due t t.slots.length key job executeAt ((m : Int) - (i : Int)) i x := by
  have hn : 0 < t.slots.length := by omega
  induction i with
  | zero =>
    have hmodeq : (t.currentSlot + D / I) % t.slots.length
        = (t.currentSlot + (D / I) % t.slots.length) % t.slots.length := by
      rw [Nat.add_mod, Nat.add_mod t.currentSlot ((D / I) % t.slots.length), Nat.mod_mod]
    have hsum : (D / I) % t.slots.length + (D / I / t.slots.length) * t.slots.length = D / I := by
      rw [Nat.mul_comm]; exact Nat.mod_add_div _ _
    have hreach := ticks_single_reach { t with nextElem := t.nextElem + 1 } t.slots.length
      ⟨t.nextElem, ⟨key, job, executeAt, (m : Int),
        (((t.currentSlot + D / I) % t.slots.length : Nat) : Int),
        ((D / I / t.slots.length : Nat) : Int)⟩⟩
      ((D / I) % t.slots.length) (D / I / t.slots.length) t.currentSlot hc
      (Nat.mod_lt _ hn) rfl
    rw [hsum, ← hmodeq] at hreach
    rw [show ticks (D / I) = ticks (D / I + 0 * cadence t.slots.length (D / I)) from by simp]
      at hreach
    exact ⟨_, _, add_on_empty t key job executeAt I D m hempty hidx hc hint hI hkey hd hsecD
        hfit, hreach,
      ⟨_, _, _, rfl, Nat.mod_lt _ hn, rfl, by simp [Element.withCircle], rfl, rfl, rfl,
        rfl, by simp⟩⟩
  | succ i ih =>
    obtain ⟨t1, x, h1, h2, h3⟩ := ih (by omega)
    obtain ⟨y, e, hy, _, _, _, _, _, _, _, z, hz, hdue⟩ :=
      due_again t t.slots.length key job executeAt I D ((m : Int) - (i : Int)) i x hint hI
        hsecD hD hfit (by omega) (by omega) h3
    have hsteps : 1 ≤ D / I := (Nat.one_le_div_iff (by omega)).2 hD
    have hg := cadence_pos t.slots.length (D / I) hsteps
    have hsplit : D / I + (i + 1) * cadence t.slots.length (D / I)
        = (D / I + i * cadence t.slots.length (D / I)) + (1 + (cadence t.slots.length (D / I) - 1)) := by
      rw [Nat.succ_mul]; omega
    refine ⟨t1, z, h1, ?_, ?_⟩
    · rw [hsplit, ticks_add, h2, Option.some_bind, ticks_add, ticks_one, hy, Option.some_bind, hz]
    · have : (m : Int) - ((i + 1 : Nat) : Int) = (m : Int) - (i : Int) - 1 := by omega
      rw [this]
      exact hdue

theorem Due_spawned (t0 : XTimeWheel) (n : Nat) (key : String) (job : Nat)
    (executeAt times : Int) (fired : Nat) (x : XTimeWheel)
    (hx : Due t0 n key job executeAt times fired x) :
    x.spawned = t0.spawned ++ List.replicate fired (job, key) := by
  obtain ⟨b, s, e, rfl, _, _, _, _, _, _, _, hbs⟩ := hx
  exact hbs

/-- C6: on a wheel that holds no task, with whole-second interval I >= 1 s, a task added with
repeat m >= 1 and any delay that AddTask accepts (delay >= interval, whole seconds or not) is
dispatched exactly m times. With D the seconds that `int(delay.Seconds())` yields (at least
I, and the whole seconds of the delay whenever the delay is below 2^23 s),
steps = floor(D / I) and g = cadence slotCount steps: no job is started during the first
`steps` ticks; for every i with i + 1 < m, tick steps + i * g + 1 starts the job for the
(i + 1)-th time and reinserts the task, alone on the wheel and recorded in the index, with
m - (i + 1) repeats left, and the count of started jobs stays i + 1 for the g - 1 ticks that
follow; tick steps + (m - 1) * g + 1 starts the job for the m-th time, and after it, for any
number of further ticks, the count stays m and the index and every slot are empty. -/
theorem repeat_fires_exactly_n_times (t : XTimeWheel) (key : String) (job : Nat)
    (executeAt : Int) (I D m : Nat)
    (hempty : ∀ l ∈ t.slots, l = []) (hidx : t.taskRecords = [])
    (hc : t.currentSlot < t.slots.length)
    (hint : t.interval = (I : Int) * Second) (hI : 1 ≤ I) (hkey : key ≠ "")
    (hd : t.interval ≤ executeAt) (hr : executeAt < 9223372036854775808)
    (hsecD : intSeconds executeAt = (D : Int))
    (hfit : t.slots.length * I + D < 9223372036854775808)
    (hm : 1 ≤ m) (hm63 : m < 9223372036854775808) :
    I ≤ D ∧ (executeAt < 8388608 * Second → (D : Int) = executeAt / Second) ∧
    ∃ t1, (Op.add key job executeAt (m : Int)).apply t = some t1 ∧
      (∀ j, j ≤ D / I → ∃ x, ticks j t1 = some x ∧ x.spawned = t.spawned) ∧
      (∀ i, i + 1 < m →
        (∃ y e, ticks (D / I + i * cadence t.slots.length (D / I) + 1) t1 = some y ∧
          y.slots.flatten = [e] ∧ y.taskRecords = [(key, e.id)] ∧ e.Value.key = key ∧
          e.Value.job = job ∧ e.Value.executeAt = executeAt ∧
          e.Value.times = (m : Int) - ((i + 1 : Nat) : Int)) ∧
        (∀ j, j < cadence t.slots.length (D / I) →
          ∃ y, ticks (D / I + i * cadence t.slots.length (D / I) + 1 + j) t1 = some y ∧
            y.spawned = t.spawned ++ List.replicate (i + 1) (job, key))) ∧
      (∀ j, D / I + (m - 1) * cadence t.slots.length (D / I) + 1 ≤ j →
        ∃ z, ticks j t1 = some z ∧ z.spawned = t.spawned ++ List.replicate m (job, key) ∧
          z.taskRecords = [] ∧ ∀ l ∈ z.slots, l = []) := by
  have h0 : 0 ≤ executeAt := by rw [hint] at hd; unfold Second at hd; omega
  have hD : I ≤ D := by
    have hge := intSeconds_ge executeAt h0 hr
    rw [hsecD] at hge
    rw [hint] at hd
    unfold Second at hd hge
    omega
  have hadd := add_on_empty t key job executeAt I D m hempty hidx hc hint hI hkey hd hsecD hfit
  refine ⟨hD, fun hlt => by rw [← hsecD]; exact intSeconds_exact executeAt h0 hlt,
    _, hadd, ?_, ?_, ?_⟩
  · intro j hj
    obtain ⟨t1, x, h1, h2, h3⟩ := due_chain t key job executeAt I D m hempty hidx hc hint hI
      hkey hd hsecD hD hfit hm63 0 (by omega)
    rw [hadd, Option.some.injEq] at h1
    subst h1
    have hsp := Due_spawned _ _ _ _ _ _ _ _ h3
    simp only [List.replicate_zero, List.append_nil, Nat.zero_mul, Nat.add_zero] at hsp h2
    have e1 : j + (D / I - j) = D / I := by omega
    rw [show ticks (D / I) = ticks (j + (D / I - j)) from by rw [e1]] at h2
    exact ticks_quiet_prefix j (D / I - j) _ _ h2 (by rw [hsp]; rfl)
  · intro i hi
    obtain ⟨t1, x, h1, h2, h3⟩ := due_chain t key job executeAt I D m hempty hidx hc hint hI
      hkey hd hsecD hD hfit hm63 i (by omega)
    rw [hadd, Option.some.injEq] at h1
    subst h1
    obtain ⟨y, e, hy, hysp, hyfl, hyrec, hek, hej, hee, het, z, hz, hdue⟩ :=
      due_again t t.slots.length key job executeAt I D ((m : Int) - (i : Int)) i x hint hI
        hsecD hD hfit (by omega) (by omega) h3
    have hty := ticks_succ_of_some _ _ _ h2
    rw [hy] at hty
    refine ⟨⟨y, e, hty, hyfl, hyrec, hek, hej, hee, by rw [het]; omega⟩, ?_⟩
    intro j hj
    have hzsp := Due_spawned _ _ _ _ _ _ _ _ hdue
    have e1 : j + (cadence t.slots.length (D / I) - 1 - j)
        = cadence t.slots.length (D / I) - 1 := by omega
    rw [show ticks (cadence t.slots.length (D / I) - 1)
        = ticks (j + (cadence t.slots.length (D / I) - 1 - j)) from by rw [e1]] at hz
    obtain ⟨yj, hyj, hyjsp⟩ := ticks_quiet_prefix j _ _ _ hz (by rw [hzsp, hysp])
    refine ⟨yj, ?_, by rw [hyjsp, hysp]⟩
    rw [ticks_add, hty, Option.some_bind, hyj]
  · intro j hj
    obtain ⟨t1, x, h1, h2, h3⟩ := due_chain t key job executeAt I D m hempty hidx hc hint hI
      hkey hd hsecD hD hfit hm63 (m - 1) (by omega)
    rw [hadd, Option.some.injEq] at h1
    subst h1
    have hone : (m : Int) - ((m - 1 : Nat) : Int) = 1 := by omega
    rw [hone] at h3
    obtain ⟨b, c, hx, hcn, hbs⟩ := due_last _ _ _ _ _ _ _ h3
    have hty := ticks_succ_of_some _ _ _ h2
    rw [hx] at hty
    obtain ⟨c1, hc1, hv⟩ := ticks_vacant b t.slots.length c hcn
      (j - (D / I + (m - 1) * cadence t.slots.length (D / I) + 1))
    refine ⟨vacant b t.slots.length c1, ?_, ?_, rfl, ?_⟩
    · have e1 : (D / I + (m - 1) * cadence t.slots.length (D / I) + 1)
          + (j - (D / I + (m - 1) * cadence t.slots.length (D / I) + 1)) = j := by omega
      rw [show ticks j = ticks ((D / I + (m - 1) * cadence t.slots.length (D / I) + 1)
          + (j - (D / I + (m - 1) * cadence t.slots.length (D / I) + 1))) from by rw [e1]]
      rw [ticks_add, hty, Option.some_bind, hv]
    · simp only [vacant]
      rw [hbs, Nat.sub_add_cancel hm]
    · intro l hl
      simp only [vacant, List.mem_replicate] at hl
      exact hl.2

/-- C2 on the default wheel with the delay of 15 s: slot 3, circle 1, no job during the first
15 ticks, the job during tick 16, and an empty index afterwards. -/
theorem single_shot_fires_at_tick_steps_plus_one_witness :
    ∃ t1, (Op.add "t1" 0 (15 * Second) 1).apply defaultWheel = some t1 ∧
      t1.slots[3]? = some [⟨0, ⟨"t1", 0, 15 * Second, 1, 3, 1⟩⟩] ∧
      (∀ j, j ≤ 15 → ∃ tj, ticks j t1 = some tj ∧ tj.spawned = []) ∧
      ∃ t2, ticks 16 t1 = some t2 ∧ t2.spawned = [(0, "t1")] ∧ t2.taskRecords = [] := by
  obtain ⟨t1, h1, _, h3, h4, _, t2, h6, h7, h8, _⟩ :=
    single_shot_fires_at_tick_steps_plus_one defaultWheel "t1" 0 1 15 (by decide) rfl
      (by decide) (by decide) (by decide) (by decide) (by decide) (by decide)
  refine ⟨t1, h1, h3, ?_, t2, h6, h7, h8⟩
  intro j hj
  obtain ⟨tj, a1, a2, _⟩ := h4 j hj
  exact ⟨tj, a1, a2⟩

/-- C6 on the default wheel. With delay 3 s and repeat 3 the job is started during ticks 4,
7 and 10, and after tick 10 the count stays 3 with an empty index. With the delay of 2.5 s
(converted to 2 whole seconds) and repeat 2 the job is started during ticks 3 and 5, and
after tick 5 the count stays 2 with an empty index. -/
theorem repeat_fires_exactly_n_times_witness :
    (∃ t1, (Op.add "t2" 0 (3 * Second) 3).apply defaultWheel = some t1 ∧
      (∀ j, j ≤ 3 → ∃ x, ticks j t1 = some x ∧ x.spawned = []) ∧
      (∃ y, ticks 4 t1 = some y ∧ y.spawned = [(0, "t2")]) ∧
      (∃ y, ticks 7 t1 = some y ∧ y.spawned = [(0, "t2"), (0, "t2")]) ∧
      (∀ j, 10 ≤ j → ∃ z, ticks j t1 = some z ∧
        z.spawned = [(0, "t2"), (0, "t2"), (0, "t2")] ∧ z.taskRecords = [])) ∧
    (∃ t1, (Op.add "h" 0 2500000000 2).apply defaultWheel = some t1 ∧
      (∀ j, j ≤ 2 → ∃ x, ticks j t1 = some x ∧ x.spawned = []) ∧
      (∃ y, ticks 3 t1 = some y ∧ y.spawned = [(0, "h")]) ∧
      (∀ j, 5 ≤ j → ∃ z, ticks j t1 = some z ∧
        z.spawned = [(0, "h"), (0, "h")] ∧ z.taskRecords = [])) := by
  constructor
  · obtain ⟨_, _, t1, h1, h2, h3, h4⟩ :=
      repeat_fires_exactly_n_times defaultWheel "t2" 0 (3 * Second) 1 3 3 (by decide) rfl
        (by decide) (by decide) (by decide) (by decide) (by decide) (by decide) (by decide)
        (by decide) (by decide) (by decide)
    refine ⟨t1, h1, h2, ?_, ?_, ?_⟩
    · exact (h3 0 (by decide)).2 0 (by decide)
    · exact (h3 1 (by decide)).2 0 (by decide)
    · intro j hj
      obtain ⟨z, a1, a2, a3, _⟩ := h4 j hj
      exact ⟨z, a1, a2, a3⟩
  · obtain ⟨_, _, t1, h1, h2, h3, h4⟩ :=
      repeat_fires_exactly_n_times defaultWheel "h" 0 2500000000 1 2 2 (by decide) rfl
        (by decide) (by decide) (by decide) (by decide) (by decide) (by decide) (by decide)
        (by decide) (by decide) (by decide)
    refine ⟨t1, h1, h2, ?_, ?_⟩
    · exact (h3 0 (by decide)).2 0 (by decide)
    · intro j hj
      obtain ⟨z, a1, a2, a3, _⟩ := h4 j hj
      exact ⟨z, a1, a2, a3⟩

theorem flatten_modify {α : Type} (slots : List (List α)) (i : Nat) (l : List α)
    (h : slots[i]? = some l) :
    ∃ A B, slots.flatten = A ++ l ++ B ∧
      ∀ f : List α → List α, (slots.modify f i).flatten = A ++ f l ++ B := by
  induction slots generalizing i with
  | nil => simp at h
  | cons x xs ih =>
    cases i with
    | zero =>
      simp only [List.getElem?_cons_zero, Option.some.injEq] at h
      subst h
      exact ⟨[], xs.flatten, by simp, fun f => by simp [List.modify]⟩
    | succ i =>
      simp only [List.getElem?_cons_succ] at h
      obtain ⟨A, B, h1, h2⟩ := ih i h
      refine ⟨x ++ A, B, by simp [h1], fun f => ?_⟩
      simp [List.modify_succ_cons, h2 f]

/-- Appending an element to a slot list adds it to the linked elements. -/
theorem flatten_modify_append {α : Type} (slots : List (List α)) (i : Nat) (e : α)
    (h : i < slots.length) :
    (slots.modify (fun l => l ++ [e]) i).flatten.Perm (e :: slots.flatten) := by
  obtain ⟨A, B, h1, h2⟩ := flatten_modify slots i slots[i] (List.getElem?_eq_getElem h)
  rw [h1, h2]
  have : A ++ (slots[i] ++ [e]) ++ B = (A ++ slots[i]) ++ e :: B := by simp
  rw [this, List.append_assoc A slots[i] B, ← List.append_assoc]
  exact List.perm_middle

/-- Unlinking an element from a slot list removes it from the linked elements. -/
theorem flatten_modify_unlink {α : Type} (slots : List (List α)) (i : Nat) (l1 l2 : List α)
    (e : α) (f : List α → List α) (h : slots[i]? = some (l1 ++ e :: l2))
    (hf : f (l1 ++ e :: l2) = l1 ++ l2) :
    slots.flatten.Perm (e :: (slots.modify f i).flatten) := by
  obtain ⟨A, B, h1, h2⟩ := flatten_modify slots i _ h
  rw [h1, h2, hf]
  have : A ++ (l1 ++ e :: l2) ++ B = (A ++ l1) ++ e :: (l2 ++ B) := by simp
  rw [this]
  have h3 : A ++ (l1 ++ l2) ++ B = (A ++ l1) ++ (l2 ++ B) := by simp
  rw [h3]
  exact List.perm_middle

theorem map_modify_of_comp {α β : Type} (g : α → β) (h : α → α) (hg : ∀ a, g (h a) = g a)
    (l : List α) (j : Nat) : (l.modify h j).map g = l.map g := by
  induction l generalizing j with
  | nil => simp
  | cons x xs ih =>
    cases j with
    | zero => simp [List.modify, hg]
    | succ j => simp [List.modify_succ_cons, ih]

/-- A change of one element of a slot list that a projection does not see leaves the
projection of the linked elements as it was. -/
theorem flatten_modify_map {α β : Type} (slots : List (List α)) (i j : Nat) (g : α → β)
    (h : α → α) (hg : ∀ a, g (h a) = g a) :
    ((slots.modify (fun l => l.modify h j) i).flatten).map g = slots.flatten.map g := by
  cases hl : slots[i]? with
  | none =>
    have : slots.length ≤ i := by
      rcases Nat.lt_or_ge i slots.length with hlt | hge
      · rw [List.getElem?_eq_getElem hlt] at hl
        simp at hl
      · exact hge
    rw [List.modify_eq_self this]
  | some l =>
    obtain ⟨A, B, h1, h2⟩ := flatten_modify slots i l hl
    rw [h1, h2]
    simp [map_modify_of_comp g h hg]

theorem Delete_eq_self (key : String) (m : List (String × Nat))
    (h : ∀ id, (key, id) ∉ m) : Delete key m = m := by
  unfold Delete
  rw [List.filter_eq_self]
  intro p hp
  simp only [ne_eq, decide_not, Bool.not_eq_true', decide_eq_false_iff_not]
  intro hk
  exact h p.2 (by rw [← hk]; exact hp)

theorem mem_Delete (key : String) (m : List (String × Nat)) (p : String × Nat) :
    p ∈ Delete key m ↔ p ∈ m ∧ p.1 ≠ key := by
  unfold Delete
  simp [List.mem_filter]

/-- The wheel after addTask, when it does not panic. -/
theorem addTask_eq (t t1 : XTimeWheel) (task : Task) (h : addTask t task = some t1) :
    ∃ slot : Nat, ∃ circ : Int, slot < t.slots.length ∧
      calSlotAndCircle t task.executeAt = some ((slot : Int), circ) ∧
      t1 = { t with
        slots := t.slots.modify
          (fun l => l ++ [⟨t.nextElem, { task with slot := (slot : Int), circle := circ }⟩]) slot
        taskRecords := Store task.key t.nextElem t.taskRecords
        nextElem := t.nextElem + 1 } := by
  unfold addTask at h
  split at h
  · simp at h
  · rename_i sc hsc
    simp only at h
    split at h
    · rename_i hr
      simp only [Option.some.injEq] at h
      refine ⟨sc.1.toNat, sc.2, hr.2, ?_, ?_⟩
      · rw [Int.toNat_of_nonneg hr.1, hsc]
      · rw [Int.toNat_of_nonneg hr.1]
        exact h.symm
    · simp at h

theorem pairs_addTask (t t1 : XTimeWheel) (task : Task) (h : addTask t task = some t1) :
    (pairs t1).Perm ((task.key, t.nextElem) :: pairs t) := by
  obtain ⟨slot, circ, hlt, _, rfl⟩ := addTask_eq t t1 task h
  unfold pairs
  exact (flatten_modify_append t.slots slot _ hlt).map _

/-- The invariant is kept by addTask for a key that is not in the index. -/
theorem Inv_addTask (t t1 : XTimeWheel) (task : Task) (hinv : Inv t)
    (hnew : ∀ id, (task.key, id) ∉ t.taskRecords) (h : addTask t task = some t1) : Inv t1 := by
  have hperm := pairs_addTask t t1 task h
  obtain ⟨slot, circ, hlt, _, ht1⟩ := addTask_eq t t1 task h
  have hnext : t1.nextElem = t.nextElem + 1 := by rw [ht1]
  have hrec : t1.taskRecords = t.taskRecords ++ [(task.key, t.nextElem)] := by
    rw [ht1]
    simp only [Store, Delete_eq_self task.key t.taskRecords hnew]
  have hslots : t1.slots = t.slots.modify
      (fun l => l ++ [⟨t.nextElem, { task with slot := (slot : Int), circle := circ }⟩]) slot := by
    rw [ht1]
  have hcur : t1.currentSlot = t.currentSlot := by rw [ht1]
  refine ⟨?_, ?_, ?_, ?_, ?_, ?_⟩
  · rw [(hperm.map _).nodup_iff, List.map_cons, List.nodup_cons]
    refine ⟨?_, hinv.ids⟩
    intro hmem
    obtain ⟨p, hp, hpe⟩ := List.mem_map.1 hmem
    have := hinv.fresh p hp
    simp only at hpe
    omega
  · rw [(hperm.map _).nodup_iff, List.map_cons, List.nodup_cons]
    refine ⟨?_, hinv.keys⟩
    intro hmem
    obtain ⟨p, hp, hpe⟩ := List.mem_map.1 hmem
    have hp2 := (hinv.index p).2 hp
    simp only at hpe
    exact hnew p.2 (by rw [← hpe]; exact hp2)
  · intro p hp
    rw [hnext]
    rcases List.mem_cons.1 (hperm.mem_iff.1 hp) with hp1 | hp1
    · rw [hp1]; simp
    · have := hinv.fresh p hp1
      omega
  · intro p
    rw [hrec, hperm.mem_iff, List.mem_append, List.mem_singleton, List.mem_cons, hinv.index p]
    tauto
  · intro i l hl e he
    rw [hslots, List.getElem?_modify] at hl
    cases hg : t.slots[i]? with
    | none => simp [hg] at hl
    | some l0 =>
      simp only [hg, Option.map_eq_map, Option.map_some', Option.some.injEq] at hl
      by_cases hi : slot = i
      · simp only [hi, if_true] at hl
        rw [← hl] at he
        rcases List.mem_append.1 he with he1 | he1
        · exact hinv.slotOf i l0 hg e he1
        · simp only [List.mem_singleton] at he1
          rw [he1]
      · simp only [hi, if_false] at hl
        rw [← hl] at he
        exact hinv.slotOf i l0 hg e he
  · rw [hcur, hslots, List.length_modify]
    exact hinv.cursor

/-- The invariant is kept when one element is unlinked from a slot list and its key is
deleted from the index; afterwards the key is not in the index. -/
theorem Inv_unlink (t t1 : XTimeWheel) (i : Nat) (l1 l2 : List Element) (e : Element)
    (f : List Element → List Element) (hinv : Inv t)
    (hl : t.slots[i]? = some (l1 ++ e :: l2)) (hf : f (l1 ++ e :: l2) = l1 ++ l2)
    (hslots : t1.slots = t.slots.modify f i)
    (hrec : t1.taskRecords = Delete e.Value.key t.taskRecords)
    (hnext : t1.nextElem = t.nextElem) (hcur : t1.currentSlot = t.currentSlot) :
    Inv t1 ∧ (∀ id, (e.Value.key, id) ∉ t1.taskRecords) ∧
      (pairs t).Perm ((e.Value.key, e.id) :: pairs t1) := by
  have hperm : (pairs t).Perm ((e.Value.key, e.id) :: pairs t1) := by
    unfold pairs
    rw [hslots]
    exact (flatten_modify_unlink t.slots i l1 l2 e f hl hf).map _
  have hids := (hperm.map (fun p => p.2)).nodup_iff.1 hinv.ids
  have hkeys := (hperm.map (fun p => p.1)).nodup_iff.1 hinv.keys
  rw [List.map_cons, List.nodup_cons] at hids hkeys
  have hsub : ∀ p, p ∈ pairs t1 → p ∈ pairs t := fun p hp =>
    hperm.mem_iff.2 (List.mem_cons_of_mem _ hp)
  refine ⟨⟨hids.2, hkeys.2, ?_, ?_, ?_, ?_⟩, ?_, hperm⟩
  · intro p hp
    rw [hnext]
    exact hinv.fresh p (hsub p hp)
  · intro p
    rw [hrec, mem_Delete, hinv.index p, hperm.mem_iff, List.mem_cons]
    constructor
    · rintro ⟨h1 | h1, h2⟩
      · exact absurd (by rw [h1]) h2
      · exact h1
    · intro h1
      refine ⟨Or.inr h1, ?_⟩
      intro hk
      exact hkeys.1 (List.mem_map.2 ⟨p, h1, hk⟩)
  · intro j l hj x hx
    rw [hslots, List.getElem?_modify] at hj
    cases hg : t.slots[j]? with
    | none => simp [hg] at hj
    | some l0 =>
      simp only [hg, Option.map_eq_map, Option.map_some', Option.some.injEq] at hj
      by_cases hi : i = j
      · subst hi
        rw [hl, Option.some.injEq] at hg
        simp only [if_true] at hj
        rw [← hg, hf] at hj
        rw [← hj] at hx
        refine hinv.slotOf i _ hl x ?_
        rcases List.mem_append.1 hx with hx1 | hx1
        · exact List.mem_append_left _ hx1
        · exact List.mem_append_right _ (List.mem_cons_of_mem _ hx1)
      · simp only [hi, if_false] at hj
        rw [← hj] at hx
        exact hinv.slotOf j l0 hg x hx
  · rw [hcur, hslots, List.length_modify]
    exact hinv.cursor
  · intro id hmem
    rw [hrec, mem_Delete] at hmem
    exact hmem.2 rfl

theorem mem_modify {α : Type} (h : α → α) (l : List α) (j : Nat) (x : α)
    (hx : x ∈ l.modify h j) : x ∈ l ∨ ∃ y ∈ l, x = h y := by
  induction l generalizing j with
  | nil => simp at hx
  | cons a as ih =>
    cases j with
    | zero =>
      simp only [List.modify, List.modifyTailIdx, List.modifyHead, List.mem_cons] at hx
      rcases hx with hx | hx
      · exact Or.inr ⟨a, List.mem_cons_self _ _, hx⟩
      · exact Or.inl (List.mem_cons_of_mem _ hx)
    | succ j =>
      rw [List.modify_succ_cons, List.mem_cons] at hx
      rcases hx with hx | hx
      · exact Or.inl (by rw [hx]; exact List.mem_cons_self _ _)
      · rcases ih j hx with h1 | ⟨y, hy, hxy⟩
        · exact Or.inl (List.mem_cons_of_mem _ h1)
        · exact Or.inr ⟨y, List.mem_cons_of_mem _ hy, hxy⟩

/-- The invariant does not see the circle of a task. -/
theorem Inv_decremented (t : XTimeWheel) (i : Nat) (hinv : Inv t) : Inv (decremented t i) := by
  have hp : pairs (decremented t i) = pairs t := by
    unfold pairs decremented
    exact flatten_modify_map t.slots t.currentSlot i _ _ (fun _ => rfl)
  refine ⟨by rw [hp]; exact hinv.ids, by rw [hp]; exact hinv.keys,
    by rw [hp]; exact hinv.fresh, by rw [hp]; exact hinv.index, ?_, ?_⟩
  · intro j l hj x hx
    simp only [decremented] at hj
    rw [List.getElem?_modify] at hj
    cases hg : t.slots[j]? with
    | none => simp [hg] at hj
    | some l0 =>
      simp only [hg, Option.map_eq_map, Option.map_some', Option.some.injEq] at hj
      by_cases hi : t.currentSlot = j
      · simp only [hi, if_true] at hj
        rw [← hj] at hx
        rcases mem_modify _ _ _ _ hx with h1 | ⟨y, hy, hxy⟩
        · exact hinv.slotOf j l0 hg x h1
        · rw [hxy]
          exact hinv.slotOf j l0 hg y hy
      · simp only [hi, if_false] at hj
        rw [← hj] at hx
        exact hinv.slotOf j l0 hg x hx
  · simp only [decremented, List.length_modify]
    exact hinv.cursor

theorem modify_append_cons {α : Type} (h : α → α) (pre : List α) (a : α) (rest : List α) :
    (pre ++ a :: rest).modify h pre.length = pre ++ h a :: rest := by
  induction pre with
  | nil => rfl
  | cons x xs ih => simp [List.modify_succ_cons, ih]

theorem eraseIdx_append_cons {α : Type} (pre : List α) (a : α) (rest : List α) :
    (pre ++ a :: rest).eraseIdx pre.length = pre ++ rest := by
  induction pre with
  | nil => rfl
  | cons x xs ih => simp [ih]

/-- The invariant is kept by the loop of execute, started at position `i` of the list of the
current slot. -/
theorem Inv_executeLoop (rest : List Element) (t t1 : XTimeWheel) (i : Nat)
    (pre : List Element) (hinv : Inv t)
    (hl : t.slots[t.currentSlot]? = some (pre ++ rest)) (hi : pre.length = i)
    (h : executeLoop t i rest = some t1) : Inv t1 := by
  induction rest generalizing t i pre with
  | nil =>
    simp only [executeLoop, Option.some.injEq] at h
    rw [← h]
    exact hinv
  | cons ele rest ih =>
    by_cases hc : ele.Value.circle > 0
    · rw [executeLoop_wait t i ele rest hc] at h
      refine ih (decremented t i) (i + 1)
        (pre ++ [{ ele with Value := { ele.Value with circle := ele.Value.circle - 1 } }])
        (Inv_decremented t i hinv) ?_ (by simp [hi]) h
      simp only [decremented, List.getElem?_modify_eq, hl, Option.map_eq_map, Option.map_some',
        Option.some.injEq]
      rw [← hi, modify_append_cons]
      simp
    · rw [executeLoop_due t i ele rest hc] at h
      obtain ⟨hu, hkey, _⟩ := Inv_unlink t (unlinked t i ele) t.currentSlot pre rest ele
        (fun l => l.eraseIdx i) hinv hl (by rw [← hi]; exact eraseIdx_append_cons pre ele rest)
        rfl rfl rfl rfl
      split at h
      · exact Inv_addTask _ _ { ele.Value with times := wrapInt (ele.Value.times - 1) } hu
          hkey h
      · split at h
        · exact Inv_addTask _ _ _ hu hkey h
        · simp only [Option.some.injEq] at h
          rw [← h]
          exact hu

theorem pairs_incrCurrentSlot (t : XTimeWheel) : pairs (incrCurrentSlot t) = pairs t := rfl

/-- The invariant is kept by a tick. -/
theorem Inv_execute (t t1 : XTimeWheel) (hinv : Inv t) (h : execute t = some t1) : Inv t1 := by
  unfold execute at h
  split at h
  · simp at h
  · rename_i taskList hl
    simp only [Option.map_eq_some'] at h
    obtain ⟨t2, h2, rfl⟩ := h
    have hi2 := Inv_executeLoop taskList t t2 0 [] hinv (by simpa using hl) rfl h2
    refine ⟨hi2.ids, hi2.keys, hi2.fresh, hi2.index, hi2.slotOf, ?_⟩
    simp only [incrCurrentSlot]
    exact Nat.mod_lt _ (by have := hi2.cursor; omega)

theorem Load_some_mem (key : String) (m : List (String × Nat)) (id : Nat)
    (h : Load key m = some id) : (key, id) ∈ m := by
  unfold Load at h
  simp only [Option.map_eq_some'] at h
  obtain ⟨p, hp, hpid⟩ := h
  have h1 := List.mem_of_find?_eq_some hp
  have h2 := List.find?_some hp
  simp only [decide_eq_true_eq] at h2
  rw [← h2, ← hpid]
  exact h1

theorem Load_none_not_mem (key : String) (m : List (String × Nat))
    (h : Load key m = none) : ∀ id, (key, id) ∉ m := by
  intro id hmem
  have := (Load_isSome_iff key m).2 ⟨id, hmem⟩
  rw [h] at this
  simp at this

/-- In a wheel that satisfies the invariant, two linked elements with the same identity are
the same element. -/
theorem Inv_id_inj (t : XTimeWheel) (hinv : Inv t) (a c : Element)
    (ha : a ∈ t.slots.flatten) (hc : c ∈ t.slots.flatten) (h : a.id = c.id) : a = c := by
  have hn : (t.slots.flatten.map (fun e => e.id)).Nodup := by
    have := hinv.ids
    unfold pairs at this
    rw [List.map_map] at this
    exact this
  exact List.inj_on_of_nodup_map hn ha hc h

/-- The invariant is kept by removeTask, after which the key is not in the index. -/
theorem Inv_removeTask (t t1 : XTimeWheel) (key : String) (hinv : Inv t)
    (h : removeTask t key = some t1) : Inv t1 ∧ ∀ id, (key, id) ∉ t1.taskRecords := by
  unfold removeTask at h
  split at h
  · rename_i hload
    simp only [Option.some.injEq] at h
    rw [← h]
    exact ⟨hinv, Load_none_not_mem key _ hload⟩
  · rename_i id hload
    have hmem := Load_some_mem key _ id hload
    have hp := (hinv.index (key, id)).1 hmem
    unfold pairs at hp
    obtain ⟨e0, he0, hpe⟩ := List.mem_map.1 hp
    simp only [Prod.mk.injEq] at hpe
    split at h
    · rename_i hfind
      unfold findElement at hfind
      have := List.find?_eq_none.1 hfind e0 he0
      simp only [decide_eq_true_eq] at this
      exact absurd hpe.2 this
    · rename_i ele hfind
      unfold findElement at hfind
      have hele := List.mem_of_find?_eq_some hfind
      have hid := List.find?_some hfind
      simp only [decide_eq_true_eq] at hid
      have heq : ele = e0 := Inv_id_inj t hinv ele e0 hele he0 (by rw [hid, hpe.2])
      obtain ⟨l, hl, hin⟩ := List.mem_flatten.1 hele
      obtain ⟨j, hj⟩ := List.mem_iff_getElem?.1 hl
      have hslot := hinv.slotOf j l hj ele hin
      split at h
      · simp only [Option.some.injEq] at h
        have hjn : ele.Value.slot.toNat = j := by rw [hslot]; exact Int.toNat_ofNat j
        obtain ⟨a, l1, l2, _, hpa, hsplit, herase⟩ :=
          List.exists_of_eraseP (p := fun e => decide (e.id = id)) hin (by simp [hid])
        simp only [decide_eq_true_eq] at hpa
        have hain : a ∈ t.slots.flatten :=
          List.mem_flatten.2 ⟨l, hl, by rw [hsplit]; simp⟩
        have ha : a = ele := Inv_id_inj t hinv a ele hain hele (by rw [hpa, hid])
        rw [ha] at hsplit
        have hkey : ele.Value.key = key := by rw [heq]; exact hpe.1
        rw [hsplit] at hj
        obtain ⟨h1, h2, _⟩ := Inv_unlink t t1 j l1 l2 ele (Remove id) hinv hj
          (by unfold Remove; rw [← hsplit]; exact herase)
          (by rw [← h, hjn]) (by rw [← h, hkey]) (by rw [← h]) (by rw [← h])
        rw [hkey] at h2
        exact ⟨h1, h2⟩
      · simp at h

/-- The invariant is kept by every event of the control loop. -/
theorem Inv_apply (t t1 : XTimeWheel) (op : Op) (hinv : Inv t) (h : op.apply t = some t1) :
    Inv t1 := by
  cases op with
  | add key job executeAt times =>
    simp only [Op.apply] at h
    split at h
    · simp only [Option.some.injEq] at h
      rw [← h]; exact hinv
    · rename_i task hadd
      unfold AddTask at hadd
      split at hadd
      · simp at hadd
      · split at hadd
        · simp at hadd
        · split at hadd
          · simp at hadd
          · rename_i hload
            simp only [Except.ok.injEq] at hadd
            have hnone : Load key t.taskRecords = none := by
              cases hL : Load key t.taskRecords with
              | none => rfl
              | some v => simp [hL] at hload
            refine Inv_addTask t t1 task hinv ?_ h
            rw [← hadd]
            exact Load_none_not_mem key _ hnone
  | remove key =>
    simp only [Op.apply] at h
    split at h
    · simp only [Option.some.injEq] at h
      rw [← h]; exact hinv
    · rename_i k hk
      exact (Inv_removeTask t t1 k hinv h).1
  | tick => exact Inv_execute t t1 hinv h

theorem Inv_runOps (ops : List Op) (t t1 : XTimeWheel) (hinv : Inv t)
    (h : runOps t ops = some t1) : Inv t1 := by
  induction ops generalizing t with
  | nil =>
    simp only [runOps, Option.some.injEq] at h
    rw [← h]; exact hinv
  | cons op ops ih =>
    simp only [runOps] at h
    split at h
    · simp at h
    · rename_i t2 h2
      exact ih t2 (Inv_apply t t2 op hinv h2) h

theorem flatten_replicate_nil {α : Type} (n : Nat) :
    (List.replicate n ([] : List α)).flatten = [] := by
  induction n with
  | zero => rfl
  | succ n ih => simp [List.replicate_succ, ih]

/-- The invariant holds on every wheel returned by NewXTimingWheel. -/
theorem Inv_NewXTimingWheel (interval slotNum : Int) (t : XTimeWheel)
    (h : NewXTimingWheel interval slotNum = .ok t) : Inv t := by
  unfold NewXTimingWheel at h
  split at h
  · simp at h
  · split at h
    · simp at h
    · rename_i h1 h2
      simp only [Except.ok.injEq] at h
      have hs : t.slots = List.replicate slotNum.toNat [] := by
        rw [← h]
        simp [start]
      have hp : pairs t = [] := by
        unfold pairs
        rw [hs, flatten_replicate_nil]
        rfl
      have hr : t.taskRecords = [] := by rw [← h]; simp [start]
      have hc : t.currentSlot = 0 := by rw [← h]; simp [start]
      refine ⟨by rw [hp]; simp, by rw [hp]; simp, by rw [hp]; simp, by rw [hp, hr]; simp,
        ?_, ?_⟩
      · intro i l hl e he
        rw [hs] at hl
        have := List.getElem?_mem hl
        rw [List.mem_replicate] at this
        rw [this.2] at he
        simp at he
      · rw [hc, hs, List.length_replicate]
        omega

/-! ## The index and the slots when no check is stale -/

/-- When the loop inserts every task before any other call or event follows the checks of its
AddTask (the runs of `runOps`), in every state reached from a wheel returned by
NewXTimingWheel: a key is in the index exactly when one task with that key is linked in the
slots; no key and no element occurs twice across the slots; an index entry (key, element) is
exactly a linked element with that identity whose task has that key; and every task records
the number of the slot list that holds it. -/
theorem runOps_index_matches_slots (interval slotNum : Int) (t0 t : XTimeWheel) (ops : List Op)
    (h0 : NewXTimingWheel interval slotNum = .ok t0) (h : runOps t0 ops = some t) :
    (∀ key, (∃ id, (key, id) ∈ t.taskRecords) ↔
      (t.slots.flatten.map (fun e => e.Value.key)).count key = 1) ∧
    (t.slots.flatten.map (fun e => e.Value.key)).Nodup ∧
    (t.slots.flatten.map (fun e => e.id)).Nodup ∧
    (∀ key id, (key, id) ∈ t.taskRecords ↔
      ∃ e ∈ t.slots.flatten, e.id = id ∧ e.Value.key = key) ∧
    (∀ (i : Nat) (l : List Element), t.slots[i]? = some l →
      ∀ e ∈ l, e.Value.slot = (i : Int)) := by
  have hinv := Inv_runOps ops t0 t (Inv_NewXTimingWheel interval slotNum t0 h0) h
  have hkeys : (t.slots.flatten.map (fun e => e.Value.key)).Nodup := by
    have := hinv.keys
    unfold pairs at this
    rw [List.map_map] at this
    exact this
  have hids : (t.slots.flatten.map (fun e => e.id)).Nodup := by
    have := hinv.ids
    unfold pairs at this
    rw [List.map_map] at this
    exact this
  have hidx : ∀ key id, (key, id) ∈ t.taskRecords ↔
      ∃ e ∈ t.slots.flatten, e.id = id ∧ e.Value.key = key := by
    intro key id
    rw [hinv.index (key, id)]
    unfold pairs
    rw [List.mem_map]
    constructor
    · rintro ⟨e, he, hp⟩
      simp only [Prod.mk.injEq] at hp
      exact ⟨e, he, hp.2, hp.1⟩
    · rintro ⟨e, he, h1, h2⟩
      exact ⟨e, he, by rw [h1, h2]⟩
  refine ⟨?_, hkeys, hids, hidx, hinv.slotOf⟩
  intro key
  constructor
  · rintro ⟨id, hmem⟩
    obtain ⟨e, he, _, hk⟩ := (hidx key id).1 hmem
    exact List.count_eq_one_of_mem hkeys (List.mem_map.2 ⟨e, he, hk⟩)
  · intro hc
    have hpos : 0 < (t.slots.flatten.map (fun e => e.Value.key)).count key := by omega
    obtain ⟨e, he, hk⟩ := List.mem_map.1 (List.count_pos_iff.1 hpos)
    exact ⟨e.id, (hidx key e.id).2 ⟨e, he, rfl, hk⟩⟩

theorem set_self_of_getElem? {α : Type} (l : List α) (i : Nat) (a : α) (h : l[i]? = some a) :
    l.set i a = l := by
  induction l generalizing i with
  | nil => rfl
  | cons x xs ih =>
    cases i with
    | zero =>
      simp only [List.getElem?_cons_zero, Option.some.injEq] at h
      rw [h]; rfl
    | succ i =>
      simp only [List.getElem?_cons_succ] at h
      simp [ih i h]

/-- The waiting branch of the loop of execute, taken for each task of `w` in turn. -/
theorem executeLoop_waiting (w rest : List Element) (t : XTimeWheel) (pre : List Element)
    (hl : t.slots[t.currentSlot]? = some (pre ++ (w ++ rest)))
    (hw : ∀ e ∈ w, e.Value.circle > 0) :
    executeLoop t pre.length (w ++ rest)
      = executeLoop
          { t with slots := (t.slots.set t.currentSlot (pre ++ (w.map Element.dec ++ rest))) }
          (pre.length + w.length) rest := by
  induction w generalizing t pre with
  | nil =>
    simp only [List.nil_append, List.map_nil, List.length_nil, Nat.add_zero] at *
    rw [set_self_of_getElem? _ _ _ hl]
  | cons a w ih =>
    have ha : a.Value.circle > 0 := hw a (List.mem_cons_self _ _)
    rw [List.cons_append, executeLoop_wait t pre.length a (w ++ rest) ha]
    have hdec : (decremented t pre.length).slots
        = t.slots.set t.currentSlot ((pre ++ [a.dec]) ++ (w ++ rest)) := by
      simp only [decremented]
      rw [modify_eq_set_of_getElem? _ _ _ _ hl, List.cons_append, modify_append_cons]
      simp [Element.dec]
    have hcur : (decremented t pre.length).currentSlot = t.currentSlot := rfl
    have hlen : t.currentSlot < t.slots.length := by
      rcases Nat.lt_or_ge t.currentSlot t.slots.length with h1 | h1
      · exact h1
      · rw [List.getElem?_eq_none h1] at hl; simp at hl
    have hl2 : (decremented t pre.length).slots[(decremented t pre.length).currentSlot]?
        = some ((pre ++ [a.dec]) ++ (w ++ rest)) := by
      rw [hcur, hdec, List.getElem?_set_self hlen]
    have := ih (decremented t pre.length) (pre ++ [a.dec]) hl2
      (fun e he => hw e (List.mem_cons_of_mem _ he))
    simp only [List.length_append, List.length_singleton] at this
    rw [this, hcur, hdec, List.set_set]
    simp only [List.map_cons, List.length_cons, List.append_assoc, List.singleton_append,
      decremented]
    congr 1
    omega

theorem executeLoop_due_reinsert (t : XTimeWheel) (i : Nat) (ele : Element)
    (rest : List Element) (h : ¬ ele.Value.circle > 0) :
    executeLoop t i (ele :: rest) = reinsert (unlinked t i ele) ele.Value := by
  rw [executeLoop_due t i ele rest h]
  rfl

/-- A tick on a slot whose tasks are all waiting: every circle is decremented once and the
cursor moves on. -/
theorem execute_all_waiting (t : XTimeWheel) (l : List Element)
    (hl : t.slots[t.currentSlot]? = some l) (hw : ∀ e ∈ l, e.Value.circle > 0) :
    execute t = some (incrCurrentSlot
      { t with slots := (t.slots.set t.currentSlot (l.map Element.dec)) }) := by
  have h := executeLoop_waiting l [] t [] (by simpa using hl) hw
  simp only [List.append_nil, List.nil_append, List.length_nil, Nat.zero_add] at h
  unfold execute
  rw [hl]
  simp only [h, executeLoop, Option.map_some']

/-- A tick on a slot whose first due task is `ele`, after the waiting tasks `w`: the tasks of
`w` are decremented, the job of `ele` is started, `ele` is unlinked and reinserted if it
repeats, the tasks of `rest` are left as they are, and the cursor moves on. -/
theorem execute_first_due (t : XTimeWheel) (w rest : List Element) (ele : Element)
    (hl : t.slots[t.currentSlot]? = some (w ++ ele :: rest))
    (hw : ∀ e ∈ w, e.Value.circle > 0) (hd : ¬ ele.Value.circle > 0) :
    execute t = (reinsert (dispatched t w ele rest) ele.Value).map incrCurrentSlot := by
  have h := executeLoop_waiting w (ele :: rest) t [] (by simpa using hl) hw
  simp only [List.nil_append, List.length_nil, Nat.zero_add] at h
  have hlen : t.currentSlot < t.slots.length := by
    rcases Nat.lt_or_ge t.currentSlot t.slots.length with h1 | h1
    · exact h1
    · rw [List.getElem?_eq_none h1] at hl; simp at hl
  unfold execute
  rw [hl]
  simp only [h]
  rw [executeLoop_due_reinsert _ _ _ _ hd]
  have hu : unlinked
      { t with slots := (t.slots.set t.currentSlot (w.map Element.dec ++ ele :: rest)) }
      w.length ele = dispatched t w ele rest := by
    simp only [unlinked, dispatched]
    rw [modify_eq_set_of_getElem? _ _ _ _ (List.getElem?_set_self hlen), List.set_set]
    have : (w.map Element.dec ++ ele :: rest).eraseIdx w.length = w.map Element.dec ++ rest := by
      have := eraseIdx_append_cons (w.map Element.dec) ele rest
      rwa [List.length_map] at this
    rw [this]
  rw [hu]

/-- Every list of tasks is all waiting, or has a first due task. -/
theorem split_first_due (l : List Element) :
    (∀ e ∈ l, e.Value.circle > 0) ∨
    ∃ w ele rest, l = w ++ ele :: rest ∧ (∀ e ∈ w, e.Value.circle > 0) ∧
      ¬ ele.Value.circle > 0 := by
  induction l with
  | nil => exact Or.inl (by simp)
  | cons a l ih =>
    by_cases ha : a.Value.circle > 0
    · rcases ih with h | ⟨w, ele, rest, h1, h2, h3⟩
      · left
        intro e he
        rcases List.mem_cons.1 he with h0 | h0
        · rw [h0]; exact ha
        · exact h e h0
      · right
        refine ⟨a :: w, ele, rest, by rw [h1]; rfl, ?_, h3⟩
        intro e he
        rcases List.mem_cons.1 he with h0 | h0
        · rw [h0]; exact ha
        · exact h2 e h0
    · exact Or.inr ⟨[], a, l, rfl, by simp, ha⟩

/-- What removeTask leaves alone. -/
theorem removeTask_frame (t t1 : XTimeWheel) (key : String) (h : removeTask t key = some t1) :
    t1.spawned = t.spawned ∧ t1.currentSlot = t.currentSlot ∧
    t1.slots.length = t.slots.length ∧ t1.interval = t.interval ∧
    t1.nextElem = t.nextElem := by
  unfold removeTask at h
  split at h
  · simp only [Option.some.injEq] at h
    rw [← h]
    exact ⟨rfl, rfl, rfl, rfl, rfl⟩
  · split at h
    · simp only [Option.some.injEq] at h
      rw [← h]
      exact ⟨rfl, rfl, rfl, rfl, rfl⟩
    · split at h
      · simp only [Option.some.injEq] at h
        rw [← h]
        simp
      · simp at h

/-- The reinsertion does not panic when the whole seconds of the interval are at least one
and the rotation plus the delay fits a 64-bit int. -/
theorem reinsert_isSome (u : XTimeWheel) (task : Task) (hc : u.currentSlot < u.slots.length)
    (hI : 1 ≤ intSeconds u.interval) (hD : 0 ≤ intSeconds task.executeAt)
    (hfit : (u.slots.length : Int) * intSeconds u.interval + intSeconds task.executeAt
      < 9223372036854775808) :
    ∃ t1, reinsert u task = some t1 := by
  have hadd : ∀ tk : Task, tk.executeAt = task.executeAt → ∃ t1, addTask u tk = some t1 := by
    intro tk htk
    have hcal := calSlotAndCircle_eq u tk.executeAt hc hI (by rw [htk]; exact hD)
      (by rw [htk]; exact hfit)
    have hN : (0 : Int) < (u.slots.length : Int) := by omega
    have hq : 0 ≤ intSeconds tk.executeAt / intSeconds u.interval :=
      Int.ediv_nonneg (by rw [htk]; exact hD) (by omega)
    have h0 := Int.emod_nonneg ((u.currentSlot : Int)
      + intSeconds tk.executeAt / intSeconds u.interval) (Int.ne_of_gt hN)
    have h1 := Int.emod_lt_of_pos ((u.currentSlot : Int)
      + intSeconds tk.executeAt / intSeconds u.interval) hN
    unfold addTask
    rw [hcal]
    simp only
    rw [if_pos ⟨h0, by omega⟩]
    exact ⟨_, rfl⟩
  unfold reinsert
  split
  · exact hadd _ rfl
  · split
    · exact hadd _ rfl
    · exact ⟨_, rfl⟩

/-- A tick does not panic when the cursor is inside the wheel, the whole seconds of the
interval are at least one and, for every task of the current slot, the rotation plus the delay
fits a 64-bit int. -/
theorem execute_isSome (t : XTimeWheel) (hc : t.currentSlot < t.slots.length)
    (hI : 1 ≤ intSeconds t.interval)
    (hfit : ∀ l, t.slots[t.currentSlot]? = some l → ∀ e ∈ l,
      0 ≤ intSeconds e.Value.executeAt ∧
      (t.slots.length : Int) * intSeconds t.interval + intSeconds e.Value.executeAt
        < 9223372036854775808) :
    ∃ t1, execute t = some t1 := by
  have hl : t.slots[t.currentSlot]? = some t.slots[t.currentSlot] :=
    List.getElem?_eq_getElem hc
  rcases split_first_due t.slots[t.currentSlot] with hw | ⟨w, ele, rest, h1, h2, h3⟩
  · exact ⟨_, execute_all_waiting t _ hl hw⟩
  · rw [h1] at hl
    have hele := hfit _ hl ele (by simp)
    obtain ⟨t1, ht1⟩ := reinsert_isSome (dispatched t w ele rest) ele.Value
      (by simpa [dispatched] using hc) hI hele.1 (by simpa [dispatched] using hele.2)
    exact ⟨incrCurrentSlot t1, by rw [execute_first_due t w rest ele hl h2 h3, ht1]; rfl⟩

/-! ## Removal, cursor and stop -/

/-- C11: RemoveTask returns an error exactly when the key is empty, and then hands nothing
to the control loop, so that the wheel stays as it is; for a non-empty key it hands the key
over, and when that key is not in the index removeTask returns without a panic and leaves the
whole wheel (slots, index and cursor included) unchanged. -/
theorem RemoveTask_error_iff (t : XTimeWheel) (key : String) :
    ((∃ e, RemoveTask t key = .error e) ↔ key = "") ∧
    ((∃ e, RemoveTask t key = .error e) → (Op.remove key).apply t = some t) ∧
    (key ≠ "" → RemoveTask t key = .ok key ∧ (Op.remove key).apply t = removeTask t key) ∧
    ((∀ id, (key, id) ∉ t.taskRecords) → removeTask t key = some t) := by
  refine ⟨?_, ?_, ?_, ?_⟩
  · unfold RemoveTask
    by_cases h : key = "" <;> simp [h]
  · unfold RemoveTask Op.apply RemoveTask
    by_cases h : key = "" <;> simp [h]
  · intro h
    unfold Op.apply RemoveTask
    simp [h]
  · intro h
    have hnone : Load key t.taskRecords = none := by
      cases hL : Load key t.taskRecords with
      | none => rfl
      | some v => exact absurd (Load_some_mem key _ v hL) (h v)
    unfold removeTask
    rw [hnone]

/-- C11 on the default wheel: the empty key is refused, and the key of the test, which was
never scheduled, is a no-op. -/
theorem RemoveTask_error_iff_witness :
    (∃ e, RemoveTask defaultWheel "" = .error e) ∧
    (Op.remove "task_test").apply defaultWheel = some defaultWheel ∧
    removeTask defaultWheel "task_test" = some defaultWheel :=
  ⟨(RemoveTask_error_iff defaultWheel "").1.2 rfl,
   ((RemoveTask_error_iff defaultWheel "task_test").2.2.1 (by decide)).2.trans
     ((RemoveTask_error_iff defaultWheel "task_test").2.2.2
       (fun _ hm => by simp [defaultWheel] at hm)),
   (RemoveTask_error_iff defaultWheel "task_test").2.2.2
     (fun _ hm => by simp [defaultWheel] at hm)⟩

/-- C12: a tick that completes sets the cursor to (cursor + 1) mod slotCount and keeps the
number of slots, whatever the current slot holds; a tick completes on an empty slot, on a
slot of waiting tasks and, when the reinsertion is representable, on a slot with a due task;
addTask and removeTask keep the cursor; in every state reached from NewXTimingWheel the
cursor is below slotCount; and slotCount ticks in a row bring the cursor back. -/
theorem cursor_advances_by_one :
    (∀ t t1 : XTimeWheel, execute t = some t1 →
      t1.currentSlot = (t.currentSlot + 1) % t.slots.length ∧
      t1.slots.length = t.slots.length) ∧
    (∀ t : XTimeWheel, t.currentSlot < t.slots.length → 1 ≤ intSeconds t.interval →
      (∀ l, t.slots[t.currentSlot]? = some l → ∀ e ∈ l,
        0 ≤ intSeconds e.Value.executeAt ∧
        (t.slots.length : Int) * intSeconds t.interval + intSeconds e.Value.executeAt
          < 9223372036854775808) →
      ∃ t1, execute t = some t1) ∧
    (∀ (t : XTimeWheel) (l : List Element), t.slots[t.currentSlot]? = some l →
      (∀ e ∈ l, e.Value.circle > 0) → ∃ t1, execute t = some t1) ∧
    (∀ (t t1 : XTimeWheel) (task : Task), addTask t task = some t1 →
      t1.currentSlot = t.currentSlot ∧ t1.slots.length = t.slots.length) ∧
    (∀ (t t1 : XTimeWheel) (key : String), removeTask t key = some t1 →
      t1.currentSlot = t.currentSlot ∧ t1.slots.length = t.slots.length) ∧
    (∀ (interval slotNum : Int) (t0 t : XTimeWheel) (ops : List Op),
      NewXTimingWheel interval slotNum = .ok t0 → runOps t0 ops = some t →
      t.currentSlot < t.slots.length) ∧
    (∀ t t1 : XTimeWheel, t.currentSlot < t.slots.length →
      ticks t.slots.length t = some t1 → t1.currentSlot = t.currentSlot) := by
  refine ⟨?_, ?_, ?_, ?_, ?_, ?_, ?_⟩
  · intro t t1 h
    have := execute_frame t t1 h
    exact ⟨this.2.1, this.2.2.1⟩
  · intro t hc hI hfit
    exact execute_isSome t hc hI hfit
  · intro t l hl hw
    exact ⟨_, execute_all_waiting t l hl hw⟩
  · intro t t1 task h
    have := addTask_frame t t1 task h
    exact ⟨this.2.1, this.2.2.1⟩
  · intro t t1 key h
    have := removeTask_frame t t1 key h
    exact ⟨this.2.1, this.2.2.1⟩
  · intro interval slotNum t0 t ops h0 h
    exact (Inv_runOps ops t0 t (Inv_NewXTimingWheel interval slotNum t0 h0) h).cursor
  · intro t t1 hc h
    have := (ticks_frame _ t t1 h).2.2.2 hc
    rw [this, Nat.add_mod_right, Nat.mod_eq_of_lt hc]

/-- C12 on the default wheel: the first tick moves the cursor from 0 to 1 and twelve ticks
bring it back to 0. -/
theorem cursor_advances_by_one_witness :
    (execute defaultWheel).map (fun t => t.currentSlot) = some 1 ∧
    (ticks 12 defaultWheel).map (fun t => t.currentSlot) = some 0 := by
  constructor
  · cases h : execute defaultWheel with
    | none => exact absurd h (by decide)
    | some t1 =>
      have := (cursor_advances_by_one.1 defaultWheel t1 h).1
      simp only [Option.map_some', this]
      rfl
  · cases h : ticks 12 defaultWheel with
    | none => exact absurd h (by decide)
    | some t1 =>
      have := cursor_advances_by_one.2.2.2.2.2.2 defaultWheel t1 (by decide) h
      simp only [Option.map_some', this]
      rfl

/-- C13: on a running wheel (running flag set, stop channel open) Stop clears the flag, stops
the ticker and closes the stop channel; on a stopped wheel Stop changes nothing and does not
panic; hence a second Stop leaves exactly the wheel the first one left. -/
theorem Stop_idempotent (t : XTimeWheel) :
    (t.isRun = true → t.stopCh = false →
      Stop t = some { t with isRun := false, ticker := false, stopCh := true }) ∧
    (t.isRun = false → Stop t = some t) ∧
    ((t.isRun = true → t.stopCh = false) →
      (∃ t1, Stop t = some t1 ∧ t1.isRun = false ∧ Stop t1 = some t1) ∧
      (Stop t).bind Stop = Stop t) := by
  refine ⟨?_, ?_, ?_⟩
  · intro h1 h2
    simp [Stop, h1, h2]
  · intro h1
    simp [Stop, h1]
  · intro h
    by_cases h1 : t.isRun = true
    · have h2 := h h1
      simp [Stop, h1, h2]
    · simp only [Bool.not_eq_true] at h1
      simp [Stop, h1]

/-- C13 on the default wheel, which is running. -/
theorem Stop_idempotent_witness :
    (Stop defaultWheel).bind Stop = Stop defaultWheel ∧
    (Stop defaultWheel).map (fun t => (t.isRun, t.stopCh)) = some (false, true) :=
  ⟨((Stop_idempotent defaultWheel).2.2 (fun _ => rfl)).2, by
    rw [(Stop_idempotent defaultWheel).1 rfl rfl]; rfl⟩

/-- The steps of a single call of Stop give the method Stop. -/
theorem stopRace_alone (t : XTimeWheel) :
    (stopRace [true, true, true] (t, .test, .done)).map (fun s => s.1) = Stop t := by
  by_cases h1 : t.isRun = true
  · by_cases h2 : t.stopCh = true
    · simp [stopRace, stopStep, Stop, h1, h2]
    · simp only [Bool.not_eq_true] at h2
      simp [stopRace, stopStep, Stop, h1, h2]
  · simp only [Bool.not_eq_true] at h1
    simp [stopRace, stopStep, Stop, h1]

/-- C14: two concurrent calls of Stop on the running default wheel panic under the
interleaving in which both callers pass the test `if t.isRun` before either of them enters
the critical section: the second `close(t.stopCh)` closes a closed channel. Under a schedule
that lets the first caller finish before the second one starts there is no panic. -/
theorem concurrent_Stop_closes_twice :
    stopRace [true, false, true, true, false, false] (defaultWheel, .test, .test) = none ∧
    (stopRace [true, false, true, true, false] (defaultWheel, .test, .test)).map
      (fun s => (s.1.isRun, s.1.stopCh, s.2.1, s.2.2)) = some (false, true, .done, .close) ∧
    (stopRace [true, true, true, false, false, false] (defaultWheel, .test, .test)).map
      (fun s => (s.1.isRun, s.1.stopCh, s.2.1, s.2.2)) = some (false, true, .done, .done) := by
  refine ⟨by decide, by decide, by decide⟩

/-- C15: the calls of the test. AddTask on the default wheel returns nil; after Stop the
goroutine `run` receives from the closed stop channel and returns; the call
`RemoveTask("task_test")` that follows passes its validation and then blocks on its send,
which nobody receives: it does not return to the test. -/
theorem RemoveTask_after_Stop_blocks :
    ((Loop.mk defaultWheel true).addTaskCall "task_test" 0 (15 * Second) 2).1
      = .returned none ∧
    ((((Loop.mk defaultWheel true).addTaskCall "task_test" 0 (15 * Second) 2).2.bind
        Loop.stop).map Loop.receiveStop).map (fun s => (s.alive, s.wheel.stopCh, s.wheel.isRun))
      = some (false, true, false) ∧
    ((((Loop.mk defaultWheel true).addTaskCall "task_test" 0 (15 * Second) 2).2.bind
        Loop.stop).map Loop.receiveStop).map (fun s => (s.removeTaskCall "task_test").1)
      = some .blocked := by
  refine ⟨by decide, by decide, by decide⟩

/-! ## One tick in general -/

theorem calSlotAndCircle_congr (t u : XTimeWheel) (executeAt : Int)
    (h1 : u.slots.length = t.slots.length) (h2 : u.interval = t.interval)
    (h3 : u.currentSlot = t.currentSlot) :
    calSlotAndCircle u executeAt = calSlotAndCircle t executeAt := by
  unfold calSlotAndCircle
  rw [h1, h2, h3]

/-- The outcomes of the reinsertion: the wheel is left as it is, or the task is appended, as
a new element, to the slot list that calSlotAndCircle gives for its delay and the cursor of
the wheel, with the circle calSlotAndCircle gives, with its repeat count decremented or (for
the infinite marker) unchanged, and is stored in the index. -/
theorem reinsert_eq (u u1 : XTimeWheel) (task : Task) (h : reinsert u task = some u1) :
    (u1 = u ∧ ¬ wrapInt (task.times - 1) > 0 ∧ task.times ≠ -1) ∨
    ∃ (slot : Nat) (circ times : Int), slot < u.slots.length ∧
      ((wrapInt (task.times - 1) > 0 ∧ times = wrapInt (task.times - 1)) ∨
        (task.times = -1 ∧ times = -1)) ∧
      calSlotAndCircle u task.executeAt = some ((slot : Int), circ) ∧
      u1 = { u with
        slots := u.slots.modify (fun l => l ++
          [⟨u.nextElem, { task with times := times, slot := (slot : Int), circle := circ }⟩]) slot
        taskRecords := Store task.key u.nextElem u.taskRecords
        nextElem := u.nextElem + 1 } := by
  unfold reinsert at h
  split at h
  · rename_i ha
    obtain ⟨slot, circ, h1, h2, h3⟩ := addTask_eq _ _ _ h
    exact Or.inr ⟨slot, circ, wrapInt (task.times - 1), h1, Or.inl ⟨ha, rfl⟩, h2, h3⟩
  · rename_i ha
    split at h
    · rename_i hm
      obtain ⟨slot, circ, h1, h2, h3⟩ := addTask_eq _ _ _ h
      refine Or.inr ⟨slot, circ, -1, h1, Or.inr ⟨hm, rfl⟩, h2, ?_⟩
      rw [h3, ← hm]
    · rename_i hm
      simp only [Option.some.injEq] at h
      exact Or.inl ⟨h.symm, ha, hm⟩

/-- Every tick that completes is of one of two kinds: all tasks of the current slot wait, or
the scan stops at the first due task. -/
theorem execute_eq (t t1 : XTimeWheel) (h : execute t = some t1) :
    ∃ l, t.slots[t.currentSlot]? = some l ∧
      (((∀ e ∈ l, e.Value.circle > 0) ∧
          t1 = incrCurrentSlot
            { t with slots := (t.slots.set t.currentSlot (l.map Element.dec)) }) ∨
        ∃ w ele rest u, l = w ++ ele :: rest ∧ (∀ e ∈ w, e.Value.circle > 0) ∧
          ¬ ele.Value.circle > 0 ∧
          reinsert (dispatched t w ele rest) ele.Value = some u ∧ t1 = incrCurrentSlot u) := by
  cases hl : t.slots[t.currentSlot]? with
  | none => simp [execute, hl] at h
  | some l =>
    refine ⟨l, rfl, ?_⟩
    rcases split_first_due l with hw | ⟨w, ele, rest, h1, h2, h3⟩
    · left
      rw [execute_all_waiting t l hl hw, Option.some.injEq] at h
      exact ⟨hw, h.symm⟩
    · right
      rw [h1] at hl
      rw [execute_first_due t w rest ele hl h2 h3, Option.map_eq_some'] at h
      obtain ⟨u, hu, hu1⟩ := h
      exact ⟨w, ele, rest, u, h1, h2, h3, hu, hu1.symm⟩

theorem Load_eq_none_of_not_mem (key : String) (m : List (String × Nat))
    (h : ∀ id, (key, id) ∉ m) : Load key m = none := by
  cases hL : Load key m with
  | none => rfl
  | some v => exact absurd (Load_some_mem key _ v hL) (h v)

/-- C16: a tick whose scan reaches the due task `ele` (after the waiting tasks `w`, before
`rest`) with repeat count r. For r = -1 the tick ends with addTask of the same task; for
r >= 2 with addTask of the task with count r - 1; for r = 1 the task is not reinserted and its
key is free: it is not in the index and a new AddTask with it is accepted. The addTask of the
reinsertion runs while the cursor still has its value from before the advance: it appends one
new element that holds the task, with the slot and circle of calSlotAndCircle for the task's
delay at that cursor, at the back of that slot list, leaves the other slot lists as they are
and stores the key in the index. -/
theorem reinsertion_on_dispatch (t : XTimeWheel) (w rest : List Element) (ele : Element)
    (hl : t.slots[t.currentSlot]? = some (w ++ ele :: rest))
    (hw : ∀ e ∈ w, e.Value.circle > 0) (hd : ¬ ele.Value.circle > 0)
    (hr : ele.Value.times < 9223372036854775808) :
    (ele.Value.times = -1 →
      execute t = (addTask (dispatched t w ele rest) ele.Value).map incrCurrentSlot) ∧
    (2 ≤ ele.Value.times →
      execute t = (addTask (dispatched t w ele rest)
        { ele.Value with times := ele.Value.times - 1 }).map incrCurrentSlot) ∧
    (ele.Value.times = 1 →
      execute t = some (incrCurrentSlot (dispatched t w ele rest)) ∧
      (∀ id, (ele.Value.key, id) ∉ (incrCurrentSlot (dispatched t w ele rest)).taskRecords) ∧
      (∀ (job : Nat) (executeAt times : Int), ele.Value.key ≠ "" → ¬ executeAt < t.interval →
        AddTask (incrCurrentSlot (dispatched t w ele rest)) ele.Value.key job executeAt times
          = .ok { key := ele.Value.key, job := job, times := times, executeAt := executeAt,
                  slot := 0, circle := 0 })) ∧
    (∀ (task : Task) (u1 : XTimeWheel), addTask (dispatched t w ele rest) task = some u1 →
      ∃ (slot : Nat) (circ : Int), slot < t.slots.length ∧
        calSlotAndCircle t task.executeAt = some ((slot : Int), circ) ∧
        (∃ l0, (dispatched t w ele rest).slots[slot]? = some l0 ∧
          u1.slots[slot]? = some (l0 ++
            [⟨t.nextElem, { task with slot := (slot : Int), circle := circ }⟩])) ∧
        (∀ j, j ≠ slot → u1.slots[j]? = (dispatched t w ele rest).slots[j]?) ∧
        u1.taskRecords = Store task.key t.nextElem (Delete ele.Value.key t.taskRecords) ∧
        (task.key, t.nextElem) ∈ u1.taskRecords ∧
        u1.slots.flatten.length = (dispatched t w ele rest).slots.flatten.length + 1) := by
  have hex := execute_first_due t w rest ele hl hw hd
  refine ⟨?_, ?_, ?_, ?_⟩
  · intro hm
    have ha : ¬ wrapInt (ele.Value.times - 1) > 0 := by rw [hm]; decide
    rw [hex]
    unfold reinsert
    rw [if_neg ha, if_pos hm]
  · intro h2
    have hwr : wrapInt (ele.Value.times - 1) = ele.Value.times - 1 :=
      wrapInt_eq _ (by omega) (by omega)
    rw [hex]
    unfold reinsert
    rw [hwr, if_pos (by omega)]
  · intro h1
    have ha : ¬ wrapInt (ele.Value.times - 1) > 0 := by rw [h1]; decide
    have hm : ¬ ele.Value.times = -1 := by omega
    have hfree : ∀ id, (ele.Value.key, id) ∉
        (incrCurrentSlot (dispatched t w ele rest)).taskRecords := by
      intro id hmem
      simp only [incrCurrentSlot, dispatched] at hmem
      exact ((mem_Delete _ _ _).1 hmem).2 rfl
    refine ⟨?_, hfree, ?_⟩
    · rw [hex]
      unfold reinsert
      rw [if_neg ha, if_neg hm]
      rfl
    · intro job executeAt times hk hi
      have hload := Load_eq_none_of_not_mem _ _ hfree
      have hint : (incrCurrentSlot (dispatched t w ele rest)).interval = t.interval := rfl
      unfold AddTask
      rw [if_neg hk, hint, if_neg hi, hload]
      rfl
  · intro task u1 hadd
    obtain ⟨slot, circ, h1, h2, h3⟩ := addTask_eq _ _ _ hadd
    have hlen : (dispatched t w ele rest).slots.length = t.slots.length := by
      simp [dispatched]
    have hnext : (dispatched t w ele rest).nextElem = t.nextElem := rfl
    have hrec : (dispatched t w ele rest).taskRecords = Delete ele.Value.key t.taskRecords :=
      rfl
    rw [calSlotAndCircle_congr t _ _ hlen rfl rfl] at h2
    rw [hlen] at h1
    have hperm := flatten_modify_append (dispatched t w ele rest).slots slot
      ⟨t.nextElem, { task with slot := (slot : Int), circle := circ }⟩ (by rw [hlen]; exact h1)
    refine ⟨slot, circ, h1, h2, ?_, ?_, ?_, ?_, ?_⟩
    · have hlt : slot < (dispatched t w ele rest).slots.length := by rw [hlen]; exact h1
      refine ⟨(dispatched t w ele rest).slots[slot], List.getElem?_eq_getElem hlt, ?_⟩
      rw [h3]
      simp only [hnext]
      rw [List.getElem?_modify_eq, List.getElem?_eq_getElem hlt]
      rfl
    · intro j hj
      rw [h3]
      simp only
      rw [List.getElem?_modify_ne _ _ (Ne.symm hj)]
    · rw [h3]
      rfl
    · rw [h3]
      exact List.mem_append_right _ (List.mem_singleton.2 rfl)
    · rw [h3]
      simp only [hnext]
      rw [hperm.length_eq, List.length_cons]

/-- The slots after the reinsertion: as before, or with one new element at the back of one
slot list. -/
theorem reinsert_slots (u u1 : XTimeWheel) (task : Task) (h : reinsert u task = some u1) :
    u1.spawned = u.spawned ∧ u1.currentSlot = u.currentSlot ∧
    (u1.slots = u.slots ∨
      ∃ (slot : Nat) (new : Element), slot < u.slots.length ∧ new.id = u.nextElem ∧
        new.Value.key = task.key ∧ new.Value.job = task.job ∧
        new.Value.executeAt = task.executeAt ∧ new.Value.slot = (slot : Int) ∧
        calSlotAndCircle u task.executeAt = some ((slot : Int), new.Value.circle) ∧
        u1.slots = u.slots.modify (fun l => l ++ [new]) slot) := by
  rcases reinsert_eq u u1 task h with ⟨h1, _, _⟩ | ⟨slot, circ, times, h1, _, h3, h4⟩
  · rw [h1]
    exact ⟨rfl, rfl, Or.inl rfl⟩
  · rw [h4]
    exact ⟨rfl, rfl, Or.inr ⟨slot, _, h1, rfl, rfl, rfl, rfl, rfl, h3, rfl⟩⟩

theorem getElem?_lt_of_eq_some {α : Type} (l : List α) (i : Nat) (a : α)
    (h : l[i]? = some a) : i < l.length := by
  rcases Nat.lt_or_ge i l.length with h1 | h1
  · exact h1
  · rw [List.getElem?_eq_none h1] at h; simp at h

/-- For a tick that completes: it starts at most one job, and only that of a task that was in
the slot under the cursor at the start of the tick with a circle that is not positive; every
other slot list is kept as it was and can only gain one reinserted task at its back; in the
current slot every task after the tick is a task from before the tick, unchanged or
decremented from a positive circle, or the reinserted element. -/
theorem execute_touches (t t1 : XTimeWheel) (h : execute t = some t1) :
    (∃ extra, t1.spawned = t.spawned ++ extra ∧ extra.length ≤ 1 ∧
      ∀ p ∈ extra, ∃ l e, t.slots[t.currentSlot]? = some l ∧ e ∈ l ∧
        e.Value.circle ≤ 0 ∧ (0 ≤ e.Value.circle → e.Value.circle = 0) ∧
        p = (e.Value.job, e.Value.key)) ∧
    (∀ (j : Nat) (l : List Element), j ≠ t.currentSlot → t.slots[j]? = some l →
      ∃ added, t1.slots[j]? = some (l ++ added) ∧ added.length ≤ 1 ∧
        ∀ e ∈ added, e.id = t.nextElem) ∧
    (∀ l1, t1.slots[t.currentSlot]? = some l1 → ∀ e1 ∈ l1,
      (∃ l e, t.slots[t.currentSlot]? = some l ∧ e ∈ l ∧
        (e1 = e ∨ (e.Value.circle > 0 ∧ e1 = e.dec ∧ 0 ≤ e1.Value.circle))) ∨
      e1.id = t.nextElem) := by
  obtain ⟨l, hl, hcase⟩ := execute_eq t t1 h
  have hlen := getElem?_lt_of_eq_some _ _ _ hl
  rcases hcase with ⟨hw, ht1⟩ | ⟨w, ele, rest, u, hsplit, hw, hd, hre, ht1⟩
  · have hslots : t1.slots = t.slots.set t.currentSlot (l.map Element.dec) := by rw [ht1]; rfl
    refine ⟨⟨[], by rw [ht1]; simp [incrCurrentSlot], by simp, by simp⟩, ?_, ?_⟩
    · intro j l0 hj hl0
      refine ⟨[], ?_, by simp, by simp⟩
      rw [hslots, List.getElem?_set_ne (Ne.symm hj), hl0, List.append_nil]
    · intro l1 hl1 e1 he1
      rw [hslots, List.getElem?_set_self hlen, Option.some.injEq] at hl1
      rw [← hl1] at he1
      obtain ⟨e, he, hee⟩ := List.mem_map.1 he1
      have hpos := hw e he
      refine Or.inl ⟨l, e, hl, he, Or.inr ⟨hpos, hee.symm, ?_⟩⟩
      rw [← hee]
      simp only [Element.dec]
      omega
  · obtain ⟨hsp, _, hslots⟩ := reinsert_slots _ _ _ hre
    have hds : (dispatched t w ele rest).slots
        = t.slots.set t.currentSlot (w.map Element.dec ++ rest) := rfl
    have ht1s : t1.slots = u.slots := by rw [ht1]; rfl
    have hmemw : ∀ e1 ∈ w.map Element.dec ++ rest,
        ∃ l e, t.slots[t.currentSlot]? = some l ∧ e ∈ l ∧
          (e1 = e ∨ (e.Value.circle > 0 ∧ e1 = e.dec ∧ 0 ≤ e1.Value.circle)) := by
      intro e1 he1
      rcases List.mem_append.1 he1 with h1 | h1
      · obtain ⟨e, he, hee⟩ := List.mem_map.1 h1
        have hpos := hw e he
        refine ⟨l, e, hl, by rw [hsplit]; exact List.mem_append_left _ he,
          Or.inr ⟨hpos, hee.symm, ?_⟩⟩
        rw [← hee]
        simp only [Element.dec]
        omega
      · exact ⟨l, e1, hl, by rw [hsplit]; simp [h1], Or.inl rfl⟩
    refine ⟨⟨[(ele.Value.job, ele.Value.key)], ?_, by simp, ?_⟩, ?_, ?_⟩
    · rw [ht1]
      simp only [incrCurrentSlot]
      rw [hsp]
      rfl
    · intro p hp
      simp only [List.mem_singleton] at hp
      exact ⟨l, ele, hl, by rw [hsplit]; simp, by omega, by omega, hp⟩
    · intro j l0 hj hl0
      have hdj : (dispatched t w ele rest).slots[j]? = some l0 := by
        rw [hds, List.getElem?_set_ne (Ne.symm hj), hl0]
      rcases hslots with h1 | ⟨slot, new, _, hid, _, _, _, _, _, h1⟩
      · exact ⟨[], by rw [ht1s, h1, hdj, List.append_nil], by simp, by simp⟩
      · by_cases hs : slot = j
        · refine ⟨[new], ?_, by simp, ?_⟩
          · rw [ht1s, h1, hs, List.getElem?_modify_eq, hdj]
            rfl
          · intro e he
            simp only [List.mem_singleton] at he
            rw [he, hid]
            rfl
        · refine ⟨[], ?_, by simp, by simp⟩
          rw [ht1s, h1, List.getElem?_modify_ne _ _ hs, hdj, List.append_nil]
    · intro l1 hl1 e1 he1
      have hdc : (dispatched t w ele rest).slots[t.currentSlot]?
          = some (w.map Element.dec ++ rest) := by
        rw [hds, List.getElem?_set_self hlen]
      rcases hslots with h1 | ⟨slot, new, _, hid, _, _, _, _, _, h1⟩
      · rw [ht1s, h1, hdc, Option.some.injEq] at hl1
        rw [← hl1] at he1
        exact Or.inl (hmemw e1 he1)
      · by_cases hs : slot = t.currentSlot
        · rw [ht1s, h1, hs, List.getElem?_modify_eq, hdc] at hl1
          simp only [Option.map_eq_map, Option.map_some', Option.some.injEq] at hl1
          rw [← hl1] at he1
          rcases List.mem_append.1 he1 with h2 | h2
          · exact Or.inl (hmemw e1 h2)
          · simp only [List.mem_singleton] at h2
            right
            rw [h2, hid]
            rfl
        · rw [ht1s, h1, List.getElem?_modify_ne _ _ hs, hdc, Option.some.injEq] at hl1
          rw [← hl1] at he1
          exact Or.inl (hmemw e1 he1)

/-- C20: execute is a total function, and on every wheel state its scan is of one of three
kinds. The cursor is outside the wheel and the indexing panics. Or every task of the current
slot waits, and each is decremented exactly once. Or the scan decrements the waiting tasks
`w` once each, starts the job of the first due task `ele`, and ends: the tasks of `rest` are
not visited, exactly one job is started, and when the reinsertion lands in the slot being
scanned the new element is at the back of the list with the circle that calSlotAndCircle
gave it, neither decremented nor dispatched in this tick. -/
theorem scan_stops_before_reinserted_task (t : XTimeWheel) :
    (t.slots[t.currentSlot]? = none ∧ execute t = none) ∨
    ∃ l, t.slots[t.currentSlot]? = some l ∧
      (((∀ e ∈ l, e.Value.circle > 0) ∧
        execute t = some (incrCurrentSlot
          { t with slots := (t.slots.set t.currentSlot (l.map Element.dec)) })) ∨
      ∃ w ele rest, l = w ++ ele :: rest ∧ (∀ e ∈ w, e.Value.circle > 0) ∧
        ¬ ele.Value.circle > 0 ∧
        execute t = (reinsert (dispatched t w ele rest) ele.Value).map incrCurrentSlot ∧
        ∀ t1, execute t = some t1 →
          t1.spawned = t.spawned ++ [(ele.Value.job, ele.Value.key)] ∧
          (t1.slots[t.currentSlot]? = some (w.map Element.dec ++ rest) ∨
            ∃ new, t1.slots[t.currentSlot]? = some (w.map Element.dec ++ rest ++ [new]) ∧
              new.id = t.nextElem ∧ new.Value.key = ele.Value.key ∧
              calSlotAndCircle t ele.Value.executeAt
                = some ((t.currentSlot : Int), new.Value.circle))) := by
  cases hl : t.slots[t.currentSlot]? with
  | none => exact Or.inl ⟨rfl, by simp [execute, hl]⟩
  | some l =>
    right
    refine ⟨l, rfl, ?_⟩
    have hlen := getElem?_lt_of_eq_some _ _ _ hl
    rcases split_first_due l with hw | ⟨w, ele, rest, h1, h2, h3⟩
    · exact Or.inl ⟨hw, execute_all_waiting t l hl hw⟩
    · right
      rw [h1] at hl
      have hex := execute_first_due t w rest ele hl h2 h3
      refine ⟨w, ele, rest, h1, h2, h3, hex, ?_⟩
      intro t1 ht1
      rw [hex, Option.map_eq_some'] at ht1
      obtain ⟨u, hu, hu1⟩ := ht1
      obtain ⟨hsp, _, hslots⟩ := reinsert_slots _ _ _ hu
      have hdc : (dispatched t w ele rest).slots[t.currentSlot]?
          = some (w.map Element.dec ++ rest) := by
        simp only [dispatched]
        rw [List.getElem?_set_self hlen]
      have hdl : (dispatched t w ele rest).slots.length = t.slots.length := by
        simp [dispatched]
      have ht1s : t1.slots = u.slots := by rw [← hu1]; rfl
      refine ⟨?_, ?_⟩
      · rw [← hu1]
        simp only [incrCurrentSlot]
        rw [hsp]
        rfl
      · rcases hslots with h4 | ⟨slot, new, _, hid, hkey, _, _, _, hcal, h4⟩
        · exact Or.inl (by rw [ht1s, h4, hdc])
        · by_cases hs : slot = t.currentSlot
          · right
            refine ⟨new, ?_, hid, hkey, ?_⟩
            · rw [ht1s, h4, hs, List.getElem?_modify_eq, hdc]
              rfl
            · rw [calSlotAndCircle_congr t _ _ hdl rfl rfl, hs] at hcal
              exact hcal
          · left
            rw [ht1s, h4, List.getElem?_modify_ne _ _ hs, hdc]

/-- C20 on the default wheel with a task of delay 12 s and repeat 2: tick 13 scans slot 0,
starts the job and reinserts the task into slot 0 itself, where it stays with circle 1 and
the job is started once. -/
theorem scan_stops_before_reinserted_task_witness :
    ((runOps defaultWheel [.add "t" 1 (12 * Second) 2]).bind (ticks 13)).map
      (fun t => (t.slots[0]?, t.spawned)) =
      some (some [⟨1, ⟨"t", 1, 12 * Second, 1, 0, 1⟩⟩], [(1, "t")]) ∧
    ∃ l, defaultWheel.slots[defaultWheel.currentSlot]? = some l ∧
      execute defaultWheel = some (incrCurrentSlot
        { defaultWheel with slots :=
            (defaultWheel.slots.set defaultWheel.currentSlot (l.map Element.dec)) }) := by
  refine ⟨by decide, ?_⟩
  rcases scan_stops_before_reinserted_task defaultWheel with ⟨h, _⟩ | ⟨l, hl, h⟩
  · exact absurd h (by decide)
  · rcases h with ⟨_, h⟩ | ⟨w, ele, rest, h1, _, _, _, _⟩
    · exact ⟨l, hl, h⟩
    · rw [h1] at hl
      have : defaultWheel.slots[defaultWheel.currentSlot]? = some [] := by decide
      rw [this, Option.some.injEq] at hl
      exact absurd hl (by simp)

/-- C19: on the default wheel a task with delay 1 s and repeat -2^63 (the least int) is
dispatched during tick 2, where `times - 1` wraps around to 2^63 - 1 > 0: the task is
reinserted with 2^63 - 1 repeats left and is dispatched again during tick 3. With repeat 0 or
-5 the same task is dispatched once, during tick 2, and dropped; in general the reinsertion
leaves the wheel alone for every repeat count r with -2^63 < r <= 0 other than -1. -/
theorem least_int_repeat_is_reinserted :
    ((runOps defaultWheel [.add "k" 0 Second (-9223372036854775808)]).bind (ticks 2)).map
      (fun t => (t.spawned, t.slots[2]?)) =
      some ([(0, "k")], some [⟨1, ⟨"k", 0, Second, 9223372036854775807, 2, 0⟩⟩]) ∧
    ((runOps defaultWheel [.add "k" 0 Second (-9223372036854775808)]).bind (ticks 3)).map
      (fun t => t.spawned) = some [(0, "k"), (0, "k")] ∧
    ((runOps defaultWheel [.add "k" 0 Second 0]).bind (ticks 2)).map
      (fun t => (t.spawned, t.taskRecords, t.slots.flatten)) = some ([(0, "k")], [], []) ∧
    ((runOps defaultWheel [.add "k" 0 Second (-5)]).bind (ticks 2)).map
      (fun t => (t.spawned, t.taskRecords, t.slots.flatten)) = some ([(0, "k")], [], []) ∧
    (∀ (u : XTimeWheel) (task : Task), -9223372036854775808 < task.times → task.times ≤ 0 →
      task.times ≠ -1 → reinsert u task = some u) := by
  refine ⟨by decide, by decide, by decide, by decide, ?_⟩
  intro u task h1 h2 h3
  have ha : ¬ wrapInt (task.times - 1) > 0 := by
    unfold wrapInt
    omega
  unfold reinsert
  rw [if_neg ha, if_neg h3]

/-! ## Removal when no check is stale -/

/-- In a wheel that satisfies the invariant, removeTask on a key of the index unlinks the
element the index points to from the slot list that holds it and deletes the key. -/
theorem removeTask_spec (t : XTimeWheel) (key : String) (id : Nat) (hinv : Inv t)
    (hmem : (key, id) ∈ t.taskRecords) :
    ∃ (j : Nat) (l1 l2 : List Element) (ele : Element),
      t.slots[j]? = some (l1 ++ ele :: l2) ∧ ele.id = id ∧ ele.Value.key = key ∧
      removeTask t key = some { t with
        slots := t.slots.set j (l1 ++ l2)
        taskRecords := Delete key t.taskRecords } := by
  have hsome := (Load_isSome_iff key t.taskRecords).2 ⟨id, hmem⟩
  obtain ⟨id1, hload⟩ := Option.isSome_iff_exists.1 hsome
  have hmem1 := Load_some_mem key _ id1 hload
  have hp := (hinv.index (key, id)).1 hmem
  have hp1 := (hinv.index (key, id1)).1 hmem1
  have hid : id1 = id := by
    have := List.inj_on_of_nodup_map hinv.keys hp1 hp rfl
    exact (Prod.mk.injEq _ _ _ _ ▸ this).2
  rw [hid] at hload
  unfold pairs at hp
  obtain ⟨e0, he0, hpe⟩ := List.mem_map.1 hp
  simp only [Prod.mk.injEq] at hpe
  have hfind : ∃ ele, findElement t.slots id = some ele := by
    cases hf : findElement t.slots id with
    | none =>
      unfold findElement at hf
      have := List.find?_eq_none.1 hf e0 he0
      simp only [decide_eq_true_eq] at this
      exact absurd hpe.2 this
    | some ele => exact ⟨ele, rfl⟩
  obtain ⟨ele, hfe⟩ := hfind
  have hfe2 := hfe
  unfold findElement at hfe2
  have hele := List.mem_of_find?_eq_some hfe2
  have hide := List.find?_some hfe2
  simp only [decide_eq_true_eq] at hide
  have heq : ele = e0 := Inv_id_inj t hinv ele e0 hele he0 (by rw [hide, hpe.2])
  obtain ⟨l, hl, hin⟩ := List.mem_flatten.1 hele
  obtain ⟨j, hj⟩ := List.mem_iff_getElem?.1 hl
  have hslot := hinv.slotOf j l hj ele hin
  have hjlt := getElem?_lt_of_eq_some _ _ _ hj
  have hjn : ele.Value.slot.toNat = j := by rw [hslot]; exact Int.toNat_ofNat j
  obtain ⟨a, l1, l2, _, hpa, hsplit, herase⟩ :=
    List.exists_of_eraseP (p := fun e => decide (e.id = id)) hin (by simp [hide])
  simp only [decide_eq_true_eq] at hpa
  have hain : a ∈ t.slots.flatten := List.mem_flatten.2 ⟨l, hl, by rw [hsplit]; simp⟩
  have ha : a = ele := Inv_id_inj t hinv a ele hain hele (by rw [hpa, hide])
  rw [ha] at hsplit
  refine ⟨j, l1, l2, ele, by rw [hj, hsplit], hide, by rw [heq]; exact hpe.1, ?_⟩
  unfold removeTask
  rw [hload]
  simp only [hfe]
  rw [if_pos ⟨by rw [hslot]; omega, by rw [hjn]; exact hjlt⟩, hjn,
    modify_eq_set_of_getElem? _ _ _ _ hj]
  unfold Remove
  rw [herase]

theorem mem_flatten_set {α : Type} (L : List (List α)) (i : Nat) (l1 : List α) (x : α)
    (h : x ∈ (L.set i l1).flatten) : x ∈ l1 ∨ x ∈ L.flatten := by
  obtain ⟨l, hl, hx⟩ := List.mem_flatten.1 h
  rcases List.mem_or_eq_of_mem_set hl with h1 | h1
  · exact Or.inr (List.mem_flatten.2 ⟨l, h1, hx⟩)
  · rw [h1] at hx
    exact Or.inl hx

theorem mem_flatten_of_getElem? {α : Type} (L : List (List α)) (i : Nat) (l : List α) (x : α)
    (hl : L[i]? = some l) (hx : x ∈ l) : x ∈ L.flatten :=
  List.mem_flatten.2 ⟨l, List.getElem?_mem hl, hx⟩

/-- After a tick every linked task has the key of a task that was linked before the tick. -/
theorem execute_keys (t t1 : XTimeWheel) (h : execute t = some t1) :
    ∀ e1 ∈ t1.slots.flatten, ∃ e ∈ t.slots.flatten, e.Value.key = e1.Value.key := by
  obtain ⟨l, hl, hcase⟩ := execute_eq t t1 h
  have hdec : ∀ (l0 : List Element), (∀ x ∈ l0, x ∈ l) → ∀ e1 ∈ l0.map Element.dec,
      ∃ e ∈ t.slots.flatten, e.Value.key = e1.Value.key := by
    intro l0 hsub e1 he1
    obtain ⟨e, he, hee⟩ := List.mem_map.1 he1
    exact ⟨e, mem_flatten_of_getElem? _ _ _ _ hl (hsub e he), by rw [← hee]; rfl⟩
  rcases hcase with ⟨_, ht1⟩ | ⟨w, ele, rest, u, hsplit, _, _, hre, ht1⟩
  · intro e1 he1
    rw [ht1] at he1
    simp only [incrCurrentSlot] at he1
    rcases mem_flatten_set _ _ _ _ he1 with h1 | h1
    · exact hdec l (fun _ hx => hx) e1 h1
    · exact ⟨e1, h1, rfl⟩
  · obtain ⟨_, _, hslots⟩ := reinsert_slots _ _ _ hre
    have hD : ∀ e1 ∈ (dispatched t w ele rest).slots.flatten,
        ∃ e ∈ t.slots.flatten, e.Value.key = e1.Value.key := by
      intro e1 he1
      simp only [dispatched] at he1
      rcases mem_flatten_set _ _ _ _ he1 with h1 | h1
      · rcases List.mem_append.1 h1 with h2 | h2
        · exact hdec w (fun x hx => by rw [hsplit]; exact List.mem_append_left _ hx) e1 h2
        · exact ⟨e1, mem_flatten_of_getElem? _ _ _ _ hl (by rw [hsplit]; simp [h2]), rfl⟩
      · exact ⟨e1, h1, rfl⟩
    intro e1 he1
    rw [ht1] at he1
    simp only [incrCurrentSlot] at he1
    rcases hslots with h1 | ⟨slot, new, hlt, _, hkey, _, _, _, _, h1⟩
    · rw [h1] at he1
      exact hD e1 he1
    · rw [h1] at he1
      rcases List.mem_cons.1 ((flatten_modify_append _ slot new hlt).mem_iff.1 he1) with h2 | h2
      · refine ⟨ele, mem_flatten_of_getElem? _ _ _ _ hl (by rw [hsplit]; simp), ?_⟩
        rw [h2, hkey]
      · exact hD e1 h2

theorem flatten_modify_subset {α : Type} (L : List (List α)) (i : Nat) (f : List α → List α)
    (hf : ∀ l, ∀ x ∈ f l, x ∈ l) (x : α) (h : x ∈ (L.modify f i).flatten) :
    x ∈ L.flatten := by
  cases hl : L[i]? with
  | none =>
    have : L.length ≤ i := by
      rcases Nat.lt_or_ge i L.length with h1 | h1
      · rw [List.getElem?_eq_getElem h1] at hl; simp at hl
      · exact h1
    rwa [List.modify_eq_self this] at h
  | some l =>
    obtain ⟨A, B, h1, h2⟩ := flatten_modify L i l hl
    rw [h2 f] at h
    rw [h1]
    simp only [List.mem_append] at h ⊢
    rcases h with (h | h) | h
    · exact Or.inl (Or.inl h)
    · exact Or.inl (Or.inr (hf l x h))
    · exact Or.inr h

/-- After removeTask every linked task was linked before. -/
theorem removeTask_subset (t t1 : XTimeWheel) (key : String) (h : removeTask t key = some t1) :
    ∀ e ∈ t1.slots.flatten, e ∈ t.slots.flatten := by
  unfold removeTask at h
  split at h
  · simp only [Option.some.injEq] at h
    rw [← h]; exact fun _ he => he
  · split at h
    · simp only [Option.some.injEq] at h
      rw [← h]; exact fun _ he => he
    · split at h
      · simp only [Option.some.injEq] at h
        rw [← h]
        intro e he
        exact flatten_modify_subset _ _ _ (fun l x hx => List.mem_of_mem_eraseP hx) e he
      · simp at h

/-- An event that is not an AddTask with the key `k`, on a wheel that links no task with the
key `k`: afterwards no linked task has the key and no job was started for it. -/
theorem apply_without_key (t t1 : XTimeWheel) (op : Op) (k : String)
    (hno : ∀ e ∈ t.slots.flatten, e.Value.key ≠ k)
    (hop : ∀ job executeAt times, op ≠ Op.add k job executeAt times)
    (h : op.apply t = some t1) :
    (∀ e ∈ t1.slots.flatten, e.Value.key ≠ k) ∧
    ∃ extra, t1.spawned = t.spawned ++ extra ∧ ∀ p ∈ extra, p.2 ≠ k := by
  cases op with
  | add key job executeAt times =>
    have hk : key ≠ k := fun hkk => hop job executeAt times (by rw [hkk])
    simp only [Op.apply] at h
    split at h
    · simp only [Option.some.injEq] at h
      rw [← h]
      exact ⟨hno, [], by simp, by simp⟩
    · rename_i task hadd
      have htk : task.key = key := by
        unfold AddTask at hadd
        split at hadd
        · simp at hadd
        · split at hadd
          · simp at hadd
          · split at hadd
            · simp at hadd
            · simp only [Except.ok.injEq] at hadd
              rw [← hadd]
      obtain ⟨slot, circ, hlt, _, ht1⟩ := addTask_eq t t1 task h
      refine ⟨?_, [], by rw [(addTask_frame t t1 task h).1]; simp, by simp⟩
      intro e he
      rw [ht1] at he
      rcases List.mem_cons.1 ((flatten_modify_append _ slot _ hlt).mem_iff.1 he) with h1 | h1
      · rw [h1]
        simp only
        rw [htk]
        exact hk
      · exact hno e h1
  | remove key =>
    simp only [Op.apply] at h
    split at h
    · simp only [Option.some.injEq] at h
      rw [← h]
      exact ⟨hno, [], by simp, by simp⟩
    · rename_i k1 _
      refine ⟨fun e he => hno e (removeTask_subset t t1 k1 h e he), [], ?_, by simp⟩
      rw [(removeTask_frame t t1 k1 h).1]; simp
  | tick =>
    simp only [Op.apply] at h
    refine ⟨?_, ?_⟩
    · intro e1 he1
      obtain ⟨e, he, hk⟩ := execute_keys t t1 h e1 he1
      rw [← hk]
      exact hno e he
    · obtain ⟨⟨extra, h1, _, h3⟩, _⟩ := execute_frame t t1 h
      refine ⟨extra, h1, ?_⟩
      intro p hp
      obtain ⟨l, e, hl, he, hpe⟩ := h3 p hp
      rw [hpe]
      exact hno e (mem_flatten_of_getElem? _ _ _ _ hl he)

theorem runOps_without_key (ops : List Op) (t t2 : XTimeWheel) (k : String)
    (hno : ∀ e ∈ t.slots.flatten, e.Value.key ≠ k)
    (hops : ∀ op ∈ ops, ∀ job executeAt times, op ≠ Op.add k job executeAt times)
    (h : runOps t ops = some t2) :
    ∃ extra, t2.spawned = t.spawned ++ extra ∧ ∀ p ∈ extra, p.2 ≠ k := by
  induction ops generalizing t with
  | nil =>
    simp only [runOps, Option.some.injEq] at h
    rw [← h]
    exact ⟨[], by simp, by simp⟩
  | cons op ops ih =>
    simp only [runOps] at h
    split at h
    · simp at h
    · rename_i t1 h1
      obtain ⟨hno1, x1, hx1, hk1⟩ := apply_without_key t t1 op k hno
        (hops op (List.mem_cons_self _ _)) h1
      obtain ⟨x2, hx2, hk2⟩ := ih t1 hno1 (fun o ho => hops o (List.mem_cons_of_mem _ ho)) h
      refine ⟨x1 ++ x2, by rw [hx2, hx1, List.append_assoc], ?_⟩
      intro p hp
      rcases List.mem_append.1 hp with h3 | h3
      · exact hk1 p h3
      · exact hk2 p h3

/-- When the loop inserts every task before any other call or event follows the checks of its
AddTask (the runs of `runOps`), in every state reached from NewXTimingWheel, removeTask(k)
completes and leaves no task with the key k in any slot and no entry for k in the index;
whatever sequence of ticks, removals and AddTask calls with other keys follows, no job is
started for k. -/
theorem runOps_removed_task_never_fires (interval slotNum : Int) (t0 t : XTimeWheel)
    (ops0 : List Op) (k : String)
    (h0 : NewXTimingWheel interval slotNum = .ok t0) (h : runOps t0 ops0 = some t) :
    ∃ t1, removeTask t k = some t1 ∧
      (∀ e ∈ t1.slots.flatten, e.Value.key ≠ k) ∧ (∀ id, (k, id) ∉ t1.taskRecords) ∧
      ∀ (ops : List Op) (t2 : XTimeWheel),
        (∀ op ∈ ops, ∀ job executeAt times, op ≠ Op.add k job executeAt times) →
        runOps t1 ops = some t2 →
        ∃ extra, t2.spawned = t1.spawned ++ extra ∧ ∀ p ∈ extra, p.2 ≠ k := by
  have hinv := Inv_runOps ops0 t0 t (Inv_NewXTimingWheel interval slotNum t0 h0) h
  have hsome : ∃ t1, removeTask t k = some t1 := by
    cases hL : Load k t.taskRecords with
    | none => exact ⟨t, by unfold removeTask; rw [hL]⟩
    | some id =>
      obtain ⟨_, _, _, _, _, _, _, hrem⟩ :=
        removeTask_spec t k id hinv (Load_some_mem k _ id hL)
      exact ⟨_, hrem⟩
  obtain ⟨t1, ht1⟩ := hsome
  obtain ⟨hinv1, hidx⟩ := Inv_removeTask t t1 k hinv ht1
  have hno : ∀ e ∈ t1.slots.flatten, e.Value.key ≠ k := by
    intro e he hek
    have hp : (k, e.id) ∈ pairs t1 := by
      unfold pairs
      exact List.mem_map.2 ⟨e, he, by rw [hek]⟩
    exact hidx e.id ((hinv1.index _).2 hp)
  exact ⟨t1, ht1, hno, hidx, fun ops t2 hops hrun => runOps_without_key ops t1 t2 k hno hops hrun⟩

/-- C16 on the default wheel with the task t (delay 3 s, repeat 2) due under the cursor at
slot 3: the tick reinserts it with repeat 1 into slot 6 with circle 0, as a new element, and
stores it in the index. -/
theorem reinsertion_on_dispatch_witness :
    (execute dueWheel).map (fun t => (t.currentSlot, t.slots[6]?, t.taskRecords)) =
      some (4, some [⟨1, ⟨"t", 7, 3 * Second, 1, 6, 0⟩⟩], [("t", 1)]) := by
  rw [(reinsertion_on_dispatch dueWheel [] [] ⟨0, ⟨"t", 7, 3 * Second, 2, 3, 0⟩⟩ (by decide)
    (by simp) (by decide) (by decide)).2.1 (by decide)]
  decide

/-! ## Circles are not negative -/

/-- The circle that calSlotAndCircle returns is not negative when the rotation in whole
seconds fits a 64-bit int and the delay is a non-negative duration of the 64-bit range. -/
theorem calSlotAndCircle_circle_nonneg (t : XTimeWheel) (executeAt : Int) (sc : Int × Int)
    (h : calSlotAndCircle t executeAt = some sc)
    (hI : 0 ≤ intSeconds t.interval)
    (hrot : (t.slots.length : Int) * intSeconds t.interval < 9223372036854775808)
    (hD : 0 ≤ intSeconds executeAt) (hD2 : intSeconds executeAt < 9223372036854775808) :
    0 ≤ sc.2 := by
  have hN : (0 : Int) ≤ (t.slots.length : Int) := by omega
  have hprod : 0 ≤ (t.slots.length : Int) * intSeconds t.interval := Int.mul_nonneg hN hI
  have hrotw : wrapInt ((t.slots.length : Int) * intSeconds t.interval)
      = (t.slots.length : Int) * intSeconds t.interval := wrapInt_eq _ hprod hrot
  unfold calSlotAndCircle at h
  simp only [hrotw] at h
  split at h
  · simp at h
  · rename_i hne
    have hq : 0 ≤ intSeconds executeAt / ((t.slots.length : Int) * intSeconds t.interval) :=
      Int.ediv_nonneg hD hprod
    have hqle : intSeconds executeAt / ((t.slots.length : Int) * intSeconds t.interval)
        ≤ intSeconds executeAt := Int.ediv_le_self _ hD
    split at h
    · simp at h
    · split at h
      · simp at h
      · simp only [Option.some.injEq] at h
        rw [← h]
        simp only
        rw [Int.tdiv_eq_ediv hD hprod, wrapInt_eq _ hq (by omega)]
        exact hq

/-- Where the linked elements after a tick come from: an element from before the tick, or one
decremented from a positive circle, or a reinserted task with the delay of a task from before
the tick and the circle calSlotAndCircle gives for it. -/
theorem execute_elems (t t1 : XTimeWheel) (h : execute t = some t1) :
    ∀ e1 ∈ t1.slots.flatten,
      e1 ∈ t.slots.flatten ∨
      (∃ e ∈ t.slots.flatten, e.Value.circle > 0 ∧ e1 = e.dec) ∨
      (∃ e ∈ t.slots.flatten, e1.Value.executeAt = e.Value.executeAt ∧
        ∃ slot : Nat, calSlotAndCircle t e.Value.executeAt
          = some ((slot : Int), e1.Value.circle)) := by
  obtain ⟨l, hl, hcase⟩ := execute_eq t t1 h
  have hlen := getElem?_lt_of_eq_some _ _ _ hl
  have hdec : ∀ (l0 : List Element), (∀ x ∈ l0, x ∈ l ∧ x.Value.circle > 0) →
      ∀ e1 ∈ l0.map Element.dec, ∃ e ∈ t.slots.flatten, e.Value.circle > 0 ∧ e1 = e.dec := by
    intro l0 hsub e1 he1
    obtain ⟨e, he, hee⟩ := List.mem_map.1 he1
    exact ⟨e, mem_flatten_of_getElem? _ _ _ _ hl (hsub e he).1, (hsub e he).2, hee.symm⟩
  rcases hcase with ⟨hw, ht1⟩ | ⟨w, ele, rest, u, hsplit, hw, _, hre, ht1⟩
  · intro e1 he1
    rw [ht1] at he1
    simp only [incrCurrentSlot] at he1
    rcases mem_flatten_set _ _ _ _ he1 with h1 | h1
    · exact Or.inr (Or.inl (hdec l (fun x hx => ⟨hx, hw x hx⟩) e1 h1))
    · exact Or.inl h1
  · obtain ⟨_, _, hslots⟩ := reinsert_slots _ _ _ hre
    have hdl : (dispatched t w ele rest).slots.length = t.slots.length := by
      simp [dispatched]
    have hD : ∀ e1 ∈ (dispatched t w ele rest).slots.flatten,
        e1 ∈ t.slots.flatten ∨ ∃ e ∈ t.slots.flatten, e.Value.circle > 0 ∧ e1 = e.dec := by
      intro e1 he1
      simp only [dispatched] at he1
      rcases mem_flatten_set _ _ _ _ he1 with h1 | h1
      · rcases List.mem_append.1 h1 with h2 | h2
        · exact Or.inr (hdec w (fun x hx =>
            ⟨by rw [hsplit]; exact List.mem_append_left _ hx, hw x hx⟩) e1 h2)
        · exact Or.inl (mem_flatten_of_getElem? _ _ _ _ hl (by rw [hsplit]; simp [h2]))
      · exact Or.inl h1
    intro e1 he1
    rw [ht1] at he1
    simp only [incrCurrentSlot] at he1
    rcases hslots with h1 | ⟨slot, new, hlt, _, _, _, hex, _, hcal, h1⟩
    · rw [h1] at he1
      rcases hD e1 he1 with h2 | h2
      · exact Or.inl h2
      · exact Or.inr (Or.inl h2)
    · rw [h1] at he1
      rcases List.mem_cons.1 ((flatten_modify_append _ slot new hlt).mem_iff.1 he1) with h2 | h2
      · refine Or.inr (Or.inr ⟨ele, mem_flatten_of_getElem? _ _ _ _ hl
          (by rw [hsplit]; simp), by rw [h2, hex], slot, ?_⟩)
        rw [calSlotAndCircle_congr t _ _ hdl rfl rfl] at hcal
        rw [h2]
        exact hcal
      · rcases hD e1 h2 with h3 | h3
        · exact Or.inl h3
        · exact Or.inr (Or.inl h3)

/-- The circles and delays of the linked tasks stay in range under every event, on a wheel
whose rotation in whole seconds fits a 64-bit int, for delays of the 64-bit range. -/
theorem apply_circles_nonneg (t t1 : XTimeWheel) (op : Op)
    (hI : 0 ≤ t.interval)
    (hrot : (t.slots.length : Int) * intSeconds t.interval < 9223372036854775808)
    (hop : ∀ key job executeAt times, op = Op.add key job executeAt times →
      executeAt < 9223372036854775808)
    (hP : ∀ e ∈ t.slots.flatten, 0 ≤ e.Value.circle ∧ 0 ≤ intSeconds e.Value.executeAt ∧
      intSeconds e.Value.executeAt < 9223372036854775808)
    (h : op.apply t = some t1) :
    t1.interval = t.interval ∧ t1.slots.length = t.slots.length ∧
    ∀ e ∈ t1.slots.flatten, 0 ≤ e.Value.circle ∧ 0 ≤ intSeconds e.Value.executeAt ∧
      intSeconds e.Value.executeAt < 9223372036854775808 := by
  have hIs : 0 ≤ intSeconds t.interval := intSeconds_nonneg _ hI
  cases op with
  | add key job executeAt times =>
    have hlt := hop key job executeAt times rfl
    simp only [Op.apply] at h
    split at h
    · simp only [Option.some.injEq] at h
      rw [← h]
      exact ⟨rfl, rfl, hP⟩
    · rename_i task hadd
      have htk : task.executeAt = executeAt ∧ ¬ executeAt < t.interval := by
        unfold AddTask at hadd
        split at hadd
        · simp at hadd
        · split at hadd
          · simp at hadd
          · rename_i hge
            split at hadd
            · simp at hadd
            · simp only [Except.ok.injEq] at hadd
              rw [← hadd]
              exact ⟨rfl, hge⟩
      have hD0 : 0 ≤ intSeconds task.executeAt :=
        intSeconds_nonneg _ (by rw [htk.1]; omega)
      have hD1 : intSeconds task.executeAt < 9223372036854775808 := by
        have hle := intSeconds_le task.executeAt (by rw [htk.1]; omega)
          (by rw [htk.1]; exact hlt)
        rw [htk.1] at hle ⊢
        unfold Second at hle
        omega
      obtain ⟨slot, circ, hslt, hcal, ht1⟩ := addTask_eq t t1 task h
      have hfr := addTask_frame t t1 task h
      refine ⟨hfr.2.2.2, hfr.2.2.1, ?_⟩
      intro e he
      rw [ht1] at he
      rcases List.mem_cons.1 ((flatten_modify_append _ slot _ hslt).mem_iff.1 he) with h1 | h1
      · rw [h1]
        exact ⟨calSlotAndCircle_circle_nonneg t _ _ hcal hIs hrot hD0 hD1, hD0, hD1⟩
      · exact hP e h1
  | remove key =>
    simp only [Op.apply] at h
    split at h
    · simp only [Option.some.injEq] at h
      rw [← h]
      exact ⟨rfl, rfl, hP⟩
    · rename_i k1 _
      have hfr := removeTask_frame t t1 k1 h
      exact ⟨hfr.2.2.2.1, hfr.2.2.1, fun e he => hP e (removeTask_subset t t1 k1 h e he)⟩
  | tick =>
    simp only [Op.apply] at h
    have hfr := execute_frame t t1 h
    refine ⟨hfr.2.2.2, hfr.2.2.1, ?_⟩
    intro e1 he1
    rcases execute_elems t t1 h e1 he1 with h1 | ⟨e, he, hpos, hee⟩ | ⟨e, he, hex, slot, hcal⟩
    · exact hP e1 h1
    · have := hP e he
      rw [hee]
      simp only [Element.dec]
      exact ⟨by omega, this.2.1, this.2.2⟩
    · have := hP e he
      rw [hex]
      exact ⟨calSlotAndCircle_circle_nonneg t _ _ hcal hIs hrot this.2.1 this.2.2,
        this.2.1, this.2.2⟩

theorem runOps_circles_nonneg (ops : List Op) (t t2 : XTimeWheel)
    (hI : 0 ≤ t.interval)
    (hrot : (t.slots.length : Int) * intSeconds t.interval < 9223372036854775808)
    (hops : ∀ op ∈ ops, ∀ key job executeAt times, op = Op.add key job executeAt times →
      executeAt < 9223372036854775808)
    (hP : ∀ e ∈ t.slots.flatten, 0 ≤ e.Value.circle ∧ 0 ≤ intSeconds e.Value.executeAt ∧
      intSeconds e.Value.executeAt < 9223372036854775808)
    (h : runOps t ops = some t2) :
    ∀ e ∈ t2.slots.flatten, 0 ≤ e.Value.circle := by
  induction ops generalizing t with
  | nil =>
    simp only [runOps, Option.some.injEq] at h
    rw [← h]
    exact fun e he => (hP e he).1
  | cons op ops ih =>
    simp only [runOps] at h
    split at h
    · simp at h
    · rename_i t1 h1
      obtain ⟨hi1, hl1, hP1⟩ := apply_circles_nonneg t t1 op hI hrot
        (hops op (List.mem_cons_self _ _)) hP h1
      exact ih t1 (by rw [hi1]; exact hI) (by rw [hi1, hl1]; exact hrot)
        (fun o ho => hops o (List.mem_cons_of_mem _ ho)) hP1 h

/-- The fields of a wheel returned by NewXTimingWheel. -/
theorem NewXTimingWheel_ok (interval slotNum : Int) (t : XTimeWheel)
    (h : NewXTimingWheel interval slotNum = .ok t) :
    0 < interval ∧ 0 < slotNum ∧ t.slots = List.replicate slotNum.toNat [] ∧
    t.interval = interval := by
  unfold NewXTimingWheel at h
  split at h
  · simp at h
  · split at h
    · simp at h
    · simp only [Except.ok.injEq] at h
      rw [← h]
      refine ⟨by omega, by omega, ?_, ?_⟩ <;> simp [start]

/-- C17: a tick that completes starts at most one job, and only that of a task that was in
the slot under the cursor at the start of the tick with a circle that is not positive, hence
0 when circles are not negative. Every other slot list is kept as it was, in the same order and
with the same circles and repeat counts, and can only gain one reinserted task at its back.
In the current slot every task after the tick is a task from before the tick, unchanged or
decremented from a positive circle (so never below 0), or the reinserted element. And in
every state reached from NewXTimingWheel no circle is negative, provided the rotation in
whole seconds fits a 64-bit int and the delays are in the 64-bit range. -/
theorem tick_touches_current_slot_only :
    (∀ t t1 : XTimeWheel, execute t = some t1 →
      (∃ extra, t1.spawned = t.spawned ++ extra ∧ extra.length ≤ 1 ∧
        ∀ p ∈ extra, ∃ l e, t.slots[t.currentSlot]? = some l ∧ e ∈ l ∧
          e.Value.circle ≤ 0 ∧ (0 ≤ e.Value.circle → e.Value.circle = 0) ∧
          p = (e.Value.job, e.Value.key)) ∧
      (∀ (j : Nat) (l : List Element), j ≠ t.currentSlot → t.slots[j]? = some l →
        ∃ added, t1.slots[j]? = some (l ++ added) ∧ added.length ≤ 1 ∧
          ∀ e ∈ added, e.id = t.nextElem) ∧
      (∀ l1, t1.slots[t.currentSlot]? = some l1 → ∀ e1 ∈ l1,
        (∃ l e, t.slots[t.currentSlot]? = some l ∧ e ∈ l ∧
          (e1 = e ∨ (e.Value.circle > 0 ∧ e1 = e.dec ∧ 0 ≤ e1.Value.circle))) ∨
        e1.id = t.nextElem)) ∧
    (∀ (interval slotNum : Int) (t0 t : XTimeWheel) (ops : List Op),
      NewXTimingWheel interval slotNum = .ok t0 → runOps t0 ops = some t →
      slotNum * intSeconds interval < 9223372036854775808 →
      (∀ op ∈ ops, ∀ key job executeAt times, op = Op.add key job executeAt times →
        executeAt < 9223372036854775808) →
      ∀ e ∈ t.slots.flatten, 0 ≤ e.Value.circle) := by
  refine ⟨fun t t1 h => execute_touches t t1 h, ?_⟩
  intro interval slotNum t0 t ops h0 h hrot hops
  obtain ⟨hpos, hn, hs, hi⟩ := NewXTimingWheel_ok interval slotNum t0 h0
  have hlen : (t0.slots.length : Int) = slotNum := by
    rw [hs, List.length_replicate]
    omega
  refine runOps_circles_nonneg ops t0 t (by rw [hi]; omega) (by rw [hlen, hi]; exact hrot) hops
    ?_ h
  intro e he
  rw [hs, flatten_replicate_nil] at he
  simp at he

/-- C17 on the default wheel with the task t due under the cursor: the tick starts one job
at most, and in the states reached from the default wheel circles are not negative. -/
theorem tick_touches_current_slot_only_witness :
    (∃ t1, execute dueWheel = some t1 ∧
      ∃ extra, t1.spawned = dueWheel.spawned ++ extra ∧ extra.length ≤ 1) ∧
    (∀ t, runOps defaultWheel [.add "a" 1 (30 * Second) 2, .tick] = some t →
      ∀ e ∈ t.slots.flatten, 0 ≤ e.Value.circle) := by
  constructor
  · cases h : execute dueWheel with
    | none => exact absurd h (by decide)
    | some t1 =>
      obtain ⟨⟨extra, h1, h2, _⟩, _⟩ := tick_touches_current_slot_only.1 dueWheel t1 h
      exact ⟨t1, rfl, extra, h1, h2⟩
  · intro t ht
    refine tick_touches_current_slot_only.2 Second 12 defaultWheel t _ rfl ht (by decide) ?_
    intro op hop key job executeAt times heq
    rw [heq] at hop
    simp only [List.mem_cons, Op.add.injEq, List.mem_singleton, List.not_mem_nil, or_false]
      at hop
    rcases hop with h1 | h1
    · rw [h1.2.2.1]; decide
    · exact absurd h1 (by simp)

/-! ## Schedules with insertions after stale checks -/

/-- A call of AddTask directly followed by its insertion is the event of `Op.apply`. -/
theorem call_insert_eq_apply (t : XTimeWheel) (key : String) (job : Nat)
    (executeAt times : Int) :
    ((runSteps ⟨t, []⟩ [.call key job executeAt times, .insert 0]).map (fun s => s.wheel))
      = (Op.add key job executeAt times).apply t := by
  simp only [runSteps, Step.apply, Op.apply]
  cases h : AddTask t key job executeAt times with
  | error e => simp
  | ok task =>
    simp only [List.nil_append, List.getElem?_cons_zero, List.eraseIdx_cons_zero]
    cases h2 : addTask t task <;> simp

theorem Delete_entries (key : String) (m : List (String × Nat))
    (h : (m.map (fun p => p.1)).Nodup) : ((Delete key m).map (fun p => p.1)).Nodup := by
  unfold Delete
  exact List.Nodup.sublist (List.Sublist.map _ (List.filter_sublist _)) h

theorem Store_entries (key : String) (v : Nat) (m : List (String × Nat))
    (h : (m.map (fun p => p.1)).Nodup) : ((Store key v m).map (fun p => p.1)).Nodup := by
  unfold Store
  rw [List.map_append, List.nodup_append]
  refine ⟨Delete_entries key m h, by simp, ?_⟩
  intro a ha hb
  simp only [List.map_cons, List.map_nil, List.mem_singleton] at hb
  obtain ⟨p, hp, hpa⟩ := List.mem_map.1 ha
  rw [mem_Delete] at hp
  exact hp.2 (by rw [hpa, hb])

/-- Every schedule keeps `Linked` through addTask, whatever the key of the task. -/
theorem Linked_addTask (t t1 : XTimeWheel) (task : Task) (hinv : Linked t)
    (h : addTask t task = some t1) : Linked t1 := by
  have hperm := pairs_addTask t t1 task h
  obtain ⟨slot, circ, hlt, _, ht1⟩ := addTask_eq t t1 task h
  have hnext : t1.nextElem = t.nextElem + 1 := by rw [ht1]
  have hrec : t1.taskRecords = Store task.key t.nextElem t.taskRecords := by rw [ht1]
  have hslots : t1.slots = t.slots.modify
      (fun l => l ++ [⟨t.nextElem, { task with slot := (slot : Int), circle := circ }⟩]) slot := by
    rw [ht1]
  have hcur : t1.currentSlot = t.currentSlot := by rw [ht1]
  refine ⟨?_, ?_, ?_, ?_, ?_, ?_⟩
  · rw [(hperm.map _).nodup_iff, List.map_cons, List.nodup_cons]
    refine ⟨?_, hinv.ids⟩
    intro hmem
    obtain ⟨p, hp, hpe⟩ := List.mem_map.1 hmem
    have := hinv.fresh p hp
    simp only at hpe
    omega
  · intro p hp
    rw [hnext]
    rcases List.mem_cons.1 (hperm.mem_iff.1 hp) with hp1 | hp1
    · rw [hp1]; simp
    · have := hinv.fresh p hp1
      omega
  · rw [hrec]
    exact Store_entries _ _ _ hinv.entries
  · intro p hp
    rw [hrec] at hp
    unfold Store at hp
    rw [hperm.mem_iff]
    rcases List.mem_append.1 hp with h1 | h1
    · exact List.mem_cons_of_mem _ (hinv.points p ((mem_Delete _ _ _).1 h1).1)
    · rw [List.mem_singleton] at h1
      rw [h1]
      exact List.mem_cons_self _ _
  · intro i l hl e he
    rw [hslots, List.getElem?_modify] at hl
    cases hg : t.slots[i]? with
    | none => simp [hg] at hl
    | some l0 =>
      simp only [hg, Option.map_eq_map, Option.map_some', Option.some.injEq] at hl
      by_cases hi : slot = i
      · simp only [hi, if_true] at hl
        rw [← hl] at he
        rcases List.mem_append.1 he with he1 | he1
        · exact hinv.slotOf i l0 hg e he1
        · simp only [List.mem_singleton] at he1
          rw [he1]
      · simp only [hi, if_false] at hl
        rw [← hl] at he
        exact hinv.slotOf i l0 hg e he
  · rw [hcur, hslots, List.length_modify]
    exact hinv.cursor

/-- `Linked` is kept when one element is unlinked from a slot list and its key is deleted
from the index; the unlinked element is then not linked any more. -/
theorem Linked_unlink (t t1 : XTimeWheel) (i : Nat) (l1 l2 : List Element) (e : Element)
    (f : List Element → List Element) (hinv : Linked t)
    (hl : t.slots[i]? = some (l1 ++ e :: l2)) (hf : f (l1 ++ e :: l2) = l1 ++ l2)
    (hslots : t1.slots = t.slots.modify f i)
    (hrec : t1.taskRecords = Delete e.Value.key t.taskRecords)
    (hnext : t1.nextElem = t.nextElem) (hcur : t1.currentSlot = t.currentSlot) :
    Linked t1 ∧ (∀ x ∈ t1.slots.flatten, x.id ≠ e.id) := by
  have hperm : (pairs t).Perm ((e.Value.key, e.id) :: pairs t1) := by
    unfold pairs
    rw [hslots]
    exact (flatten_modify_unlink t.slots i l1 l2 e f hl hf).map _
  have hids := (hperm.map (fun p => p.2)).nodup_iff.1 hinv.ids
  rw [List.map_cons, List.nodup_cons] at hids
  have hsub : ∀ p, p ∈ pairs t1 → p ∈ pairs t := fun p hp =>
    hperm.mem_iff.2 (List.mem_cons_of_mem _ hp)
  refine ⟨⟨hids.2, ?_, ?_, ?_, ?_, ?_⟩, ?_⟩
  · intro p hp
    rw [hnext]
    exact hinv.fresh p (hsub p hp)
  · rw [hrec]
    exact Delete_entries _ _ hinv.entries
  · intro p hp
    rw [hrec, mem_Delete] at hp
    rcases List.mem_cons.1 (hperm.mem_iff.1 (hinv.points p hp.1)) with h1 | h1
    · exact absurd (by rw [h1]) hp.2
    · exact h1
  · intro j l hj x hx
    rw [hslots, List.getElem?_modify] at hj
    cases hg : t.slots[j]? with
    | none => simp [hg] at hj
    | some l0 =>
      simp only [hg, Option.map_eq_map, Option.map_some', Option.some.injEq] at hj
      by_cases hi : i = j
      · subst hi
        rw [hl, Option.some.injEq] at hg
        simp only [if_true] at hj
        rw [← hg, hf] at hj
        rw [← hj] at hx
        refine hinv.slotOf i _ hl x ?_
        rcases List.mem_append.1 hx with hx1 | hx1
        · exact List.mem_append_left _ hx1
        · exact List.mem_append_right _ (List.mem_cons_of_mem _ hx1)
      · simp only [hi, if_false] at hj
        rw [← hj] at hx
        exact hinv.slotOf j l0 hg x hx
  · rw [hcur, hslots, List.length_modify]
    exact hinv.cursor
  · intro x hx hxe
    apply hids.1
    unfold pairs
    rw [List.map_map]
    exact List.mem_map.2 ⟨x, hx, hxe⟩

/-- `Linked` does not see the circle of a task. -/
theorem Linked_decremented (t : XTimeWheel) (i : Nat) (hinv : Linked t) :
    Linked (decremented t i) := by
  have hp : pairs (decremented t i) = pairs t := by
    unfold pairs decremented
    exact flatten_modify_map t.slots t.currentSlot i _ _ (fun _ => rfl)
  refine ⟨by rw [hp]; exact hinv.ids, by rw [hp]; exact hinv.fresh, hinv.entries,
    by rw [hp]; exact hinv.points, ?_, ?_⟩
  · intro j l hj x hx
    simp only [decremented] at hj
    rw [List.getElem?_modify] at hj
    cases hg : t.slots[j]? with
    | none => simp [hg] at hj
    | some l0 =>
      simp only [hg, Option.map_eq_map, Option.map_some', Option.some.injEq] at hj
      by_cases hi : t.currentSlot = j
      · simp only [hi, if_true] at hj
        rw [← hj] at hx
        rcases mem_modify _ _ _ _ hx with h1 | ⟨y, hy, hxy⟩
        · exact hinv.slotOf j l0 hg x h1
        · rw [hxy]
          exact hinv.slotOf j l0 hg y hy
      · simp only [hi, if_false] at hj
        rw [← hj] at hx
        exact hinv.slotOf j l0 hg x hx
  · simp only [decremented, List.length_modify]
    exact hinv.cursor

/-- `Linked` is kept by the loop of execute, started at position `i` of the list of the
current slot. -/
theorem Linked_executeLoop (rest : List Element) (t t1 : XTimeWheel) (i : Nat)
    (pre : List Element) (hinv : Linked t)
    (hl : t.slots[t.currentSlot]? = some (pre ++ rest)) (hi : pre.length = i)
    (h : executeLoop t i rest = some t1) : Linked t1 := by
  induction rest generalizing t i pre with
  | nil =>
    simp only [executeLoop, Option.some.injEq] at h
    rw [← h]
    exact hinv
  | cons ele rest ih =>
    by_cases hc : ele.Value.circle > 0
    · rw [executeLoop_wait t i ele rest hc] at h
      refine ih (decremented t i) (i + 1)
        (pre ++ [{ ele with Value := { ele.Value with circle := ele.Value.circle - 1 } }])
        (Linked_decremented t i hinv) ?_ (by simp [hi]) h
      simp only [decremented, List.getElem?_modify_eq, hl, Option.map_eq_map, Option.map_some',
        Option.some.injEq]
      rw [← hi, modify_append_cons]
      simp
    · rw [executeLoop_due t i ele rest hc] at h
      obtain ⟨hu, _⟩ := Linked_unlink t (unlinked t i ele) t.currentSlot pre rest ele
        (fun l => l.eraseIdx i) hinv hl (by rw [← hi]; exact eraseIdx_append_cons pre ele rest)
        rfl rfl rfl rfl
      split at h
      · exact Linked_addTask _ _ { ele.Value with times := wrapInt (ele.Value.times - 1) } hu h
      · split at h
        · exact Linked_addTask _ _ _ hu h
        · simp only [Option.some.injEq] at h
          rw [← h]
          exact hu

/-- `Linked` is kept by a tick. -/
theorem Linked_execute (t t1 : XTimeWheel) (hinv : Linked t) (h : execute t = some t1) :
    Linked t1 := by
  unfold execute at h
  split at h
  · simp at h
  · rename_i taskList hl
    simp only [Option.map_eq_some'] at h
    obtain ⟨t2, h2, rfl⟩ := h
    have hi2 := Linked_executeLoop taskList t t2 0 [] hinv (by simpa using hl) rfl h2
    refine ⟨hi2.ids, hi2.fresh, hi2.entries, hi2.points, hi2.slotOf, ?_⟩
    simp only [incrCurrentSlot]
    exact Nat.mod_lt _ (by have := hi2.cursor; omega)

/-- Two linked elements with the same identity are the same element. -/
theorem Linked_id_inj (t : XTimeWheel) (hinv : Linked t) (a c : Element)
    (ha : a ∈ t.slots.flatten) (hc : c ∈ t.slots.flatten) (h : a.id = c.id) : a = c := by
  have hn : (t.slots.flatten.map (fun e => e.id)).Nodup := by
    have := hinv.ids
    unfold pairs at this
    rw [List.map_map] at this
    exact this
  exact List.inj_on_of_nodup_map hn ha hc h

/-- Under `Linked`, removeTask on a key of the index unlinks the element the index points to
from the slot list that holds it and deletes the key; no linked element has that identity
afterwards, and `Linked` is kept. -/
theorem removeTask_linked (t : XTimeWheel) (key : String) (id : Nat) (hinv : Linked t)
    (hmem : (key, id) ∈ t.taskRecords) :
    ∃ (j : Nat) (l1 l2 : List Element) (ele : Element),
      t.slots[j]? = some (l1 ++ ele :: l2) ∧ ele.id = id ∧ ele.Value.key = key ∧
      removeTask t key = some { t with
        slots := t.slots.set j (l1 ++ l2)
        taskRecords := Delete key t.taskRecords } ∧
      Linked { t with
        slots := t.slots.set j (l1 ++ l2)
        taskRecords := Delete key t.taskRecords } ∧
      ∀ x ∈ (t.slots.set j (l1 ++ l2)).flatten, x.id ≠ id := by
  have hsome := (Load_isSome_iff key t.taskRecords).2 ⟨id, hmem⟩
  obtain ⟨id1, hload⟩ := Option.isSome_iff_exists.1 hsome
  have hmem1 := Load_some_mem key _ id1 hload
  have hid : id1 = id := by
    have := List.inj_on_of_nodup_map hinv.entries hmem1 hmem rfl
    exact (Prod.mk.injEq _ _ _ _ ▸ this).2
  rw [hid] at hload
  have hp := hinv.points (key, id) hmem
  unfold pairs at hp
  obtain ⟨e0, he0, hpe⟩ := List.mem_map.1 hp
  simp only [Prod.mk.injEq] at hpe
  have hfind : ∃ ele, findElement t.slots id = some ele := by
    cases hf : findElement t.slots id with
    | none =>
      unfold findElement at hf
      have := List.find?_eq_none.1 hf e0 he0
      simp only [decide_eq_true_eq] at this
      exact absurd hpe.2 this
    | some ele => exact ⟨ele, rfl⟩
  obtain ⟨ele, hfe⟩ := hfind
  have hfe2 := hfe
  unfold findElement at hfe2
  have hele := List.mem_of_find?_eq_some hfe2
  have hide := List.find?_some hfe2
  simp only [decide_eq_true_eq] at hide
  have heq : ele = e0 := Linked_id_inj t hinv ele e0 hele he0 (by rw [hide, hpe.2])
  obtain ⟨l, hl, hin⟩ := List.mem_flatten.1 hele
  obtain ⟨j, hj⟩ := List.mem_iff_getElem?.1 hl
  have hslot := hinv.slotOf j l hj ele hin
  have hjlt := getElem?_lt_of_eq_some _ _ _ hj
  have hjn : ele.Value.slot.toNat = j := by rw [hslot]; exact Int.toNat_ofNat j
  obtain ⟨a, l1, l2, _, hpa, hsplit, herase⟩ :=
    List.exists_of_eraseP (p := fun e => decide (e.id = id)) hin (by simp [hide])
  simp only [decide_eq_true_eq] at hpa
  have hain : a ∈ t.slots.flatten := List.mem_flatten.2 ⟨l, hl, by rw [hsplit]; simp⟩
  have ha : a = ele := Linked_id_inj t hinv a ele hain hele (by rw [hpa, hide])
  rw [ha] at hsplit
  have hkey : ele.Value.key = key := by rw [heq]; exact hpe.1
  have hj2 : t.slots[j]? = some (l1 ++ ele :: l2) := by rw [hj, hsplit]
  obtain ⟨hlinked, hgone⟩ := Linked_unlink t
    { t with slots := t.slots.set j (l1 ++ l2), taskRecords := Delete key t.taskRecords }
    j l1 l2 ele (fun _ => l1 ++ l2) hinv hj2 rfl
    (by simp only; rw [modify_eq_set_of_getElem? _ _ _ _ hj2]) (by rw [hkey]) rfl rfl
  refine ⟨j, l1, l2, ele, hj2, hide, hkey, ?_, hlinked, ?_⟩
  · unfold removeTask
    rw [hload]
    simp only [hfe]
    rw [if_pos ⟨by rw [hslot]; omega, by rw [hjn]; exact hjlt⟩, hjn,
      modify_eq_set_of_getElem? _ _ _ _ hj]
    unfold Remove
    rw [herase]
  · intro x hx
    rw [← hide]
    exact hgone x hx

/-- `Linked` is kept by removeTask, which completes. -/
theorem Linked_removeTask (t : XTimeWheel) (key : String) (hinv : Linked t) :
    ∃ t1, removeTask t key = some t1 ∧ Linked t1 := by
  cases hL : Load key t.taskRecords with
  | none => exact ⟨t, by unfold removeTask; rw [hL], hinv⟩
  | some id =>
    obtain ⟨_, _, _, _, _, _, _, hrem, hl, _⟩ :=
      removeTask_linked t key id hinv (Load_some_mem key _ id hL)
    exact ⟨_, hrem, hl⟩

/-- `Linked` is kept by every step of a caller or of the loop. -/
theorem Linked_step (s s1 : Handoff) (st : Step) (hinv : Linked s.wheel)
    (h : st.apply s = some s1) : Linked s1.wheel := by
  cases st with
  | call key job executeAt times =>
    simp only [Step.apply] at h
    split at h <;>
    · simp only [Option.some.injEq] at h
      rw [← h]; exact hinv
  | insert i =>
    simp only [Step.apply] at h
    split at h
    · simp only [Option.some.injEq] at h
      rw [← h]; exact hinv
    · rename_i task _
      simp only [Option.map_eq_some'] at h
      obtain ⟨w, hw, rfl⟩ := h
      exact Linked_addTask _ _ task hinv hw
  | remove key =>
    simp only [Step.apply] at h
    split at h
    · simp only [Option.some.injEq] at h
      rw [← h]; exact hinv
    · rename_i k _
      simp only [Option.map_eq_some'] at h
      obtain ⟨w, hw, rfl⟩ := h
      obtain ⟨t1, h1, h2⟩ := Linked_removeTask s.wheel k hinv
      rw [hw, Option.some.injEq] at h1
      rw [h1]
      exact h2
  | tick =>
    simp only [Step.apply, Option.map_eq_some'] at h
    obtain ⟨w, hw, rfl⟩ := h
    exact Linked_execute _ _ hinv hw

theorem Linked_runSteps (steps : List Step) (s s1 : Handoff) (hinv : Linked s.wheel)
    (h : runSteps s steps = some s1) : Linked s1.wheel := by
  induction steps generalizing s with
  | nil =>
    simp only [runSteps, Option.some.injEq] at h
    rw [← h]; exact hinv
  | cons st rest ih =>
    simp only [runSteps] at h
    split at h
    · simp at h
    · rename_i s2 h2
      exact ih s2 (Linked_step s s2 st hinv h2) h

/-- `Linked` holds on every wheel returned by NewXTimingWheel. -/
theorem Linked_NewXTimingWheel (interval slotNum : Int) (t : XTimeWheel)
    (h : NewXTimingWheel interval slotNum = .ok t) : Linked t := by
  have hinv := Inv_NewXTimingWheel interval slotNum t h
  obtain ⟨_, _, hs, _⟩ := NewXTimingWheel_ok interval slotNum t h
  have hr : t.taskRecords = [] := by
    have hp : pairs t = [] := by
      unfold pairs
      rw [hs, flatten_replicate_nil]
      rfl
    cases hrec : t.taskRecords with
    | nil => rfl
    | cons p ps =>
      have := (hinv.index p).1 (by rw [hrec]; exact List.mem_cons_self _ _)
      rw [hp] at this
      simp at this
  exact ⟨hinv.ids, hinv.fresh, by rw [hr]; simp, by rw [hr]; simp, hinv.slotOf, hinv.cursor⟩

/-! ## What removeTask removes -/

/-- C18: in every state reached from NewXTimingWheel under any schedule of AddTask calls,
insertions, RemoveTask calls and ticks, removeTask on a key of the index completes and
unlinks exactly the element that the index holds for the key: the slot list that held it
keeps its other tasks as they were and in their order, every other slot list is unchanged, no
linked element is that element any more, the index loses the entry of the key and keeps the
others in their order, and the cursor, the allocation counter and the started jobs are
unchanged. -/
theorem removeTask_removes_exactly_one (interval slotNum : Int) (t0 : XTimeWheel)
    (s : Handoff) (steps : List Step) (key : String) (id : Nat)
    (h0 : NewXTimingWheel interval slotNum = .ok t0) (h : runSteps ⟨t0, []⟩ steps = some s)
    (hmem : (key, id) ∈ s.wheel.taskRecords) :
    ∃ (j : Nat) (l1 l2 : List Element) (ele : Element) (t1 : XTimeWheel),
      s.wheel.slots[j]? = some (l1 ++ ele :: l2) ∧ ele.id = id ∧ ele.Value.key = key ∧
      removeTask s.wheel key = some t1 ∧
      t1.slots[j]? = some (l1 ++ l2) ∧
      (∀ i, i ≠ j → t1.slots[i]? = s.wheel.slots[i]?) ∧
      (∀ e ∈ t1.slots.flatten, e.id ≠ id) ∧
      t1.taskRecords = s.wheel.taskRecords.filter (fun p => p.1 ≠ key) ∧
      (∀ id1, (key, id1) ∉ t1.taskRecords) ∧
      t1.currentSlot = s.wheel.currentSlot ∧ t1.nextElem = s.wheel.nextElem ∧
      t1.spawned = s.wheel.spawned := by
  have hinv := Linked_runSteps steps ⟨t0, []⟩ s (Linked_NewXTimingWheel interval slotNum t0 h0) h
  obtain ⟨j, l1, l2, ele, hj, hid, hkey, hrem, _, hgone⟩ :=
    removeTask_linked s.wheel key id hinv hmem
  have hjlt := getElem?_lt_of_eq_some _ _ _ hj
  refine ⟨j, l1, l2, ele, _, hj, hid, hkey, hrem, ?_, ?_, hgone, rfl, ?_, rfl, rfl, rfl⟩
  · simp only
    rw [List.getElem?_set_self hjlt]
  · intro i hi
    simp only
    rw [List.getElem?_set_ne (Ne.symm hi)]
  · intro id1 hm
    simp only at hm
    rw [mem_Delete] at hm
    exact hm.2 rfl

/-- C18 on the default wheel, in a state with the tasks a (linked twice after a stale check,
elements 0 and 1) and b (element 2), all in slot 1: removeTask(a) unlinks element 1, the one
the index holds, and leaves the elements 0 and 2 in their order and the entry of b. -/
theorem removeTask_removes_exactly_one_witness :
    ∃ s t1, runSteps ⟨defaultWheel, []⟩ [.call "a" 1 Second 1, .call "a" 2 Second 1,
        .insert 0, .insert 0, .call "b" 3 Second 1, .insert 0] = some s ∧
      removeTask s.wheel "a" = some t1 ∧
      t1.taskRecords = s.wheel.taskRecords.filter (fun p => p.1 ≠ "a") ∧
      (∀ e ∈ t1.slots.flatten, e.id ≠ 1) ∧ t1.currentSlot = s.wheel.currentSlot := by
  cases h : runSteps ⟨defaultWheel, []⟩ [.call "a" 1 Second 1, .call "a" 2 Second 1,
      .insert 0, .insert 0, .call "b" 3 Second 1, .insert 0] with
  | none => exact absurd h (by decide)
  | some s =>
    have hrec : (runSteps ⟨defaultWheel, []⟩ [.call "a" 1 Second 1, .call "a" 2 Second 1,
        .insert 0, .insert 0, .call "b" 3 Second 1, .insert 0]).map
        (fun s => s.wheel.taskRecords) = some [("a", 1), ("b", 2)] := by decide
    rw [h, Option.map_some', Option.some.injEq] at hrec
    obtain ⟨_, _, _, _, t1, _, _, _, hrem, _, _, hgone, hidx, _, hcur, _⟩ :=
      removeTask_removes_exactly_one Second 12 defaultWheel s _ "a" 1 rfl h
        (by rw [hrec]; simp)
    exact ⟨s, t1, rfl, hrem, hidx, hgone, hcur⟩

/-! ## A key linked twice -/

/-- C5: on the default wheel two calls AddTask(a, ..., 1 s, 1) both pass their checks when
the second is checked before the loop has stored the first: the first call leaves the wheel
as it was, so the second finds no entry for the key. The loop then inserts both tasks.
Afterwards slot 1 links two tasks with the key a and the index holds one entry, for the
second: the key is in the index while two tasks have it. -/
theorem stale_validation_links_key_twice :
    runSteps ⟨defaultWheel, []⟩ [.call "a" 1 Second 1]
      = some ⟨defaultWheel, [⟨"a", 1, Second, 1, 0, 0⟩]⟩ ∧
    AddTask defaultWheel "a" 2 Second 1 = .ok ⟨"a", 2, Second, 1, 0, 0⟩ ∧
    (runSteps ⟨defaultWheel, []⟩ [.call "a" 1 Second 1, .call "a" 2 Second 1, .insert 0,
        .insert 0]).map (fun s => s.inFlight) = some [] ∧
    (runSteps ⟨defaultWheel, []⟩ [.call "a" 1 Second 1, .call "a" 2 Second 1, .insert 0,
        .insert 0]).map (fun s => s.wheel.slots[1]?) =
      some (some [⟨0, ⟨"a", 1, Second, 1, 1, 0⟩⟩, ⟨1, ⟨"a", 2, Second, 1, 1, 0⟩⟩]) ∧
    (runSteps ⟨defaultWheel, []⟩ [.call "a" 1 Second 1, .call "a" 2 Second 1, .insert 0,
        .insert 0]).map (fun s => s.wheel.taskRecords) = some [("a", 1)] ∧
    (runSteps ⟨defaultWheel, []⟩ [.call "a" 1 Second 1, .call "a" 2 Second 1, .insert 0,
        .insert 0]).map (fun s => (s.wheel.slots.flatten.map (fun e => e.Value.key)).count "a")
      = some 2 :=
  ⟨by decide, rfl, by decide, by decide, by decide, by decide⟩

/-- C8: on the default wheel, after two calls AddTask(a, job, 2 s, 1) of which the second is
checked before the first is stored, slot 2 links two tasks with the key a and the key is in
the index. The loop then serves RemoveTask(a): the key leaves the index and the element the
index held is unlinked, but the other task with the key a stays in slot 2; no job is started
during the next two ticks, and the third tick starts the job for a. -/
theorem removeTask_leaves_duplicate_that_fires :
    (runSteps ⟨defaultWheel, []⟩ [.call "a" 1 (2 * Second) 1, .call "a" 2 (2 * Second) 1,
        .insert 0, .insert 0]).map (fun s => s.wheel.taskRecords) = some [("a", 1)] ∧
    (runSteps ⟨defaultWheel, []⟩ [.call "a" 1 (2 * Second) 1, .call "a" 2 (2 * Second) 1,
        .insert 0, .insert 0, .remove "a"]).map (fun s => s.wheel.taskRecords) = some [] ∧
    (runSteps ⟨defaultWheel, []⟩ [.call "a" 1 (2 * Second) 1, .call "a" 2 (2 * Second) 1,
        .insert 0, .insert 0, .remove "a"]).map (fun s => s.wheel.slots[2]?) =
      some (some [⟨0, ⟨"a", 1, 2 * Second, 1, 2, 0⟩⟩]) ∧
    (runSteps ⟨defaultWheel, []⟩ [.call "a" 1 (2 * Second) 1, .call "a" 2 (2 * Second) 1,
        .insert 0, .insert 0, .remove "a", .tick, .tick]).map (fun s => s.wheel.spawned)
      = some [] ∧
    (runSteps ⟨defaultWheel, []⟩ [.call "a" 1 (2 * Second) 1, .call "a" 2 (2 * Second) 1,
        .insert 0, .insert 0, .remove "a", .tick, .tick, .tick]).map
        (fun s => (s.wheel.spawned, s.wheel.taskRecords)) = some ([(1, "a")], []) := by
  refine ⟨?_, ?_, ?_, ?_, ?_⟩ <;> decide

end XTool
